import Mathlib

/-!
# Splash inter-process link

A shallow embedding of `src/src/link.cpp`: the control-channel wire codec
(`Link::sendMessage` and the `recvMessage` helper of `Link::handleInputMessages`),
the data channel (`Link::sendBuffer`, `Link::handleInputBuffers`) and the registry of
buffers being sent (`_otgBuffers`, `Link::freeOlderBuffer`).

Conventions of the embedding

* A frame is one `zmq::message_t`; its content is a list of bytes.
* An outbound socket records the frames handed to it, in order, together with a script
  saying which of the coming `send` calls raise a `zmq::error_t`.
* An inbound socket is the list of things the coming `recv` calls will meet: a frame, or a
  raised `zmq::error_t`.  When the list is exhausted `recv` blocks.
* Objects of type `int` are little-endian, 32 bit, two's complement.
* The transport between an outbound socket and the inbound socket of the peer is taken to
  keep every frame, in order (`wire`); the root object is taken to be alive when a receive
  loop calls it.  Log lines are left out.
-/

namespace Splash

/-- One octet. -/
abbrev Byte := Fin 256

/-! ## Machine integers and object representations -/

/-- A C `int`: 32 bit, two's complement. -/
abbrev CInt := { n : Int // -2147483648 ≤ n ∧ n < 2147483648 }

/-- Conversion of an integer value to `int`, as in `int size = message.size()`: the value
is reduced modulo `2^32` into the range of `int`. -/
def toCInt (n : Int) : CInt :=
  ⟨(n + 2147483648) % 4294967296 - 2147483648, by omega⟩

/-- The `k` low-order bytes of `n`, least significant byte first. -/
def leBytes : Nat → Nat → List Byte
  | 0, _ => []
  | k + 1, n => ⟨n % 256, Nat.mod_lt _ (by decide)⟩ :: leBytes k (n / 256)

/-- The number whose little-endian digits are the given bytes. -/
def leValue : List Byte → Nat
  | [] => 0
  | b :: bs => b.val + 256 * leValue bs

/-- The `sizeof(int)` bytes of an `int` object, as copied by `memcpy(msg.data(), &size, sizeof(size))`. -/
def intBytes (n : CInt) : List Byte :=
  leBytes 4 (n.val % 4294967296).toNat

/-- The read `*(int*)msg.data()`.  It is defined only when the frame holds at least
`sizeof(int)` bytes; `none` stands for a read past the end of the frame. -/
def readInt (data : List Byte) : Option CInt :=
  if 4 ≤ data.length then some (toCInt (leValue (data.take 4))) else none

/-- A C `float`, identified with the four bytes of its object representation.  The link
only ever copies these bytes; it performs no arithmetic on them. -/
abbrev CFloat := { bs : List Byte // bs.length = 4 }

/-- The read `*(float*)msg.data()`; `none` stands for a read past the end of the frame. -/
def readFloat (data : List Byte) : Option CFloat :=
  if h : 4 ≤ data.length then some ⟨data.take 4, by simp [List.length_take, h]⟩ else none

/-- The read `std::string((char*)msg.data())`: the bytes before the first zero byte.
`none` stands for a frame without a zero byte, where the read runs past its end. -/
def readCString : List Byte → Option (List Byte)
  | [] => none
  | b :: bs => if b.val = 0 then some [] else (readCString bs).map (fun r => b :: r)

/-- The bytes at `str.c_str()`, terminator included (`str.size() + 1` bytes). -/
def cString (str : List Byte) : List Byte := str ++ [⟨0, by decide⟩]

/-- The byte with the given value (reduced modulo 256). -/
def byte (n : Nat) : Byte := ⟨n % 256, Nat.mod_lt _ (by decide)⟩

/-- The bytes of an ASCII text. -/
def ascii (text : String) : List Byte :=
  text.data.map fun c => byte c.toNat

/-- The string holds no zero byte. -/
def noZero (str : List Byte) : Bool :=
  str.all fun b => decide (b.val ≠ 0)

/-! ## Values -/

/-- The enumeration `Value::Type`, restricted to the enumerators `link.cpp` uses. -/
inductive ValueType where
  | i
  | f
  | s
  | v
deriving DecidableEq, Repr

/-- Modelled from the spec: the declaration of `Value::Type` (in `coretypes.h`) is not
part of the sources at hand, and the spec fixes no numbering.  The enumerators are taken
to be numbered `0, 1, 2, 3` in the order `i`, `f`, `s`, `v`, and the enumeration to have
the size of an `int`.  The theorems below use only that the four codes are distinct. -/
def ValueType.code : ValueType → CInt
  | .i => toCInt 0
  | .f => toCInt 1
  | .s => toCInt 2
  | .v => toCInt 3

/-- Modelled from the spec: the declaration of `Value` (in `coretypes.h`) is not part of
the sources at hand.  A `Value` is a tagged union of a 32-bit integer, a 32-bit float, a
string and a nested ordered sequence of `Value`. -/
inductive Value where
  | i (n : CInt)
  | f (x : CFloat)
  | s (str : List Byte)
  | v (vs : List Value)

/-- The type `Values`: an ordered sequence of `Value`. -/
abbrev Values := List Value

/-- The member `Value::getType`. -/
def Value.getType : Value → ValueType
  | .i _ => .i
  | .f _ => .f
  | .s _ => .s
  | .v _ => .v

/-- Modelled from the spec: `Value::size` is declared in `coretypes.h`.  It is the width of
a numeric value (32 bit), the length of a string, the element count of a sequence. -/
def Value.size : Value → Nat
  | .i _ => 4
  | .f _ => 4
  | .s str => str.length
  | .v vs => vs.length

/-- Modelled from the spec: `Value::data` is declared in `coretypes.h`.  These are the bytes
readable at the returned address: the object representation of a numeric value, the
zero-terminated characters of a string. -/
def Value.data : Value → List Byte
  | .i n => intBytes n
  | .f x => x.val
  | .s str => cString str
  | .v _ => []

/-! ## Frames and sockets -/

/-- One `zmq::message_t` handed to `send`: its content, whether `ZMQ_SNDMORE` was given, and,
for a message built over foreign memory (`rebuild(data, size, ffn, hint)`), the address that
the release callback will be called with. -/
structure Frame where
  data : List Byte
  more : Bool
  owner : Option Nat
deriving DecidableEq, Repr

/-- A `zmq::error_t`, told apart only by whether `errno` is `ETERM`. -/
inductive ZmqError where
  | eterm
  | other
deriving DecidableEq, Repr

/-- An outbound (PUB) socket: the frames accepted so far, oldest first, and the script of
the coming `send` calls (`some e`: that call raises `e`; `none`, or an exhausted script:
that call succeeds). -/
structure OutSocket where
  sent : List Frame
  script : List (Option ZmqError)

/-- A socket on which nothing was sent and no `send` will raise. -/
def OutSocket.fresh : OutSocket := ⟨[], []⟩

/-- The call `socket->send(msg, flags)`.  The first component is the error raised, if any. -/
def OutSocket.send (sock : OutSocket) (frame : Frame) : Option ZmqError × OutSocket :=
  match sock.script with
  | some e :: script => (some e, ⟨sock.sent, script⟩)
  | none :: script => (none, ⟨sock.sent ++ [frame], script⟩)
  | [] => (none, ⟨sock.sent ++ [frame], []⟩)

/-- Sequencing of two steps on a socket: the second runs only if the first raised nothing. -/
def andThen (r : Option ZmqError × OutSocket) (k : OutSocket → Option ZmqError × OutSocket) :
    Option ZmqError × OutSocket :=
  match r with
  | (some e, sock) => (some e, sock)
  | (none, sock) => k sock

/-! ## `Link::sendMessage` -/

/-- The head of the helper lambda `sendMessage`: the frame with the element count
(lines 131-138).  The count is converted to `int`; the frame is final only for an empty
sequence. -/
def sendSize (sock : OutSocket) (message : Values) : Option ZmqError × OutSocket :=
  sock.send ⟨intBytes (toCInt message.length), decide (message.length ≠ 0), none⟩

mutual
/-- The body of the `for` loop of the helper lambda, for the element `message[i]`
(lines 142-162); `size` is `message.size()`.  In the branch of a nested sequence the
recursive call of the lambda is its head `sendSize` followed by its loop. -/
def sendElement (size i : Nat) (sock : OutSocket) : Value → Option ZmqError × OutSocket
  | .v vs =>
    andThen (sock.send ⟨intBytes ValueType.v.code, true, none⟩) fun sock =>
    andThen (sendSize sock vs) fun sock =>
    sendElements vs.length 0 sock vs
  | .i n =>
    andThen (sock.send ⟨intBytes ValueType.i.code, true, none⟩) fun sock =>
    sock.send ⟨(Value.i n).data.take (Value.i n).size, decide (i ≠ size - 1), none⟩
  | .f x =>
    andThen (sock.send ⟨intBytes ValueType.f.code, true, none⟩) fun sock =>
    sock.send ⟨(Value.f x).data.take (Value.f x).size, decide (i ≠ size - 1), none⟩
  | .s str =>
    andThen (sock.send ⟨intBytes ValueType.s.code, true, none⟩) fun sock =>
    sock.send ⟨(Value.s str).data.take ((Value.s str).size + 1), decide (i ≠ size - 1), none⟩
/-- The `for` loop of the helper lambda from index `i` on, over the elements not yet sent
(line 140). -/
def sendElements (size i : Nat) (sock : OutSocket) : List Value → Option ZmqError × OutSocket
  | [] => (none, sock)
  | v :: rest =>
    andThen (sendElement size i sock v) fun sock =>
    sendElements size (i + 1) sock rest
end

/-- The helper lambda `sendMessage` of `Link::sendMessage` (lines 129-164). -/
def sendValues (sock : OutSocket) (message : Values) : Option ZmqError × OutSocket :=
  andThen (sendSize sock message) fun sock =>
  sendElements message.length 0 sock message

/-- The frames of one `Link::sendMessage` call, up to the first raised error (lines 115-167). -/
def sendMessageFrames (sock : OutSocket) (name attrib : List Byte) (message : Values) :
    Option ZmqError × OutSocket :=
  andThen (sock.send ⟨cString name, true, none⟩) fun sock =>
  andThen (sock.send ⟨cString attrib, true, none⟩) fun sock =>
  sendValues sock message

/-! ## Receiving -/

/-- What one `recv` call on an inbound (SUB) socket meets. -/
inductive InEvent where
  | frame (data : List Byte)
  | raise (e : ZmqError)
deriving DecidableEq, Repr

/-- Why a receiving computation does not return a value. -/
inductive Stop where
  /-- The call `recv` found nothing to receive and waits. -/
  | blocked
  /-- A `zmq::error_t` was raised by `recv`. -/
  | raised (e : ZmqError)
  /-- A read ran past the end of a frame. -/
  | undefined
  /-- The bound on the recursion of the model was reached. -/
  | outOfFuel
deriving DecidableEq, Repr

/-- The call `socket->recv(&msg)`: the content of the next frame and the events left. -/
def recv : List InEvent → Except Stop (List Byte × List InEvent)
  | [] => .error .blocked
  | .raise e :: _ => .error (.raised e)
  | .frame data :: rest => .ok (data, rest)

/-- The frames as the peer receives them when the transport keeps them all, in order. -/
def wire (frames : List Frame) : List InEvent :=
  frames.map fun frame => InEvent.frame frame.data

/-- The `for` loop of the helper lambda `recvMessage` (lines 222-238), with `n` iterations
left and `values` collected so far; `recvMessage` is the lambda itself, for the nested
sequences. -/
def recvElements (recvMessage : List InEvent → Except Stop (Values × List InEvent)) :
    Nat → List InEvent → Values → Except Stop (Values × List InEvent)
  | 0, evs, values => .ok (values, evs)
  | n + 1, evs, values =>
    match recv evs with
    | .error stop => .error stop
    | .ok (msg, evs) =>
      match readInt msg with
      | none => .error .undefined
      | some valueType =>
        if valueType = ValueType.v.code then
          match recvMessage evs with
          | .error stop => .error stop
          | .ok (nested, evs) => recvElements recvMessage n evs (values ++ [Value.v nested])
        else
          match recv evs with
          | .error stop => .error stop
          | .ok (msg, evs) =>
            if valueType = ValueType.i.code then
              match readInt msg with
              | none => .error .undefined
              | some x => recvElements recvMessage n evs (values ++ [Value.i x])
            else if valueType = ValueType.f.code then
              match readFloat msg with
              | none => .error .undefined
              | some x => recvElements recvMessage n evs (values ++ [Value.f x])
            else if valueType = ValueType.s.code then
              match readCString msg with
              | none => .error .undefined
              | some str => recvElements recvMessage n evs (values ++ [Value.s str])
            else
              recvElements recvMessage n evs values

/-- The helper lambda `recvMessage` of `Link::handleInputMessages` (lines 217-240), with
a bound `fuel` on the depth of its recursion. -/
def recvMessageAux : Nat → List InEvent → Except Stop (Values × List InEvent)
  | 0, _ => .error .outOfFuel
  | fuel + 1, evs =>
    match recv evs with
    | .error stop => .error stop
    | .ok (msg, evs) =>
      match readInt msg with
      | none => .error .undefined
      | some size => recvElements (recvMessageAux fuel) size.val.toNat evs []

/-- The helper lambda `recvMessage`.  Every level of recursion receives a frame first, so
one more level than there are events is never entered. -/
def recvMessage (evs : List InEvent) : Except Stop (Values × List InEvent) :=
  recvMessageAux (evs.length + 1) evs

/-- A call made on the root object. -/
inductive RootCall where
  | set (name attrib : List Byte) (values : Values)
  | setFromSerializedObject (name : List Byte) (buffer : List Byte)

/-- The outcome of a receive loop: the calls made on the root object, oldest first, and
the reason why the loop made no further call. -/
structure LoopResult where
  calls : List RootCall
  stop : Stop

/-- The `while (true)` loop of `Link::handleInputMessages` (lines 242-258), with a bound on
the number of iterations.  The `catch` clause is outside the loop: a raised error ends it. -/
def messageLoop : Nat → List InEvent → List RootCall → LoopResult
  | 0, _, calls => ⟨calls, .outOfFuel⟩
  | fuel + 1, evs, calls =>
    match recv evs with
    | .error stop => ⟨calls, stop⟩
    | .ok (msg, evs) =>
      match readCString msg with
      | none => ⟨calls, .undefined⟩
      | some name =>
        match recv evs with
        | .error stop => ⟨calls, stop⟩
        | .ok (msg, evs) =>
          match readCString msg with
          | none => ⟨calls, .undefined⟩
          | some attrib =>
            match recvMessage evs with
            | .error stop => ⟨calls, stop⟩
            | .ok (values, evs) => messageLoop fuel evs (calls ++ [RootCall.set name attrib values])

/-- The function `Link::handleInputMessages`, run on the events of its inbound socket.  Every
iteration of its loop receives a frame first, so the bound is never reached. -/
def handleInputMessages (evs : List InEvent) : LoopResult :=
  messageLoop (evs.length + 1) evs []

/-- The `while (true)` loop of `Link::handleInputBuffers` (lines 282-294), with a bound on
the number of iterations. -/
def bufferLoop : Nat → List InEvent → List RootCall → LoopResult
  | 0, _, calls => ⟨calls, .outOfFuel⟩
  | fuel + 1, evs, calls =>
    match recv evs with
    | .error stop => ⟨calls, stop⟩
    | .ok (msg, evs) =>
      match readCString msg with
      | none => ⟨calls, .undefined⟩
      | some name =>
        match recv evs with
        | .error stop => ⟨calls, stop⟩
        | .ok (msg, evs) => bufferLoop fuel evs (calls ++ [RootCall.setFromSerializedObject name msg])

/-- The function `Link::handleInputBuffers`, run on the events of its inbound socket. -/
def handleInputBuffers (evs : List InEvent) : LoopResult :=
  bufferLoop (evs.length + 1) evs []

/-! ## Buffers, leases and the link -/

/-- Modelled from the spec: `SerializedObject` is declared in `coretypes.h`, which is not
part of the sources at hand.  A buffer has an address returned by `data()` (its memory
identity), a content of `size()` bytes, and a transmit lease, the member `_mutex`
(`true`: locked). -/
structure SerializedObject where
  data : Nat
  bytes : List Byte
  mutex : Bool

/-- A `SerializedObjectPtr` designates a buffer object. -/
abbrev SerializedObjectPtr := Nat

/-- The buffer objects of the process. -/
abbrev Heap := SerializedObjectPtr → SerializedObject

/-- The heap after `buffer->_mutex` is locked (`true`) or unlocked (`false`). -/
def Heap.setMutex (heap : Heap) (buffer : SerializedObjectPtr) (locked : Bool) : Heap :=
  fun p => if p = buffer then ⟨(heap p).data, (heap p).bytes, locked⟩ else heap p

/-- The members of `Link` that sending touches: the two outbound sockets and the buffers
being sent, `_otgBuffers`. -/
structure Link where
  socketMessageOut : OutSocket
  socketBufferOut : OutSocket
  otgBuffers : List SerializedObjectPtr

/-- The function `Link::sendMessage` (lines 111-182).  An error raised by a `send` ends the
`try` block; the function returns `true` in every case. -/
def Link.sendMessage (link : Link) (name attrib : List Byte) (message : Values) : Bool × Link :=
  (true, ⟨(sendMessageFrames link.socketMessageOut name attrib message).2,
    link.socketBufferOut, link.otgBuffers⟩)

/-- The function `Link::freeOlderBuffer` (lines 185-201), the release callback of the
transport, called with the address `data` of the memory it no longer needs. -/
def Link.freeOlderBuffer (heap : Heap) (ctx : Link) (data : Nat) : Heap × Link :=
  let index := ctx.otgBuffers.findIdx fun buffer => (heap buffer).data == data
  if h : index < ctx.otgBuffers.length then
    (heap.setMutex (ctx.otgBuffers.get ⟨index, h⟩) false,
      ⟨ctx.socketMessageOut, ctx.socketBufferOut, ctx.otgBuffers.eraseIdx index⟩)
  else
    (heap, ctx)

/-- The function `Link::sendBuffer` (lines 82-108).  An error raised by a `send` ends the
`try` block, and the function returns `true` all the same.  When the second `send` raises,
the message built over the buffer is still owned by `msg`, whose destructor runs the
release callback as the block is left.  When it succeeds the transport owns the message,
and its release callback is a later call of `Link.freeOlderBuffer`. -/
def Link.sendBuffer (heap : Heap) (link : Link) (name : List Byte) (buffer : SerializedObjectPtr) :
    Bool × Heap × Link :=
  if (heap buffer).mutex then
    (false, heap, link)
  else
    let heap := heap.setMutex buffer true
    let otg := link.otgBuffers ++ [buffer]
    match link.socketBufferOut.send ⟨cString name, true, none⟩ with
    | (some _, sock) => (true, heap, ⟨link.socketMessageOut, sock, otg⟩)
    | (none, sock) =>
      match sock.send ⟨(heap buffer).bytes, false, some (heap buffer).data⟩ with
      | (some _, sock) =>
        (true, Link.freeOlderBuffer heap ⟨link.socketMessageOut, sock, otg⟩ (heap buffer).data)
      | (none, sock) => (true, heap, ⟨link.socketMessageOut, sock, otg⟩)

/-- The frames that a call handed to a socket: those of `after` that `before` had not. -/
def emitted (before after : OutSocket) : List Frame :=
  after.sent.drop before.sent.length

/-- One call from outside on the registry of buffers being sent. -/
inductive RegistryCall where
  | sendBuffer (name : List Byte) (buffer : SerializedObjectPtr)
  | freeOlderBuffer (data : Nat)

/-- The state after one registry call. -/
def RegistryCall.run (state : Heap × Link) : RegistryCall → Heap × Link
  | .sendBuffer name buffer => (Link.sendBuffer state.1 state.2 name buffer).2
  | .freeOlderBuffer data => Link.freeOlderBuffer state.1 state.2 data

/-- The state after a sequence of registry calls, first call first. -/
def runCalls (state : Heap × Link) (calls : List RegistryCall) : Heap × Link :=
  calls.foldl RegistryCall.run state

/-! ## The wire format in the words of the specification -/

/-- What one frame of the control channel carries. -/
inductive FrameContent where
  | targetName (name : List Byte)
  | attributeName (attrib : List Byte)
  | elementCount (count : Nat)
  | typeTag (type : ValueType)
  | payload (value : Value)

mutual
/-- The frames of one element: its type tag, then its payload or, for a nested sequence,
the encoding of that sequence. -/
def specElement : Value → List FrameContent
  | .i n => [.typeTag .i, .payload (.i n)]
  | .f x => [.typeTag .f, .payload (.f x)]
  | .s str => [.typeTag .s, .payload (.s str)]
  | .v vs => .typeTag .v :: .elementCount vs.length :: specElements vs
/-- The frames of the elements of a sequence, in order. -/
def specElements : List Value → List FrameContent
  | [] => []
  | v :: rest => specElement v ++ specElements rest
end

/-- The encoding `enc(seq)`: the element count, then the frames of the elements. -/
def specEnc (seq : Values) : List FrameContent :=
  .elementCount seq.length :: specElements seq

/-- The bytes that stand for a content on the wire: a zero-terminated name, a count or a
type tag as an `int`, the bytes of a value. -/
def FrameContent.bytes : FrameContent → List Byte
  | .targetName name => cString name
  | .attributeName attrib => cString attrib
  | .elementCount count => intBytes (toCInt count)
  | .typeTag type => intBytes type.code
  | .payload value => value.data

/-! ## Predicates on values, sockets and states -/

mutual
/-- A value that the wire format can carry: no string holds a zero byte and every nested
sequence has fewer than `2^31` elements, so that its count is an `int`. -/
def Value.representable : Value → Bool
  | .i _ => true
  | .f _ => true
  | .s str => noZero str
  | .v vs => decide (vs.length < 2147483648) && representableAll vs
/-- Every value of the list can be carried by the wire format. -/
def representableAll : List Value → Bool
  | [] => true
  | v :: rest => v.representable && representableAll rest
end

/-- A sequence that the wire format can carry: fewer than `2^31` elements, each of which
can be carried. -/
def Values.representable (values : Values) : Bool :=
  decide (values.length < 2147483648) && representableAll values

mutual
/-- The depth of the sequences nested in a value (`0` for a number or a string). -/
def Value.depth : Value → Nat
  | .i _ => 0
  | .f _ => 0
  | .s _ => 0
  | .v vs => depthAll vs + 1
/-- The largest depth among the values of a list. -/
def depthAll : List Value → Nat
  | [] => 0
  | v :: rest => max v.depth (depthAll rest)
end

/-- No coming `send` call on the socket raises an error. -/
def OutSocket.quiet (sock : OutSocket) : Bool :=
  sock.script.all fun e => e.isNone

mutual
/-- The frames that the loop body of the sender hands to the socket for the element of
index `i`, when no `send` raises. -/
def elementFrames (size i : Nat) : Value → List Frame
  | .v vs =>
    ⟨intBytes ValueType.v.code, true, none⟩ ::
      ⟨intBytes (toCInt vs.length), decide (vs.length ≠ 0), none⟩ :: elementsFrames vs.length 0 vs
  | .i n => [⟨intBytes ValueType.i.code, true, none⟩, ⟨intBytes n, decide (i ≠ size - 1), none⟩]
  | .f x => [⟨intBytes ValueType.f.code, true, none⟩, ⟨x.val, decide (i ≠ size - 1), none⟩]
  | .s str => [⟨intBytes ValueType.s.code, true, none⟩, ⟨cString str, decide (i ≠ size - 1), none⟩]
/-- The frames that the loop of the sender hands to the socket from index `i` on, when no
`send` raises. -/
def elementsFrames (size i : Nat) : List Value → List Frame
  | [] => []
  | v :: rest => elementFrames size i v ++ elementsFrames size (i + 1) rest
end

/-- The frames that the helper lambda of the sender hands to the socket, when no `send`
raises. -/
def valuesFrames (message : Values) : List Frame :=
  ⟨intBytes (toCInt message.length), decide (message.length ≠ 0), none⟩ ::
    elementsFrames message.length 0 message

/-- The frames of one `Link::sendMessage` call, when no `send` raises. -/
def messageFrames (name attrib : List Byte) (message : Values) : List Frame :=
  ⟨cString name, true, none⟩ :: ⟨cString attrib, true, none⟩ :: valuesFrames message

/-- The events that the peer meets when frames with the given contents reach it in order. -/
def received (contents : List FrameContent) : List InEvent :=
  contents.map fun content => InEvent.frame content.bytes

/-- A sequence with all four kinds of element, empty sequences, and nesting of depth 3. -/
def sampleValues : Values :=
  [.i (toCInt (-7)), .f ⟨[0, 0, 0, 63].map byte, rfl⟩, .s (ascii "splash"), .v [],
    .v [.v [.v [], .s []], .i (toCInt 2147483647)], .s []]

/-- A link on which nothing was sent yet and whose sockets raise nothing. -/
def Link.fresh : Link :=
  ⟨OutSocket.fresh, OutSocket.fresh, []⟩

/-- The float `0.5`: the bytes of `0x3F000000`, least significant first. -/
def half : CFloat :=
  ⟨[0, 0, 0, 63].map byte, rfl⟩

/-- A heap in which every buffer holds the 16 bytes `0, 1, ..., 15`, at an address of its
own, and is not leased. -/
def sampleHeap : Heap :=
  fun p => ⟨4096 + 16 * p, (List.range 16).map byte, false⟩

/-- The invariant of the registry: no buffer is twice among the buffers being sent, every
buffer being sent is leased, and the buffers are where they were in the heap `start`. -/
def RegistryInv (start heap : Heap) (otgBuffers : List SerializedObjectPtr) : Prop :=
  otgBuffers.Nodup ∧ (∀ p ∈ otgBuffers, (heap p).mutex = true) ∧
    ∀ p, (heap p).data = (start p).data

/-- The sample heap with the buffers 1 and 2 leased. -/
def busyHeap : Heap :=
  (sampleHeap.setMutex 1 true).setMutex 2 true

/-- A link with the buffers 1 and 2 being sent. -/
def busyLink : Link :=
  ⟨OutSocket.fresh, OutSocket.fresh, [1, 2]⟩

/-- A heap of empty buffers, none leased: `data()` is the null address for all of them. -/
def emptyBuffersHeap : Heap :=
  fun _ => ⟨0, [], false⟩

/-- The state after `sendBuffer(name, buf)` followed by the release callback of the
transport for it, `freeOlderBuffer(buf.data())`. -/
def sendThenRelease (heap : Heap) (link : Link) (name : List Byte) (buf : SerializedObjectPtr) :
    Heap × Link :=
  Link.freeOlderBuffer (Link.sendBuffer heap link name buf).2.1
    (Link.sendBuffer heap link name buf).2.2 ((Link.sendBuffer heap link name buf).2.1 buf).data

/-- The state in which the empty buffer 1 is being sent: the state after
`sendBuffer("B", 1)` on a fresh link, in the heap of empty buffers. -/
def aliasedState : Heap × Link :=
  (Link.sendBuffer emptyBuffersHeap Link.fresh (ascii "B") 1).2

/-! ## Endpoints and the configuration of the sockets -/

/-- The bytes that a reader of `str.c_str()` sees: those before the first zero byte. -/
def cView (str : List Byte) : List Byte :=
  str.takeWhile fun b => decide (b.val ≠ 0)

/-- The endpoint of the control channel of the peer `name`, as handed to `connect` and `bind`
(lines 68 and 211): `(string("ipc:///tmp/splash_msg_") + name).c_str()`. -/
def messageEndpoint (name : List Byte) : List Byte :=
  cView (ascii "ipc:///tmp/splash_msg_" ++ name)

/-- The endpoint of the data channel of the peer `name`, as handed to `connect` and `bind`
(lines 69 and 279): `(string("ipc:///tmp/splash_buf_") + name).c_str()`. -/
def bufferEndpoint (name : List Byte) : List Byte :=
  cView (ascii "ipc:///tmp/splash_buf_" ++ name)

/-- The four sockets of a link. -/
inductive SocketId where
  | messageOut
  | messageIn
  | bufferOut
  | bufferIn
deriving DecidableEq, Repr

/-- The socket options that `link.cpp` sets with an `int` value. -/
inductive SocketOption where
  | sndhwm
  | rcvhwm
  | linger
deriving DecidableEq, Repr

/-- A call of the link on the transport library, other than `send` and `recv`. -/
inductive ApiCall where
  | setsockopt (socket : SocketId) (option : SocketOption) (value : Int)
  | subscribe (socket : SocketId) (filter : List Byte)
  | connect (socket : SocketId) (endpoint : List Byte)
  | bind (socket : SocketId) (endpoint : List Byte)
  | nanosleep (nanoseconds : Nat)
deriving DecidableEq, Repr

/-- The transport library as the link drives it: the calls that took effect, oldest first,
and the script of the coming calls (`some e`: that call raises `e`; `none`, or an
exhausted script: that call succeeds). -/
structure Transport where
  calls : List ApiCall
  script : List (Option ZmqError)

/-- A transport on which no call was made and no call will raise. -/
def Transport.fresh : Transport := ⟨[], []⟩

/-- No coming call on the transport raises an error. -/
def Transport.quiet (transport : Transport) : Bool :=
  transport.script.all fun e => e.isNone

/-- One call on the transport.  The first component is the error raised, if any. -/
def Transport.call (transport : Transport) (call : ApiCall) : Option ZmqError × Transport :=
  match transport.script with
  | some e :: script => (some e, ⟨transport.calls, script⟩)
  | none :: script => (none, ⟨transport.calls ++ [call], script⟩)
  | [] => (none, ⟨transport.calls ++ [call], []⟩)

/-- Sequencing of two steps on the transport: the second runs only if the first raised
nothing. -/
def Transport.andThen (r : Option ZmqError × Transport)
    (k : Transport → Option ZmqError × Transport) : Option ZmqError × Transport :=
  match r with
  | (some e, transport) => (some e, transport)
  | (none, transport) => k transport

/-- The `try` block of `Link::connectTo` (lines 59-69). -/
def connectToBody (transport : Transport) (name : List Byte) : Option ZmqError × Transport :=
  Transport.andThen (transport.call (.setsockopt .messageOut .sndhwm 0)) fun transport =>
  Transport.andThen (transport.call (.setsockopt .bufferOut .sndhwm 10)) fun transport =>
  Transport.andThen (transport.call (.connect .messageOut (messageEndpoint name)))
    fun transport =>
  transport.call (.connect .bufferOut (bufferEndpoint name))

/-- The function `Link::connectTo` (lines 55-79): its `try` block, whose errors are caught,
then the pause of a tenth of a second. -/
def Link.connectTo (transport : Transport) (name : List Byte) : Transport :=
  ⟨(connectToBody transport name).2.calls ++ [.nanosleep 100000000],
    (connectToBody transport name).2.script⟩

/-- The head of the `try` block of `Link::handleInputMessages` (lines 208-212), before its
loop; `name` is the member `_name`.  An error raised here ends the function. -/
def messageInSetup (transport : Transport) (name : List Byte) : Option ZmqError × Transport :=
  Transport.andThen (transport.call (.setsockopt .messageIn .rcvhwm 100)) fun transport =>
  Transport.andThen (transport.call (.bind .messageIn (messageEndpoint name)))
    fun transport =>
  transport.call (.subscribe .messageIn [])

/-- The head of the `try` block of `Link::handleInputBuffers` (lines 276-280), before its
loop; `name` is the member `_name`.  An error raised here ends the function. -/
def bufferInSetup (transport : Transport) (name : List Byte) : Option ZmqError × Transport :=
  Transport.andThen (transport.call (.setsockopt .bufferIn .rcvhwm 10)) fun transport =>
  Transport.andThen (transport.call (.bind .bufferIn (bufferEndpoint name)))
    fun transport =>
  transport.call (.subscribe .bufferIn [])

/-- An event is a frame, not a raised error. -/
def InEvent.isFrame : InEvent → Bool
  | .frame _ => true
  | .raise _ => false

/-- Modelled from the spec: `Value::getTypeAsChar` is declared in `coretypes.h`, which is not
part of the sources at hand.  It is the letter that `addAttribute` uses for the expected type
of a parameter: `n` for a number, `s` for a string, `v` for a sequence. -/
def Value.getTypeAsChar : Value → Char
  | .i _ => 'n'
  | .f _ => 'n'
  | .s _ => 's'
  | .v _ => 'v'

/-- Modelled from the spec: the conversions `Value::as<T>` are declared in `coretypes.h`,
which is not part of the sources at hand.  A value that holds a `T` converts to what it
holds; what the other values convert to is left open, as these three functions. -/
structure Conversions where
  toInt : Value → CInt
  toFloat : Value → CFloat
  toString : Value → List Byte

/-- The conversion `as<int>()`. -/
def Value.asInt (conv : Conversions) : Value → CInt
  | .i n => n
  | value => conv.toInt value

/-- The conversion `as<float>()`. -/
def Value.asFloat (conv : Conversions) : Value → CFloat
  | .f x => x
  | value => conv.toFloat value

/-- The conversion `as<string>()`. -/
def Value.asString (conv : Conversions) : Value → List Byte
  | .s str => str
  | value => conv.toString value

/-- Modelled from the spec: the class `Attribute` is defined in `attribute.h` and
`attribute.cpp`, which are not part of the sources at hand.  Following the documentation of
`addAttribute` in `base_object.h` and what `check_base_object.cpp` checks, an attribute is
either registered, with a set function, possibly a get function, and the letters of the
expected types of its parameters, or it is a default attribute, which keeps the values it
was last set to.  The functions act on `σ`, the members of the object that they capture. -/
inductive Attribute (σ : Type) where
  | registered (setFunc : σ → Values → σ × Bool) (getFunc : Option (σ → Values))
      (types : List Char)
  | default (values : Values)

/-- Modelled from the spec: whether the attribute is a default one (`Attribute::isDefault`). -/
def Attribute.isDefault {σ : Type} : Attribute σ → Bool
  | .registered _ _ _ => false
  | .default _ => true

/-- Modelled from the spec: the call `attribute(args)` that sets an attribute.  A registered
attribute checks that there are at least as many arguments as expected types and that each
has the expected type, then runs its set function; a default attribute stores the values. -/
def Attribute.set {σ : Type} (attr : Attribute σ) (fields : σ) (args : Values) :
    Attribute σ × σ × Bool :=
  match attr with
  | .default _ => (.default args, fields, true)
  | .registered setFunc getFunc types =>
    if args.length < types.length then
      (.registered setFunc getFunc types, fields, false)
    else if (args.zip types).all fun p => decide (p.1.getTypeAsChar = p.2) then
      (.registered setFunc getFunc types, (setFunc fields args).1, (setFunc fields args).2)
    else
      (.registered setFunc getFunc types, fields, false)

/-- Modelled from the spec: the call `attribute()` that gets the values of an attribute: the
result of the get function, no value without one, the stored values of a default
attribute. -/
def Attribute.get {σ : Type} (attr : Attribute σ) (fields : σ) : Values :=
  match attr with
  | .default values => values
  | .registered _ (some getFunc) _ => getFunc fields
  | .registered _ none _ => []

/-- The part of a `BaseObject` that its attributes touch: the members of the derived class
that the attribute functions capture, and the map `_attribFunctions`, as a list of entries
with distinct names. -/
structure BaseObject (σ : Type) where
  fields : σ
  attribFunctions : List (List Byte × Attribute σ)

/-- The entry of a name in the map of attributes (`_attribFunctions.find`). -/
def findAttribute {σ : Type} (name : List Byte) :
    List (List Byte × Attribute σ) → Option (Attribute σ)
  | [] => none
  | (key, attr) :: rest => if key = name then some attr else findAttribute name rest

/-- The map of attributes with the entry of `name` set to `attr`. -/
def putAttribute {σ : Type} (name : List Byte) (attr : Attribute σ) :
    List (List Byte × Attribute σ) → List (List Byte × Attribute σ)
  | [] => [(name, attr)]
  | (key, old) :: rest =>
    if key = name then (key, attr) :: rest else (key, old) :: putAttribute name attr rest

/-- Modelled from the spec: `BaseObject::addAttribute` with a set and a get function is
defined in `base_object.cpp`, which is not part of the sources at hand.  Following its
documentation in `base_object.h`, it adds the attribute to the object. -/
def BaseObject.addAttribute {σ : Type} (obj : BaseObject σ) (name : List Byte)
    (setFunc : σ → Values → σ × Bool) (getFunc : σ → Values) (types : List Char) :
    BaseObject σ :=
  ⟨obj.fields, putAttribute name (.registered setFunc (some getFunc) types) obj.attribFunctions⟩

/-- Modelled from the spec: `BaseObject::setAttribute` is defined in `base_object.cpp`, which
is not part of the sources at hand.  Following its documentation in `base_object.h`, it sets
the attribute and returns true if the parameter exists and was set; following
`check_base_object.cpp`, a name that has no attribute yet gets a default attribute, which
stores the values. -/
def BaseObject.setAttribute {σ : Type} (obj : BaseObject σ) (attrib : List Byte)
    (args : Values) : Bool × BaseObject σ :=
  match findAttribute attrib obj.attribFunctions with
  | none =>
    (false, ⟨obj.fields, putAttribute attrib (.default args) obj.attribFunctions⟩)
  | some attr =>
    (!attr.isDefault && (attr.set obj.fields args).2.2,
      ⟨(attr.set obj.fields args).2.1,
        putAttribute attrib (attr.set obj.fields args).1 obj.attribFunctions⟩)

/-- Modelled from the spec: `BaseObject::getAttribute` is defined in `base_object.cpp`, which
is not part of the sources at hand.  Following its documentation in `base_object.h`, `args`
receives the values of the attribute and the result is true if the parameter exists;
following `check_base_object.cpp`, the result is false for a default attribute, whose
values are given all the same, and `args` is emptied for a name without an attribute.
The second component is `args` after the call. -/
def BaseObject.getAttribute {σ : Type} (obj : BaseObject σ) (attrib : List Byte)
    (_args : Values) : Bool × Values :=
  match findAttribute attrib obj.attribFunctions with
  | none => (false, [])
  | some attr => (!attr.isDefault, attr.get obj.fields)

/-- The name has a registered attribute in the object. -/
def BaseObject.isRegistered {σ : Type} (obj : BaseObject σ) (name : List Byte) : Bool :=
  match findAttribute name obj.attribFunctions with
  | none => false
  | some attr => !attr.isDefault

/-- The members `_integer`, `_float` and `_string` of `BaseObjectMock`
(`check_base_object.cpp`, lines 23-25). -/
structure MockFields where
  integer : CInt
  float : CFloat
  string : List Byte

/-- The function `BaseObjectMock::registerAttributes` (`check_base_object.cpp`, lines 27-52).
The set functions read `args[0]`, which is there: each attribute expects one parameter. -/
def registerAttributes (conv : Conversions) (obj : BaseObject MockFields) :
    BaseObject MockFields :=
  ((obj.addAttribute (ascii "integer")
      (fun fields args =>
        match args with
        | arg :: _ => (⟨arg.asInt conv, fields.float, fields.string⟩, true)
        | [] => (fields, true))
      (fun fields => [Value.i fields.integer]) ['n']).addAttribute (ascii "float")
      (fun fields args =>
        match args with
        | arg :: _ => (⟨fields.integer, arg.asFloat conv, fields.string⟩, true)
        | [] => (fields, true))
      (fun fields => [Value.f fields.float]) ['n']).addAttribute (ascii "string")
      (fun fields args =>
        match args with
        | arg :: _ => (⟨fields.integer, fields.float, arg.asString conv⟩, true)
        | [] => (fields, true))
      (fun fields => [Value.s fields.string]) ['s']

/-- A `BaseObjectMock` whose members hold `fields`. -/
def baseObjectMock (conv : Conversions) (fields : MockFields) : BaseObject MockFields :=
  registerAttributes conv ⟨fields, []⟩

/-- The members of a `BaseObjectMock` after its construction: `0`, `0.f` and `""`. -/
def MockFields.initial : MockFields :=
  ⟨toCInt 0, ⟨[0, 0, 0, 0].map byte, rfl⟩, []⟩

/-- The float `3.1415f`: the bytes of `0x40490E56`, least significant first. -/
def float31415 : CFloat :=
  ⟨[86, 14, 73, 64].map byte, rfl⟩

/-- The float `4.2f`: the bytes of `0x40866666`, least significant first. -/
def float42 : CFloat :=
  ⟨[102, 102, 134, 64].map byte, rfl⟩

/-- Conversions that give zero and the empty string for the values of another type. -/
def Conversions.zero : Conversions :=
  ⟨fun _ => toCInt 0, fun _ => ⟨[0, 0, 0, 0].map byte, rfl⟩, fun _ => []⟩

/-- The string `"T'es sûr qu'on dit pas ouiche ?"` of the test, in UTF-8. -/
def ouiche : List Byte :=
  ascii "T'es s" ++ [byte 195, byte 187] ++ ascii "r qu'on dit pas ouiche ?"

/-- The object of the test case of `check_base_object.cpp` after its four `setAttribute`
calls (lines 65-68). -/
def testObject (conv : Conversions) : BaseObject MockFields :=
  (((((baseObjectMock conv MockFields.initial).setAttribute (ascii "integer")
      [Value.i (toCInt 42)]).2.setAttribute (ascii "float")
      [Value.f float31415]).2.setAttribute (ascii "string")
      [Value.s ouiche]).2.setAttribute (ascii "newAttribute")
      [Value.i (toCInt 1), Value.f float42, Value.s (ascii "sheraf")]).2

/-! ## Threads that call `sendBuffer` on one link -/

/-- Where a thread is in its call of `Link::sendBuffer`: before the statement of the given
line, or back from the call with its result. -/
inductive SendStep where
  /-- Before `unique_lock<mutex> lock(_bufferSendMutex)` (line 86). -/
  | lockSend
  /-- Before `buffer->_mutex.try_lock()` (line 87). -/
  | tryLock
  /-- Before `_otgBuffers.push_back(buffer)` (lines 90-92). -/
  | push
  /-- Before the `send` of the name (lines 94-96). -/
  | sendName
  /-- Before the `send` of the buffer (lines 98-99). -/
  | sendData
  /-- Back from the call with this result; the lock on `_bufferSendMutex` is released. -/
  | returned (result : Bool)
deriving DecidableEq, Repr

/-- The state shared by threads that each call `sendBuffer(name, buffer)` once on the same
link with the same buffer: the heap, the link, whether `_bufferSendMutex` is locked, the
name and the position of each thread, and the number of completions since the start: the
calls of the release callback `Link::freeOlderBuffer`. -/
structure SendThreads where
  heap : Heap
  link : Link
  bufferSendMutex : Bool
  threads : List (List Byte × SendStep)
  completions : Nat

/-- The threads at the start of their calls, none of which has locked anything yet. -/
def SendThreads.start (heap : Heap) (link : Link) (names : List (List Byte)) : SendThreads :=
  ⟨heap, link, false, names.map fun name => (name, SendStep.lockSend), 0⟩

/-- One step of the thread `t` in its call `sendBuffer(name, buffer)`, the next statement of
lines 86-107; the locking and unlocking of a mutex, `try_lock` and each statement made
under a lock are atomic.  A thread that waits for `_bufferSendMutex` does not move, nor
does a thread that is back from its call.  When the `send` of the buffer raises, the message
built over the buffer is destroyed as the `try` block is left, before the lock on
`_bufferSendMutex`: the release callback runs, which is a completion. -/
def SendThreads.step (buffer : SerializedObjectPtr) (s : SendThreads) (t : Nat) : SendThreads :=
  match s.threads[t]? with
  | none => s
  | some (name, .lockSend) =>
    if s.bufferSendMutex then s
    else ⟨s.heap, s.link, true, s.threads.set t (name, .tryLock), s.completions⟩
  | some (name, .tryLock) =>
    if (s.heap buffer).mutex then
      ⟨s.heap, s.link, false, s.threads.set t (name, .returned false), s.completions⟩
    else
      ⟨s.heap.setMutex buffer true, s.link, s.bufferSendMutex,
        s.threads.set t (name, .push), s.completions⟩
  | some (name, .push) =>
    ⟨s.heap, ⟨s.link.socketMessageOut, s.link.socketBufferOut, s.link.otgBuffers ++ [buffer]⟩,
      s.bufferSendMutex, s.threads.set t (name, .sendName), s.completions⟩
  | some (name, .sendName) =>
    match s.link.socketBufferOut.send ⟨cString name, true, none⟩ with
    | (some _, sock) =>
      ⟨s.heap, ⟨s.link.socketMessageOut, sock, s.link.otgBuffers⟩, false,
        s.threads.set t (name, .returned true), s.completions⟩
    | (none, sock) =>
      ⟨s.heap, ⟨s.link.socketMessageOut, sock, s.link.otgBuffers⟩, s.bufferSendMutex,
        s.threads.set t (name, .sendData), s.completions⟩
  | some (name, .sendData) =>
    match s.link.socketBufferOut.send
        ⟨(s.heap buffer).bytes, false, some (s.heap buffer).data⟩ with
    | (some _, sock) =>
      ⟨(Link.freeOlderBuffer s.heap ⟨s.link.socketMessageOut, sock, s.link.otgBuffers⟩
          (s.heap buffer).data).1,
        (Link.freeOlderBuffer s.heap ⟨s.link.socketMessageOut, sock, s.link.otgBuffers⟩
          (s.heap buffer).data).2,
        false, s.threads.set t (name, .returned true), s.completions + 1⟩
    | (none, sock) =>
      ⟨s.heap, ⟨s.link.socketMessageOut, sock, s.link.otgBuffers⟩, false,
        s.threads.set t (name, .returned true), s.completions⟩
  | some (_, .returned _) => s

/-- The state after the threads moved in the order of the schedule, one step each time. -/
def SendThreads.run (buffer : SerializedObjectPtr) (s : SendThreads) (schedule : List Nat) :
    SendThreads :=
  schedule.foldl (SendThreads.step buffer) s

/-- The thread is back from its call with `true`. -/
def succeeded (thread : List Byte × SendStep) : Bool :=
  decide (thread.2 = SendStep.returned true)

/-- The thread is back from its call with `false`. -/
def failed (thread : List Byte × SendStep) : Bool :=
  decide (thread.2 = SendStep.returned false)

/-- The thread has taken the lease of the buffer in its call: it is past a `try_lock` that
succeeded, or back with `true`. -/
def tookLease (thread : List Byte × SendStep) : Bool :=
  match thread.2 with
  | .push => true
  | .sendName => true
  | .sendData => true
  | .returned true => true
  | _ => false

/-- The thread has not reached `try_lock` yet or is about to call it. -/
def beforeLease (thread : List Byte × SendStep) : Bool :=
  match thread.2 with
  | .lockSend => true
  | .tryLock => true
  | _ => false

/-- The thread is inside its call with `_bufferSendMutex` locked. -/
def critical (thread : List Byte × SendStep) : Bool :=
  match thread.2 with
  | .tryLock => true
  | .push => true
  | .sendName => true
  | .sendData => true
  | _ => false

/-- The largest number of steps that a thread at this position still makes before it is
back from its call. -/
def SendStep.remaining : SendStep → Nat
  | .lockSend => 5
  | .tryLock => 4
  | .push => 3
  | .sendName => 2
  | .sendData => 1
  | .returned _ => 0

/-- The steps that the threads together still make at most before all are back. -/
def SendThreads.remaining (s : SendThreads) : Nat :=
  (s.threads.map fun thread => thread.2.remaining).sum

/-- The invariant of threads that call `sendBuffer` on one buffer that was not leased at
the start, whatever the `send` calls do: the threads that took the lease are at most one
more than the completions, and exactly as many while the lease is free; the lease is held
only if a thread took it; a thread is past `try_lock` only if a thread took the lease;
there are at most as many completions as threads back with `true`; and
`_bufferSendMutex` is locked exactly when one thread is inside its call with it. -/
def SendThreads.Inv (buffer : SerializedObjectPtr) (s : SendThreads) : Prop :=
  s.threads.countP tookLease
      ≤ s.completions + (if (s.heap buffer).mutex then 1 else 0) ∧
  ((s.heap buffer).mutex = true → 1 ≤ s.threads.countP tookLease) ∧
  ((∀ thread ∈ s.threads, beforeLease thread = true) ∨ 1 ≤ s.threads.countP tookLease) ∧
  s.completions ≤ s.threads.countP succeeded ∧
  s.threads.countP critical = (if s.bufferSendMutex then 1 else 0)

/-- A link on which nothing was sent yet, whose data socket accepts the name frame and
raises an error, not the termination signal, at the `send` of the buffer. -/
def Link.failingAtSecond : Link :=
  ⟨OutSocket.fresh, ⟨[], [none, some ZmqError.other]⟩, []⟩

/-- Twenty rounds in each of which the threads 0, 1, 2 and 3 move once, in this order. -/
def fourThreadRounds : List (List Nat) :=
  List.replicate 20 [0, 1, 2, 3]

/-! ## Attributes set one after the other -/

/-- The object after the calls `setAttribute(name, values)` of the list, first call first. -/
def BaseObject.setAttributes {σ : Type} (obj : BaseObject σ) :
    List (List Byte × Values) → BaseObject σ
  | [] => obj
  | (name, values) :: rest => BaseObject.setAttributes (obj.setAttribute name values).2 rest

/-- The four `setAttribute` calls of the test case of `check_base_object.cpp`
(lines 65-68). -/
def testCalls : List (List Byte × Values) :=
  [(ascii "integer", [Value.i (toCInt 42)]), (ascii "float", [Value.f float31415]),
    (ascii "string", [Value.s ouiche]),
    (ascii "newAttribute", [Value.i (toCInt 1), Value.f float42, Value.s (ascii "sheraf")])]

/-! ## The end of a link, and sends that raise -/

/-- The two receiver threads of a link. -/
inductive ThreadId where
  | bufferIn
  | messageIn
deriving DecidableEq, Repr

/-- One statement of `Link::~Link` (lines 40-52) as seen from outside the link: a call on
the transport library, the release of a socket (`_socketMessageOut.reset()`), the release
of the context (`_context.reset()`, which ends the context that the constructor made for
this link alone), the wait for a thread to end (`join`). -/
inductive DestructorCall where
  | api (call : ApiCall)
  | resetSocket (socket : SocketId)
  | resetContext
  | join (thread : ThreadId)
deriving DecidableEq, Repr

/-- The destructor `Link::~Link` (lines 40-52): the statements that it completes, in order,
and the error that ends it early, if any.  Only the two `setsockopt` calls can raise a
`zmq::error_t`; nothing in the destructor catches it. -/
def Link.destructor (transport : Transport) : Option ZmqError × List DestructorCall :=
  match transport.call (.setsockopt .messageOut .linger 0) with
  | (some e, _) => (some e, [])
  | (none, transport) =>
    match transport.call (.setsockopt .bufferOut .linger 0) with
    | (some e, _) => (some e, [.api (.setsockopt .messageOut .linger 0)])
    | (none, _) =>
      (none, [.api (.setsockopt .messageOut .linger 0), .api (.setsockopt .bufferOut .linger 0),
        .resetSocket .messageOut, .resetSocket .bufferOut, .resetContext,
        .join .bufferIn, .join .messageIn])

/-- The frames handed to a socket one after the other, up to the first `send` that raises. -/
def sendFrames (sock : OutSocket) : List Frame → Option ZmqError × OutSocket
  | [] => (none, sock)
  | frame :: rest => andThen (sock.send frame) fun sock => sendFrames sock rest

/-- A link on which nothing was sent yet, whose control socket accepts three frames and
raises an error, not the termination signal, at the fourth `send`. -/
def Link.failingAtFourth : Link :=
  ⟨⟨[], [none, none, none, some ZmqError.other]⟩, OutSocket.fresh, []⟩

/-- A link on which nothing was sent yet, whose data socket raises an error, not the
termination signal, at the first `send`. -/
def Link.failingAtFirst : Link :=
  ⟨OutSocket.fresh, ⟨[], [some ZmqError.other]⟩, []⟩

/-- The value is a number or a string, not a nested sequence. -/
def Value.isScalar : Value → Bool
  | .v _ => false
  | _ => true

/-- The message `{{1}, 2}`: a nested sequence that is not the last element. -/
def nestedFirst : Values :=
  [.v [.i (toCInt 1)], .i (toCInt 2)]

/-- The message `{{}, 1}`: an empty nested sequence followed by another element. -/
def emptyNestedFirst : Values :=
  [.v [], .i (toCInt 1)]

/-! ## `RgbValue` (`cgUtils.h`) -/

/-- The structure `RgbValue`, its three components taken in exact rational arithmetic in
place of `float`. -/
structure RgbValue where
  r : ℚ
  g : ℚ
  b : ℚ
deriving DecidableEq

/-- The largest of the three components: `std::max(std::max(r, g), b)`. -/
def RgbValue.largest (c : RgbValue) : ℚ :=
  max (max c.r c.g) c.b

/-- The member `RgbValue::normalize` (lines 125-133): each component is divided by the
largest.  `none` stands for the division by a largest component that is zero, which has
no value in exact arithmetic. -/
def RgbValue.normalize (c : RgbValue) : Option RgbValue :=
  if c.largest = 0 then none
  else some ⟨c.r / c.largest, c.g / c.largest, c.b / c.largest⟩

/-! ## `Warp`: the control point shown -/

/-- The float `0.f`. -/
def float0 : CFloat :=
  ⟨[0, 0, 0, 0].map byte, rfl⟩

/-- The float `1.f`: the bytes of `0x3F800000`, least significant first. -/
def float1 : CFloat :=
  ⟨[0, 0, 128, 63].map byte, rfl⟩

/-- A control point of the mesh, a `glm::vec2`. -/
abbrev ControlPoint := CFloat × CFloat

/-- The members of `Warp` that the attribute `showControlPoint` and `Warp::render` use: the
member `_selectedControlPointIndex` and the control points of the mesh,
`_screenMesh->getControlPoints()`. -/
structure Warp where
  selectedControlPointIndex : CInt
  controlPoints : List ControlPoint

/-- The set function of the attribute `showControlPoint` (`warp.cpp`, lines 338-349); the
number of control points is converted to `int`.  `none` stands for the read of `args[0]`
in an empty `args`. -/
def Warp.showControlPoint (conv : Conversions) (warp : Warp) (args : Values) :
    Option (Warp × Bool) :=
  match args with
  | [] => none
  | arg :: _ =>
    if (arg.asInt conv).val < 0 ∨
        (arg.asInt conv).val ≥ (toCInt warp.controlPoints.length).val then
      some (⟨toCInt (-1), warp.controlPoints⟩, true)
    else
      some (⟨arg.asInt conv, warp.controlPoints⟩, true)

/-- The read `controlPoints[_selectedControlPointIndex]` of `Warp::render` (lines 160-168),
made only when the index is not `-1` (`some none`: no read).  `none` stands for a read
outside the control points. -/
def Warp.selectedPoint (warp : Warp) : Option (Option ControlPoint) :=
  if warp.selectedControlPointIndex.val = -1 then some none
  else if 0 ≤ warp.selectedControlPointIndex.val then
    (warp.controlPoints[warp.selectedControlPointIndex.val.toNat]?).map some
  else none

/-- A warp whose mesh has `2^31` control points, all at the origin, none selected. -/
def Warp.huge : Warp :=
  ⟨toCInt (-1), List.replicate 2147483648 (float0, float0)⟩

/-- A warp whose mesh has the four corners of the unit square as control points, none
selected. -/
def Warp.square : Warp :=
  ⟨toCInt (-1), [(float0, float0), (float1, float0), (float0, float1), (float1, float1)]⟩

/-! ## `Filter`: color curves and input textures -/

/-- The loop of the set function of `colorCurves` over its arguments (`filter.cpp`,
lines 569-574), with `pointCount`, a `uint32_t`, as it stands before the arguments left.
`none` stands for the `return false` of the loop. -/
def colorCurvesPointCount : Nat → Values → Option Nat
  | pointCount, [] => some pointCount
  | pointCount, v :: rest =>
    if pointCount = 0 then colorCurvesPointCount (v.size % 4294967296) rest
    else if pointCount ≠ v.size then none
    else colorCurvesPointCount pointCount rest

/-- A `weak_ptr<Texture>`: the texture it designates, or nothing once it has expired. -/
abbrev WeakTexture := Option Nat

/-- The members of `Filter` that the attribute `colorCurves` and `Filter::unlinkIt` use: the
curves `_colorCurves`, the tasks queued by `addTask` that will store new curves, the input
textures `_inTextures`, and the textures that `_screen->removeTexture` was called with. -/
structure Filter where
  colorCurves : Values
  tasks : List Values
  inTextures : List WeakTexture
  removedTextures : List Nat

/-- The set function of the attribute `colorCurves` (`filter.cpp`, lines 567-584).  When it
accepts its arguments it queues the task that stores them. -/
def Filter.setColorCurves (filter : Filter) (args : Values) : Filter × Bool :=
  match colorCurvesPointCount 0 args with
  | none => (filter, false)
  | some pointCount =>
    if pointCount < 2 then (filter, false)
    else
      (⟨filter.colorCurves, filter.tasks ++ [args], filter.inTextures, filter.removedTextures⟩,
        true)

/-- The queued tasks run, oldest first: each stores its curves in `_colorCurves`. -/
def Filter.runTasks (filter : Filter) : Filter :=
  ⟨filter.tasks.foldl (fun _ args => args) filter.colorCurves, [], filter.inTextures,
    filter.removedTextures⟩

/-- The number of curves and the number of points that `Filter::updateUniforms` reads from
each (lines 263-272): every read `_colorCurves[j][i]` has `i` below the size of the first
curve.  The reads stay inside the curves when no curve is shorter than the first. -/
def Filter.curveReadsInside (filter : Filter) : Bool :=
  match filter.colorCurves with
  | [] => true
  | first :: rest => rest.all fun curve => decide (first.size ≤ curve.size)

/-- The `for` loop of `Filter::unlinkIt` for a texture (lines 108-124), with a bound on the
number of iterations: `i`, a `uint32_t`, is the index, `tex` the texture to unlink.  The
result is the input textures and the removed textures when the loop ends; `none` stands
for a loop that is still running when the bound is reached. -/
def unlinkLoop (tex : Nat) : Nat → Nat → List WeakTexture → List Nat →
    Option (List WeakTexture × List Nat)
  | 0, _, _, _ => none
  | fuel + 1, i, inTextures, removed =>
    match inTextures[i]? with
    | none => some (inTextures, removed)
    | some none => unlinkLoop tex fuel i inTextures removed
    | some (some inTex) =>
      if inTex = tex then unlinkLoop tex fuel i (inTextures.eraseIdx i) (removed ++ [tex])
      else unlinkLoop tex fuel ((i + 1) % 4294967296) inTextures removed

/-- The function `Filter::unlinkIt` called with a texture (lines 104-125), with a bound on
the number of iterations of its loop. -/
def Filter.unlinkIt (fuel : Nat) (filter : Filter) (tex : Nat) : Option Filter :=
  (unlinkLoop tex fuel 0 filter.inTextures filter.removedTextures).map fun r =>
    ⟨filter.colorCurves, filter.tasks, r.1, r.2⟩

/-- A filter with no curves and a single input texture, which has expired. -/
def Filter.withExpired : Filter :=
  ⟨[], [], [none], []⟩

/-- A filter with no curves and the input textures 7, 3, 7, none expired. -/
def Filter.withTextures : Filter :=
  ⟨[], [], [some 7, some 3, some 7], []⟩

/-- Three curves of which the first is empty and the others have two points. -/
def emptyFirstCurve : Values :=
  [.v [], .v [.f float0, .f float1], .v [.f float0, .f float1]]

/-- Three curves of two points each. -/
def linearCurves : Values :=
  [.v [.f float0, .f float1], .v [.f float0, .f float1], .v [.f float0, .f float1]]

/-! ## `ControllerObject::getObjectNames` -/

/-- The tree of the root object as `getObjectNames` reads it: the names of the root
branches (`getBranchList()`) and the names of the branches at a path
(`getBranchListAt(path)`). -/
structure Tree where
  getBranchList : List (List Byte)
  getBranchListAt : List Byte → List (List Byte)

/-- The path `"/" + rootName + "/objects"`. -/
def objectPath (rootName : List Byte) : List Byte :=
  ascii "/" ++ rootName ++ ascii "/objects"

/-- The inner loop of `getObjectNames` (lines 81-83): each name of the list that is not yet
among `names` is pushed at the back. -/
def addObjectNames (names : List (List Byte)) : List (List Byte) → List (List Byte)
  | [] => names
  | objectName :: rest =>
    if objectName ∈ names then addObjectNames names rest
    else addObjectNames (names ++ [objectName]) rest

/-- The outer loop of `getObjectNames` (lines 76-84) over the root branches left. -/
def addRootNames (tree : Tree) (names : List (List Byte)) : List (List Byte) → List (List Byte)
  | [] => names
  | rootName :: rest =>
    addRootNames tree (addObjectNames names (tree.getBranchListAt (objectPath rootName))) rest

/-- The function `ControllerObject::getObjectNames` (`controller.cpp`, lines 70-87). -/
def getObjectNames (tree : Tree) : List (List Byte) :=
  addRootNames tree [] tree.getBranchList

/-- The object names found in the tree under `"/<root>/objects"`, for the root branches
`<root>` one after the other, repetitions included. -/
def allObjectNames (tree : Tree) : List (List Byte) :=
  (tree.getBranchList.map fun root =>
    tree.getBranchListAt (ascii "/" ++ root ++ ascii "/objects")).flatten

/-- The names of a list in order of first occurrence, each once. -/
def firstOccurrences : List (List Byte) → List (List Byte)
  | [] => []
  | name :: rest => name :: (firstOccurrences rest).filter fun other => decide (other ≠ name)

/-- A tree with the root branches `world` and `scene`, which share the object `image`; at
the path `"world"`, which is not the path of the objects of a root, it has another name. -/
def sampleTree : Tree :=
  ⟨[ascii "world", ascii "scene"], fun path =>
    if path = ascii "/world/objects" then [ascii "image", ascii "camera", ascii "image"]
    else if path = ascii "/scene/objects" then [ascii "window", ascii "image", ascii "camera"]
    else if path = ascii "world" then [ascii "objects"]
    else []⟩

/-! ## Frames that are not those of the encoder -/

theorem leBytes_length (k n : Nat) : (leBytes k n).length = k := by
  induction k generalizing n with
  | zero => rfl
  | succ k ih => simp [leBytes, ih]

theorem intBytes_length (n : CInt) : (intBytes n).length = 4 := by
  simp [intBytes, leBytes_length]

theorem leValue_leBytes_four (m : Nat) (h : m < 4294967296) : leValue (leBytes 4 m) = m := by
  simp only [leBytes, leValue]
  omega

theorem toCInt_toNat_mod (n : CInt) : toCInt ((n.val % 4294967296).toNat : Int) = n := by
  obtain ⟨n, h1, h2⟩ := n
  apply Subtype.ext
  show ((n % 4294967296).toNat + 2147483648 : Int) % 4294967296 - 2147483648 = n
  omega

theorem readInt_intBytes (n : CInt) : readInt (intBytes n) = some n := by
  have hlen : (intBytes n).length = 4 := intBytes_length _
  have htake : (intBytes n).take 4 = intBytes n := List.take_of_length_le (by omega)
  have hm : (n.val % 4294967296).toNat < 4294967296 := by
    have := n.property
    omega
  simp only [readInt, hlen, htake, le_refl, if_true]
  simp only [intBytes, leValue_leBytes_four _ hm, toCInt_toNat_mod]

theorem toCInt_length_toNat (n : Nat) (h : n < 2147483648) : (toCInt n).val.toNat = n := by
  simp only [toCInt]
  omega

theorem readFloat_val (x : CFloat) : readFloat x.val = some x := by
  obtain ⟨bs, h⟩ := x
  have htake : bs.take 4 = bs := List.take_of_length_le (by omega)
  simp [readFloat, h, htake]

theorem readCString_cString (str : List Byte) (h : noZero str = true) :
    readCString (cString str) = some str := by
  induction str with
  | nil => simp [cString, readCString]
  | cons b bs ih =>
    simp only [noZero, List.all_cons, Bool.and_eq_true, decide_eq_true_eq] at h
    have := ih h.2
    simp only [cString] at this
    show readCString (b :: (bs ++ [⟨0, by decide⟩])) = some (b :: bs)
    rw [readCString, if_neg h.1, this]
    rfl

theorem code_i_ne_v : ValueType.i.code ≠ ValueType.v.code := by decide
theorem code_f_ne_v : ValueType.f.code ≠ ValueType.v.code := by decide
theorem code_s_ne_v : ValueType.s.code ≠ ValueType.v.code := by decide
theorem code_f_ne_i : ValueType.f.code ≠ ValueType.i.code := by decide
theorem code_s_ne_i : ValueType.s.code ≠ ValueType.i.code := by decide
theorem code_s_ne_f : ValueType.s.code ≠ ValueType.f.code := by decide

/-! ## The sender on a socket that raises nothing -/

theorem send_quiet (sock : OutSocket) (frame : Frame) (h : sock.quiet = true) :
    (sock.send frame).1 = none ∧ (sock.send frame).2.sent = sock.sent ++ [frame] ∧
      (sock.send frame).2.quiet = true := by
  obtain ⟨sent, script⟩ := sock
  cases script with
  | nil => exact ⟨rfl, rfl, h⟩
  | cons e script =>
    simp only [OutSocket.quiet, List.all_cons, Bool.and_eq_true] at h
    cases e with
    | some e => simp at h
    | none => exact ⟨rfl, rfl, h.2⟩

theorem andThen_of_none (r : Option ZmqError × OutSocket)
    (k : OutSocket → Option ZmqError × OutSocket) (h : r.1 = none) : andThen r k = k r.2 := by
  obtain ⟨e, sock⟩ := r
  simp only at h
  subst h
  rfl

theorem take_intBytes (n : CInt) : (intBytes n).take 4 = intBytes n :=
  List.take_of_length_le (by rw [intBytes_length])

theorem take_float (x : CFloat) : x.val.take 4 = x.val :=
  List.take_of_length_le (by rw [x.property])

theorem take_cString (str : List Byte) : (cString str).take (str.length + 1) = cString str :=
  List.take_of_length_le (by simp [cString])

mutual
theorem sendElement_quiet (size i : Nat) (sock : OutSocket) (h : sock.quiet = true) : (v : Value) →
    (sendElement size i sock v).1 = none ∧
    (sendElement size i sock v).2.sent = sock.sent ++ elementFrames size i v ∧
    (sendElement size i sock v).2.quiet = true
  | .i n => by
    obtain ⟨h1, h2, h3⟩ := send_quiet sock ⟨intBytes ValueType.i.code, true, none⟩ h
    obtain ⟨h4, h5, h6⟩ := send_quiet _ ⟨intBytes n, decide (i ≠ size - 1), none⟩ h3
    simp only [sendElement, andThen_of_none _ _ h1, Value.data, Value.size, take_intBytes]
    refine ⟨h4, ?_, h6⟩
    rw [h5, h2]
    simp [elementFrames]
  | .f x => by
    obtain ⟨h1, h2, h3⟩ := send_quiet sock ⟨intBytes ValueType.f.code, true, none⟩ h
    obtain ⟨h4, h5, h6⟩ := send_quiet _ ⟨x.val, decide (i ≠ size - 1), none⟩ h3
    simp only [sendElement, andThen_of_none _ _ h1, Value.data, Value.size, take_float]
    refine ⟨h4, ?_, h6⟩
    rw [h5, h2]
    simp [elementFrames]
  | .s str => by
    obtain ⟨h1, h2, h3⟩ := send_quiet sock ⟨intBytes ValueType.s.code, true, none⟩ h
    obtain ⟨h4, h5, h6⟩ := send_quiet _ ⟨cString str, decide (i ≠ size - 1), none⟩ h3
    simp only [sendElement, andThen_of_none _ _ h1, Value.data, Value.size, take_cString]
    refine ⟨h4, ?_, h6⟩
    rw [h5, h2]
    simp [elementFrames]
  | .v vs => by
    obtain ⟨h1, h2, h3⟩ := send_quiet sock ⟨intBytes ValueType.v.code, true, none⟩ h
    obtain ⟨h4, h5, h6⟩ :=
      send_quiet _ ⟨intBytes (toCInt vs.length), decide (vs.length ≠ 0), none⟩ h3
    obtain ⟨h7, h8, h9⟩ := sendElements_quiet vs.length 0 _ h6 vs
    simp only [sendElement, sendSize, andThen_of_none _ _ h1, andThen_of_none _ _ h4]
    refine ⟨h7, ?_, h9⟩
    rw [h8, h5, h2]
    simp [elementFrames]
theorem sendElements_quiet (size i : Nat) (sock : OutSocket) (h : sock.quiet = true) :
    (vs : List Value) →
    (sendElements size i sock vs).1 = none ∧
    (sendElements size i sock vs).2.sent = sock.sent ++ elementsFrames size i vs ∧
    (sendElements size i sock vs).2.quiet = true
  | [] => by simp [sendElements, elementsFrames, h]
  | v :: rest => by
    obtain ⟨h1, h2, h3⟩ := sendElement_quiet size i sock h v
    obtain ⟨h4, h5, h6⟩ := sendElements_quiet size (i + 1) _ h3 rest
    simp only [sendElements, andThen_of_none _ _ h1]
    refine ⟨h4, ?_, h6⟩
    rw [h5, h2]
    simp [elementsFrames]
end

theorem emitted_append (before after : OutSocket) (frames : List Frame)
    (h : after.sent = before.sent ++ frames) : emitted before after = frames := by
  simp [emitted, h]

/-! ## The emitted frames carry the contents that the specification lists -/

/-- The frames of a nested sequence are its type tag followed by its own encoding. -/
theorem specElement_nested (vs : List Value) :
    specElement (.v vs) = .typeTag .v :: specEnc vs := by
  simp [specElement, specEnc]

mutual
theorem elementFrames_data (size i : Nat) : (v : Value) →
    (elementFrames size i v).map Frame.data = (specElement v).map FrameContent.bytes
  | .i n => by simp [elementFrames, specElement, FrameContent.bytes, Value.data]
  | .f x => by simp [elementFrames, specElement, FrameContent.bytes, Value.data]
  | .s str => by simp [elementFrames, specElement, FrameContent.bytes, Value.data]
  | .v vs => by
    simp [elementFrames, specElement, FrameContent.bytes, elementsFrames_data vs.length 0 vs]
theorem elementsFrames_data (size i : Nat) : (vs : List Value) →
    (elementsFrames size i vs).map Frame.data = (specElements vs).map FrameContent.bytes
  | [] => by simp [elementsFrames, specElements]
  | v :: rest => by
    simp [elementsFrames, specElements, elementFrames_data size i v,
      elementsFrames_data size (i + 1) rest]
end

theorem received_append (xs ys : List FrameContent) :
    received (xs ++ ys) = received xs ++ received ys := by
  simp [received]

theorem received_cons (x : FrameContent) (xs : List FrameContent) :
    received (x :: xs) = InEvent.frame x.bytes :: received xs := rfl

theorem recvElements_zero (r : List InEvent → Except Stop (Values × List InEvent))
    (evs : List InEvent) (values : Values) : recvElements r 0 evs values = .ok (values, evs) := rfl

mutual
theorem recvElements_element (fuel : Nat) : (v : Value) → v.representable = true →
    v.depth ≤ fuel → ∀ (n : Nat) (rest : List InEvent) (acc : Values),
    recvElements (recvMessageAux fuel) (n + 1) (received (specElement v) ++ rest) acc
      = recvElements (recvMessageAux fuel) n rest (acc ++ [v])
  | .i x, _, _ => by
    intro n rest acc
    simp [specElement, received, recvElements, recv, FrameContent.bytes, readInt_intBytes,
      Value.data, code_i_ne_v]
  | .f x, _, _ => by
    intro n rest acc
    simp [specElement, received, recvElements, recv, FrameContent.bytes, readInt_intBytes,
      Value.data, code_f_ne_v, code_f_ne_i, readFloat_val]
  | .s str, h, _ => by
    intro n rest acc
    have hs : noZero str = true := by simpa [Value.representable] using h
    simp [specElement, received, recvElements, recv, FrameContent.bytes, readInt_intBytes,
      Value.data, code_s_ne_v, code_s_ne_i, code_s_ne_f, readCString_cString str hs]
  | .v vs, h, hd => by
    intro n rest acc
    simp only [Value.representable, Bool.and_eq_true, decide_eq_true_eq] at h
    obtain ⟨hlen, hall⟩ := h
    simp only [Value.depth] at hd
    obtain ⟨f, rfl⟩ : ∃ f, fuel = f + 1 := ⟨fuel - 1, by omega⟩
    have hrec := recvElements_elements f vs hall (by omega) 0 rest []
    simp only [Nat.add_zero, List.nil_append, recvElements_zero] at hrec
    have hnested : recvMessageAux (f + 1)
        (InEvent.frame (intBytes (toCInt vs.length)) :: (received (specElements vs) ++ rest))
        = .ok (vs, rest) := by
      simp only [recvMessageAux, recv, readInt_intBytes, toCInt_length_toNat _ hlen, hrec]
    simp only [specElement, received_cons, FrameContent.bytes, List.cons_append]
    rw [recvElements]
    simp only [recv, readInt_intBytes, if_true, hnested]
theorem recvElements_elements (fuel : Nat) : (vs : List Value) → representableAll vs = true →
    depthAll vs ≤ fuel → ∀ (n : Nat) (rest : List InEvent) (acc : Values),
    recvElements (recvMessageAux fuel) (vs.length + n) (received (specElements vs) ++ rest) acc
      = recvElements (recvMessageAux fuel) n rest (acc ++ vs)
  | [], _, _ => by
    intro n rest acc
    simp [specElements, received]
  | v :: tl, h, hd => by
    intro n rest acc
    simp only [representableAll, Bool.and_eq_true] at h
    simp only [depthAll] at hd
    have h1 := recvElements_element fuel v h.1 (by omega) (tl.length + n)
      (received (specElements tl) ++ rest) acc
    have h2 := recvElements_elements fuel tl h.2 (by omega) n rest (acc ++ [v])
    have hlen : (v :: tl).length + n = (tl.length + n) + 1 := by simp; omega
    rw [hlen, specElements, received_append, List.append_assoc, h1, h2]
    simp
end

/-! ## The bounds of the model are never reached -/

theorem recv_length (evs rest : List InEvent) (msg : List Byte)
    (h : recv evs = .ok (msg, rest)) : rest.length + 1 = evs.length := by
  cases evs with
  | nil => simp [recv] at h
  | cons ev evs =>
    cases ev with
    | raise e => simp [recv] at h
    | frame data =>
      simp only [recv, Except.ok.injEq, Prod.mk.injEq] at h
      rw [← h.2]
      rfl

/-- The loop of the decoder never reports the bound, and never gives events back, when the
decoder that it calls for nested sequences does not on inputs shorter than `bound`. -/
theorem recvElements_total (r : List InEvent → Except Stop (Values × List InEvent))
    (bound : Nat)
    (hr : ∀ evs, evs.length < bound → r evs ≠ .error .outOfFuel ∧
      ∀ vs rest, r evs = .ok (vs, rest) → rest.length < evs.length) :
    ∀ (n : Nat) (evs : List InEvent) (acc : Values), evs.length ≤ bound →
      recvElements r n evs acc ≠ .error .outOfFuel ∧
      ∀ vs rest, recvElements r n evs acc = .ok (vs, rest) → rest.length ≤ evs.length := by
  intro n
  induction n with
  | zero =>
    intro evs acc _
    refine ⟨by simp [recvElements], ?_⟩
    intro vs rest h
    simp only [recvElements, Except.ok.injEq, Prod.mk.injEq] at h
    rw [h.2]
  | succ n ih =>
    intro evs acc hlen
    rw [recvElements]
    cases h1 : recv evs with
    | error stop =>
      refine ⟨?_, by intro vs rest h; cases h⟩
      cases evs with
      | nil => simp [recv] at h1; subst h1; simp
      | cons ev evs =>
        cases ev with
        | frame data => simp [recv] at h1
        | raise e => simp [recv] at h1; subst h1; simp
    | ok p1 =>
      obtain ⟨msg, evs1⟩ := p1
      have hl1 := recv_length _ _ _ h1
      simp only
      cases h2 : readInt msg with
      | none => exact ⟨by simp, by intro vs rest h; cases h⟩
      | some valueType =>
        simp only
        split
        · obtain ⟨hne, hshort⟩ := hr evs1 (by omega)
          cases h3 : r evs1 with
          | error stop =>
            refine ⟨?_, by intro vs rest h; cases h⟩
            intro h
            apply hne
            rw [h3]
            simpa using h
          | ok p2 =>
            obtain ⟨nested, evs2⟩ := p2
            have hl2 := hshort nested evs2 h3
            obtain ⟨i1, i2⟩ := ih evs2 (acc ++ [Value.v nested]) (by omega)
            exact ⟨i1, fun vs rest h => by have := i2 vs rest h; omega⟩
        · cases h3 : recv evs1 with
          | error stop =>
            refine ⟨?_, by intro vs rest h; cases h⟩
            cases evs1 with
            | nil => simp [recv] at h3; subst h3; simp
            | cons ev evs1 =>
              cases ev with
              | frame data => simp [recv] at h3
              | raise e => simp [recv] at h3; subst h3; simp
          | ok p2 =>
            obtain ⟨msg2, evs2⟩ := p2
            have hl2 := recv_length _ _ _ h3
            have step : ∀ acc2, recvElements r n evs2 acc2 ≠ .error .outOfFuel ∧
                ∀ vs rest, recvElements r n evs2 acc2 = .ok (vs, rest) →
                  rest.length ≤ evs.length := by
              intro acc2
              obtain ⟨i1, i2⟩ := ih evs2 acc2 (by omega)
              exact ⟨i1, fun vs rest h => by have := i2 vs rest h; omega⟩
            simp only
            split
            · cases readInt msg2 with
              | none => exact ⟨by simp, by intro vs rest h; cases h⟩
              | some x => exact step _
            · split
              · cases readFloat msg2 with
                | none => exact ⟨by simp, by intro vs rest h; cases h⟩
                | some x => exact step _
              · split
                · cases readCString msg2 with
                  | none => exact ⟨by simp, by intro vs rest h; cases h⟩
                  | some x => exact step _
                · exact step _

/-- With more fuel than events, the decoder never reports the bound, and it consumes at
least one event when it returns. -/
theorem recvMessageAux_total : ∀ (fuel : Nat) (evs : List InEvent), evs.length < fuel →
    recvMessageAux fuel evs ≠ .error .outOfFuel ∧
    ∀ vs rest, recvMessageAux fuel evs = .ok (vs, rest) → rest.length < evs.length := by
  intro fuel
  induction fuel with
  | zero => intro evs h; omega
  | succ fuel ih =>
    intro evs hlen
    rw [recvMessageAux]
    cases h1 : recv evs with
    | error stop =>
      refine ⟨?_, by intro vs rest h; cases h⟩
      cases evs with
      | nil => simp [recv] at h1; subst h1; simp
      | cons ev evs =>
        cases ev with
        | frame data => simp [recv] at h1
        | raise e => simp [recv] at h1; subst h1; simp
    | ok p1 =>
      obtain ⟨msg, evs1⟩ := p1
      have hl1 := recv_length _ _ _ h1
      simp only
      cases readInt msg with
      | none => exact ⟨by simp, by intro vs rest h; cases h⟩
      | some size =>
        obtain ⟨i1, i2⟩ := recvElements_total (recvMessageAux fuel) fuel ih
          size.val.toNat evs1 [] (by omega)
        exact ⟨i1, fun vs rest h => by have := i2 vs rest h; omega⟩

/-- The decoder `recvMessage` is total: the bound of its model is never reached, and it
consumes at least one event when it returns. -/
theorem recvMessage_total (evs : List InEvent) :
    recvMessage evs ≠ .error .outOfFuel ∧
    ∀ vs rest, recvMessage evs = .ok (vs, rest) → rest.length < evs.length :=
  recvMessageAux_total (evs.length + 1) evs (Nat.lt_succ_self _)

/-- With more fuel than events, the control receive loop never stops for lack of fuel. -/
theorem messageLoop_total : ∀ (fuel : Nat) (evs : List InEvent) (calls : List RootCall),
    evs.length < fuel → (messageLoop fuel evs calls).stop ≠ .outOfFuel := by
  intro fuel
  induction fuel with
  | zero => intro evs calls h; omega
  | succ fuel ih =>
    intro evs calls hlen
    rw [messageLoop]
    cases h1 : recv evs with
    | error stop =>
      cases evs with
      | nil => simp [recv] at h1; subst h1; simp
      | cons ev evs =>
        cases ev with
        | frame data => simp [recv] at h1
        | raise e => simp [recv] at h1; subst h1; simp
    | ok p1 =>
      obtain ⟨msg, evs1⟩ := p1
      have hl1 := recv_length _ _ _ h1
      simp only
      cases readCString msg with
      | none => simp
      | some name =>
        simp only
        cases h2 : recv evs1 with
        | error stop =>
          cases evs1 with
          | nil => simp [recv] at h2; subst h2; simp
          | cons ev evs1 =>
            cases ev with
            | frame data => simp [recv] at h2
            | raise e => simp [recv] at h2; subst h2; simp
        | ok p2 =>
          obtain ⟨msg2, evs2⟩ := p2
          have hl2 := recv_length _ _ _ h2
          simp only
          cases readCString msg2 with
          | none => simp
          | some attrib =>
            simp only
            obtain ⟨hne, hshort⟩ := recvMessage_total evs2
            cases h3 : recvMessage evs2 with
            | error stop =>
              simp only
              intro h
              apply hne
              rw [h3, h]
            | ok p3 =>
              obtain ⟨values, evs3⟩ := p3
              have hl3 := hshort values evs3 h3
              exact ih evs3 _ (by omega)

/-- The control receive loop `handleInputMessages` never stops for lack of fuel. -/
theorem handleInputMessages_total (evs : List InEvent) :
    (handleInputMessages evs).stop ≠ .outOfFuel :=
  messageLoop_total (evs.length + 1) evs [] (Nat.lt_succ_self _)

/-- With more fuel than events, the data receive loop never stops for lack of fuel. -/
theorem bufferLoop_total : ∀ (fuel : Nat) (evs : List InEvent) (calls : List RootCall),
    evs.length < fuel → (bufferLoop fuel evs calls).stop ≠ .outOfFuel := by
  intro fuel
  induction fuel with
  | zero => intro evs calls h; omega
  | succ fuel ih =>
    intro evs calls hlen
    rw [bufferLoop]
    cases h1 : recv evs with
    | error stop =>
      cases evs with
      | nil => simp [recv] at h1; subst h1; simp
      | cons ev evs =>
        cases ev with
        | frame data => simp [recv] at h1
        | raise e => simp [recv] at h1; subst h1; simp
    | ok p1 =>
      obtain ⟨msg, evs1⟩ := p1
      have hl1 := recv_length _ _ _ h1
      simp only
      cases readCString msg with
      | none => simp
      | some name =>
        simp only
        cases h2 : recv evs1 with
        | error stop =>
          cases evs1 with
          | nil => simp [recv] at h2; subst h2; simp
          | cons ev evs1 =>
            cases ev with
            | frame data => simp [recv] at h2
            | raise e => simp [recv] at h2; subst h2; simp
        | ok p2 =>
          obtain ⟨msg2, evs2⟩ := p2
          have hl2 := recv_length _ _ _ h2
          exact ih evs2 _ (by omega)

/-- The data receive loop `handleInputBuffers` never stops for lack of fuel. -/
theorem handleInputBuffers_total (evs : List InEvent) :
    (handleInputBuffers evs).stop ≠ .outOfFuel :=
  bufferLoop_total (evs.length + 1) evs [] (Nat.lt_succ_self _)

mutual
theorem depth_le_specElement : (v : Value) → v.depth ≤ (specElement v).length
  | .i _ => by simp [Value.depth]
  | .f _ => by simp [Value.depth]
  | .s _ => by simp [Value.depth]
  | .v vs => by
    have := depthAll_le_specElements vs
    simp only [Value.depth, specElement, List.length_cons]
    omega
theorem depthAll_le_specElements : (vs : List Value) → depthAll vs ≤ (specElements vs).length
  | [] => by simp [depthAll]
  | v :: rest => by
    have h1 := depth_le_specElement v
    have h2 := depthAll_le_specElements rest
    simp only [depthAll, specElements, List.length_append]
    omega
end

theorem quiet_fresh : OutSocket.fresh.quiet = true :=
  rfl

theorem setMutex_self (heap : Heap) (buffer : SerializedObjectPtr) (locked : Bool) :
    heap.setMutex buffer locked buffer = ⟨(heap buffer).data, (heap buffer).bytes, locked⟩ := by
  simp [Heap.setMutex]

theorem setMutex_other (heap : Heap) (buffer p : SerializedObjectPtr) (locked : Bool)
    (h : p ≠ buffer) : heap.setMutex buffer locked p = heap p := by
  simp [Heap.setMutex, h]

theorem setMutex_data (heap : Heap) (buffer p : SerializedObjectPtr) (locked : Bool) :
    (heap.setMutex buffer locked p).data = (heap p).data := by
  by_cases h : p = buffer <;> simp [Heap.setMutex, h]

theorem setMutex_bytes (heap : Heap) (buffer p : SerializedObjectPtr) (locked : Bool) :
    (heap.setMutex buffer locked p).bytes = (heap p).bytes := by
  by_cases h : p = buffer <;> simp [Heap.setMutex, h]

/-- The result of `sendBuffer` on a buffer that is not leased, when no `send` raises. -/
theorem sendBuffer_quiet (heap : Heap) (link : Link) (name : List Byte)
    (buffer : SerializedObjectPtr) (hfree : (heap buffer).mutex = false)
    (hq : link.socketBufferOut.quiet = true) :
    ∃ sock : OutSocket,
      sock.sent = link.socketBufferOut.sent ++
        [⟨cString name, true, none⟩, ⟨(heap buffer).bytes, false, some (heap buffer).data⟩] ∧
      sock.quiet = true ∧
      Link.sendBuffer heap link name buffer
        = (true, heap.setMutex buffer true,
            ⟨link.socketMessageOut, sock, link.otgBuffers ++ [buffer]⟩) := by
  obtain ⟨h1, h2, h3⟩ := send_quiet link.socketBufferOut ⟨cString name, true, none⟩ hq
  obtain ⟨h4, h5, h6⟩ := send_quiet (link.socketBufferOut.send ⟨cString name, true, none⟩).2
    ⟨(heap buffer).bytes, false, some (heap buffer).data⟩ h3
  refine ⟨_, ?_, h6, ?_⟩
  · rw [h5, h2]
    simp
  · simp only [Link.sendBuffer, hfree, setMutex_bytes, setMutex_data]
    generalize hs1 : link.socketBufferOut.send ⟨cString name, true, none⟩ = r1 at h1 h4 ⊢
    obtain ⟨e1, s1⟩ := r1
    simp only at h1 h4
    subst h1
    simp only [Bool.false_eq_true, if_false]
    generalize hs2 : s1.send ⟨(heap buffer).bytes, false, some (heap buffer).data⟩ = r2 at h4 ⊢
    obtain ⟨e2, s2⟩ := r2
    simp only at h4
    subst h4
    rfl

/-- One iteration of the data receive loop. -/
theorem bufferLoop_step (fuel : Nat) (nameFrame name bytes : List Byte)
    (evs : List InEvent) (calls : List RootCall) (h1 : readCString nameFrame = some name) :
    bufferLoop (fuel + 1) (InEvent.frame nameFrame :: InEvent.frame bytes :: evs) calls
      = bufferLoop fuel evs (calls ++ [RootCall.setFromSerializedObject name bytes]) := by
  rw [bufferLoop]
  simp only [recv, h1]

theorem bufferLoop_nil (fuel : Nat) (calls : List RootCall) :
    bufferLoop (fuel + 1) [] calls = ⟨calls, Stop.blocked⟩ := rfl

/-- C3: for every target name without a zero byte and every buffer that is not leased,
`sendBuffer(name, buffer)` on a socket that raises nothing emits two frames, and the data
receive loop fed with them calls `setFromSerializedObject(name, bytes)` on the root object
exactly once, where `bytes` is the content of the buffer, then waits in `recv`. -/
theorem handleInputBuffers_sendBuffer (heap : Heap) (link : Link) (name : List Byte)
    (buffer : SerializedObjectPtr) (hn : noZero name = true)
    (hfree : (heap buffer).mutex = false) (hq : link.socketBufferOut.quiet = true) :
    (emitted link.socketBufferOut
      (Link.sendBuffer heap link name buffer).2.2.socketBufferOut).length = 2 ∧
    handleInputBuffers (wire (emitted link.socketBufferOut
        (Link.sendBuffer heap link name buffer).2.2.socketBufferOut))
      = ⟨[RootCall.setFromSerializedObject name (heap buffer).bytes], Stop.blocked⟩ := by
  obtain ⟨sock, hsent, _, hrun⟩ := sendBuffer_quiet heap link name buffer hfree hq
  rw [hrun]
  simp only
  rw [emitted_append _ _ _ hsent]
  refine ⟨rfl, ?_⟩
  show bufferLoop 3 [InEvent.frame (cString name), InEvent.frame (heap buffer).bytes] []
    = ⟨[RootCall.setFromSerializedObject name (heap buffer).bytes], Stop.blocked⟩
  rw [bufferLoop_step 2 _ name _ _ [] (readCString_cString _ hn), bufferLoop_nil]
  rfl

/-- Witness of C3: the buffer with the 16 bytes `0, 1, ..., 15`, sent to `"B"`. -/
theorem handleInputBuffers_sendBuffer_witness :
    noZero (ascii "B") = true ∧ (sampleHeap 0).mutex = false ∧
    Link.fresh.socketBufferOut.quiet = true ∧ (sampleHeap 0).bytes.length = 16 ∧
    ((emitted Link.fresh.socketBufferOut
        (Link.sendBuffer sampleHeap Link.fresh (ascii "B") 0).2.2.socketBufferOut).length = 2 ∧
      handleInputBuffers (wire (emitted Link.fresh.socketBufferOut
          (Link.sendBuffer sampleHeap Link.fresh (ascii "B") 0).2.2.socketBufferOut))
        = ⟨[RootCall.setFromSerializedObject (ascii "B") (sampleHeap 0).bytes], Stop.blocked⟩) :=
  ⟨by decide, rfl, quiet_fresh, rfl,
    handleInputBuffers_sendBuffer sampleHeap Link.fresh (ascii "B") 0 (by decide) rfl quiet_fresh⟩

/-! ## The registry of buffers being sent -/

/-- C4: when the buffer is already leased, `sendBuffer` returns `false`, emits no frame on
the data channel, and leaves the link (so the buffers being sent) and the heap (so every
lease) as they were. -/
theorem sendBuffer_leased (heap : Heap) (link : Link) (name : List Byte)
    (buffer : SerializedObjectPtr) (h : (heap buffer).mutex = true) :
    Link.sendBuffer heap link name buffer = (false, heap, link) ∧
    emitted link.socketBufferOut (Link.sendBuffer heap link name buffer).2.2.socketBufferOut
      = [] := by
  have hrun : Link.sendBuffer heap link name buffer = (false, heap, link) := by
    simp [Link.sendBuffer, h]
  refine ⟨hrun, ?_⟩
  rw [hrun]
  simp [emitted]

/-- Witness of C4: buffer 1 of the busy heap is leased. -/
theorem sendBuffer_leased_witness :
    (busyHeap 1).mutex = true ∧
    (Link.sendBuffer busyHeap busyLink (ascii "B") 1 = (false, busyHeap, busyLink) ∧
      emitted busyLink.socketBufferOut
        (Link.sendBuffer busyHeap busyLink (ascii "B") 1).2.2.socketBufferOut = []) :=
  ⟨rfl, sendBuffer_leased busyHeap busyLink (ascii "B") 1 rfl⟩

/-- C5: when the buffer is not leased and no `send` raises, `sendBuffer` returns `true`,
the lease of the buffer is held afterwards, the buffer is appended to the buffers being
sent, whose earlier entries stay in order, and no other buffer of the heap changes. -/
theorem sendBuffer_unleased (heap : Heap) (link : Link) (name : List Byte)
    (buffer : SerializedObjectPtr) (hfree : (heap buffer).mutex = false)
    (hq : link.socketBufferOut.quiet = true) :
    (Link.sendBuffer heap link name buffer).1 = true ∧
    ((Link.sendBuffer heap link name buffer).2.1 buffer).mutex = true ∧
    (Link.sendBuffer heap link name buffer).2.2.otgBuffers = link.otgBuffers ++ [buffer] ∧
    ∀ p, p ≠ buffer → (Link.sendBuffer heap link name buffer).2.1 p = heap p := by
  obtain ⟨sock, _, _, hrun⟩ := sendBuffer_quiet heap link name buffer hfree hq
  rw [hrun]
  refine ⟨rfl, ?_, rfl, ?_⟩
  · simp [setMutex_self]
  · intro p hp
    exact setMutex_other heap buffer p true hp

/-- Witness of C5: buffer 3 of the busy heap is not leased. -/
theorem sendBuffer_unleased_witness :
    (busyHeap 3).mutex = false ∧ busyLink.socketBufferOut.quiet = true ∧
    ((Link.sendBuffer busyHeap busyLink (ascii "B") 3).1 = true ∧
      ((Link.sendBuffer busyHeap busyLink (ascii "B") 3).2.1 3).mutex = true ∧
      (Link.sendBuffer busyHeap busyLink (ascii "B") 3).2.2.otgBuffers
        = busyLink.otgBuffers ++ [3] ∧
      ∀ p, p ≠ 3 → (Link.sendBuffer busyHeap busyLink (ascii "B") 3).2.1 p = busyHeap p) :=
  ⟨rfl, quiet_fresh, sendBuffer_unleased busyHeap busyLink (ascii "B") 3 rfl quiet_fresh⟩

/-- The index that the search loop of `freeOlderBuffer` stops at, when some buffer being
sent has the address. -/
theorem findIdx_found (heap : Heap) (otg : List SerializedObjectPtr) (data : Nat)
    (h : ∃ p ∈ otg, (heap p).data = data) :
    otg.findIdx (fun buffer => (heap buffer).data == data) < otg.length := by
  apply List.findIdx_lt_length_of_exists
  obtain ⟨p, hp, hd⟩ := h
  exact ⟨p, hp, by simp [hd]⟩

/-- C6: when `freeOlderBuffer` is called with an address that a buffer being sent has, it
unlocks the lease of the first such buffer and removes that one entry: the other entries
stay, in order, no other buffer of the heap changes, and the sockets are untouched. -/
theorem freeOlderBuffer_found (heap : Heap) (ctx : Link) (data : Nat)
    (h : ∃ p ∈ ctx.otgBuffers, (heap p).data = data) :
    ∃ (index : Nat) (buffer : SerializedObjectPtr),
      ctx.otgBuffers[index]? = some buffer ∧ (heap buffer).data = data ∧
      (∀ j q, j < index → ctx.otgBuffers[j]? = some q → (heap q).data ≠ data) ∧
      (Link.freeOlderBuffer heap ctx data).2.otgBuffers = ctx.otgBuffers.eraseIdx index ∧
      ((Link.freeOlderBuffer heap ctx data).1 buffer).mutex = false ∧
      (∀ q, q ≠ buffer → (Link.freeOlderBuffer heap ctx data).1 q = heap q) ∧
      (Link.freeOlderBuffer heap ctx data).2.socketMessageOut = ctx.socketMessageOut ∧
      (Link.freeOlderBuffer heap ctx data).2.socketBufferOut = ctx.socketBufferOut := by
  have hlt := findIdx_found heap ctx.otgBuffers data h
  refine ⟨ctx.otgBuffers.findIdx (fun buffer => (heap buffer).data == data),
    ctx.otgBuffers.get ⟨_, hlt⟩, ?_, ?_, ?_, ?_, ?_, ?_, ?_, ?_⟩
  · simp [List.getElem?_eq_getElem hlt]
  · have := List.findIdx_getElem (w := hlt)
    simpa using this
  · intro j q hj hq
    have hnot := List.not_of_lt_findIdx hj
    have hjlt : j < ctx.otgBuffers.length := by omega
    rw [List.getElem?_eq_getElem hjlt] at hq
    cases hq
    simpa using hnot
  · simp [Link.freeOlderBuffer, hlt]
  · simp [Link.freeOlderBuffer, hlt, setMutex_self]
  · intro q hq
    simp only [Link.freeOlderBuffer, hlt, dite_true]
    exact setMutex_other heap _ q false hq
  · simp [Link.freeOlderBuffer, hlt]
  · simp [Link.freeOlderBuffer, hlt]

/-- Witness of C6: the address of buffer 2, while buffers 1 and 2 are being sent. -/
theorem freeOlderBuffer_found_witness :
    (∃ p ∈ busyLink.otgBuffers, (busyHeap p).data = 4128) ∧
    ∃ (index : Nat) (buffer : SerializedObjectPtr),
      busyLink.otgBuffers[index]? = some buffer ∧ (busyHeap buffer).data = 4128 ∧
      (∀ j q, j < index → busyLink.otgBuffers[j]? = some q → (busyHeap q).data ≠ 4128) ∧
      (Link.freeOlderBuffer busyHeap busyLink 4128).2.otgBuffers
        = busyLink.otgBuffers.eraseIdx index ∧
      ((Link.freeOlderBuffer busyHeap busyLink 4128).1 buffer).mutex = false ∧
      (∀ q, q ≠ buffer → (Link.freeOlderBuffer busyHeap busyLink 4128).1 q = busyHeap q) ∧
      (Link.freeOlderBuffer busyHeap busyLink 4128).2.socketMessageOut
        = busyLink.socketMessageOut ∧
      (Link.freeOlderBuffer busyHeap busyLink 4128).2.socketBufferOut
        = busyLink.socketBufferOut :=
  ⟨⟨2, by decide, rfl⟩, freeOlderBuffer_found busyHeap busyLink 4128 ⟨2, by decide, rfl⟩⟩

/-- The release callback changes nothing when no buffer being sent has the address. -/
theorem freeOlderBuffer_not_found_aux (heap : Heap) (ctx : Link) (data : Nat)
    (h : ∀ p ∈ ctx.otgBuffers, (heap p).data ≠ data) :
    Link.freeOlderBuffer heap ctx data = (heap, ctx) := by
  have hidx : ctx.otgBuffers.findIdx (fun buffer => (heap buffer).data == data)
      = ctx.otgBuffers.length := by
    apply List.findIdx_eq_length_of_false
    intro p hp
    simpa using h p hp
  simp [Link.freeOlderBuffer, hidx]

/-- C7: when `freeOlderBuffer` is called with an address that no buffer being sent has
(in particular when no buffer is being sent), nothing changes: the link, so the buffers
being sent, and the heap, so every lease, are as they were. -/
theorem freeOlderBuffer_not_found (heap : Heap) (ctx : Link) (data : Nat)
    (h : ∀ p ∈ ctx.otgBuffers, (heap p).data ≠ data) :
    Link.freeOlderBuffer heap ctx data = (heap, ctx) := by
  have hidx : ctx.otgBuffers.findIdx (fun buffer => (heap buffer).data == data)
      = ctx.otgBuffers.length := by
    apply List.findIdx_eq_length_of_false
    intro p hp
    simpa using h p hp
  simp [Link.freeOlderBuffer, hidx]

/-- Witness of C7: an address that neither buffer 1 nor buffer 2 has. -/
theorem freeOlderBuffer_not_found_witness :
    (∀ p ∈ busyLink.otgBuffers, (busyHeap p).data ≠ 7) ∧
    Link.freeOlderBuffer busyHeap busyLink 7 = (busyHeap, busyLink) :=
  ⟨by decide, freeOlderBuffer_not_found busyHeap busyLink 7 (by decide)⟩

/-! ### The invariant of the registry -/

theorem registryInv_freeOlderBuffer (start heap : Heap) (ctx : Link) (data : Nat)
    (h : RegistryInv start heap ctx.otgBuffers) :
    RegistryInv start (Link.freeOlderBuffer heap ctx data).1
      (Link.freeOlderBuffer heap ctx data).2.otgBuffers := by
  obtain ⟨hnodup, hlocked, hdata⟩ := h
  by_cases hlt : ctx.otgBuffers.findIdx (fun buffer => (heap buffer).data == data)
      < ctx.otgBuffers.length
  · simp only [Link.freeOlderBuffer, hlt, dite_true]
    refine ⟨hnodup.sublist (List.eraseIdx_sublist _ _), ?_, ?_⟩
    · intro q hq
      obtain ⟨i, hi, hiq⟩ := List.mem_eraseIdx_iff_getElem?.1 hq
      have hqmem : q ∈ ctx.otgBuffers :=
        (List.eraseIdx_sublist _ _).subset hq
      have hne : q ≠ ctx.otgBuffers.get ⟨_, hlt⟩ := by
        intro heq
        obtain ⟨hilt, hget⟩ := List.getElem?_eq_some.1 hiq
        apply hi
        have hinj := (@List.Nodup.getElem_inj_iff _ _ hnodup i hilt _ hlt).1
        apply hinj
        rw [hget, heq]
        rfl
      rw [setMutex_other heap _ q false hne]
      exact hlocked q hqmem
    · intro p
      rw [setMutex_data]
      exact hdata p
  · simp only [Link.freeOlderBuffer, hlt, dite_false]
    exact ⟨hnodup, hlocked, hdata⟩

theorem registryInv_push (start heap : Heap) (otg : List SerializedObjectPtr)
    (buffer : SerializedObjectPtr) (h : RegistryInv start heap otg)
    (hfree : (heap buffer).mutex = false) :
    RegistryInv start (heap.setMutex buffer true) (otg ++ [buffer]) := by
  obtain ⟨hnodup, hlocked, hdata⟩ := h
  have hnot : buffer ∉ otg := by
    intro hmem
    have := hlocked buffer hmem
    rw [hfree] at this
    cases this
  refine ⟨?_, ?_, ?_⟩
  · rw [List.nodup_append]
    refine ⟨hnodup, List.nodup_singleton _, ?_⟩
    intro a ha hb
    rw [List.mem_singleton] at hb
    exact hnot (hb ▸ ha)
  · intro p hp
    rw [List.mem_append, List.mem_singleton] at hp
    by_cases hpb : p = buffer
    · subst hpb
      simp [setMutex_self]
    · rw [setMutex_other heap buffer p true hpb]
      rcases hp with hp | hp
      · exact hlocked p hp
      · exact absurd hp hpb
  · intro p
    rw [setMutex_data]
    exact hdata p

theorem registryInv_sendBuffer (start heap : Heap) (link : Link) (name : List Byte)
    (buffer : SerializedObjectPtr) (h : RegistryInv start heap link.otgBuffers) :
    RegistryInv start (Link.sendBuffer heap link name buffer).2.1
      (Link.sendBuffer heap link name buffer).2.2.otgBuffers := by
  by_cases hm : (heap buffer).mutex = true
  · simp only [Link.sendBuffer, hm, if_true]
    exact h
  · have hfree : (heap buffer).mutex = false := by simpa using hm
    have hpush := registryInv_push start heap link.otgBuffers buffer h hfree
    simp only [Link.sendBuffer, hfree, Bool.false_eq_true, if_false]
    generalize link.socketBufferOut.send ⟨cString name, true, none⟩ = r1
    obtain ⟨e1, s1⟩ := r1
    cases e1 with
    | some e => exact hpush
    | none =>
      simp only
      generalize s1.send ⟨(heap.setMutex buffer true buffer).bytes, false,
        some (heap.setMutex buffer true buffer).data⟩ = r2
      obtain ⟨e2, s2⟩ := r2
      cases e2 with
      | some e =>
        exact registryInv_freeOlderBuffer start (heap.setMutex buffer true)
          ⟨link.socketMessageOut, s2, link.otgBuffers ++ [buffer]⟩ _ hpush
      | none => exact hpush

theorem registryInv_runCalls (start : Heap) (calls : List RegistryCall) :
    ∀ state : Heap × Link, RegistryInv start state.1 state.2.otgBuffers →
      RegistryInv start (runCalls state calls).1 (runCalls state calls).2.otgBuffers := by
  induction calls with
  | nil => intro state h; exact h
  | cons call calls ih =>
    intro state h
    simp only [runCalls, List.foldl_cons]
    apply ih
    cases call with
    | sendBuffer name buffer =>
      exact registryInv_sendBuffer start state.1 state.2 name buffer h
    | freeOlderBuffer data =>
      exact registryInv_freeOlderBuffer start state.1 state.2 data h

/-- C8: in every state reached from a link with no buffer being sent by a sequence of
`sendBuffer` and `freeOlderBuffer` calls, whatever the sockets do, when distinct buffers
have distinct addresses, no address appears twice among those of the buffers being sent. -/
theorem otgBuffers_identity_nodup (heap : Heap) (link : Link) (calls : List RegistryCall)
    (hempty : link.otgBuffers = [])
    (hinj : ∀ p q, (heap p).data = (heap q).data → p = q) :
    ((runCalls (heap, link) calls).2.otgBuffers.map
      fun p => ((runCalls (heap, link) calls).1 p).data).Nodup := by
  have hinit : RegistryInv heap heap link.otgBuffers := by
    rw [hempty]
    exact ⟨List.nodup_nil, (fun p hp => nomatch hp), fun _ => rfl⟩
  obtain ⟨hnodup, _, hdata⟩ := registryInv_runCalls heap calls (heap, link) hinit
  apply List.Nodup.map _ hnodup
  intro p q hpq
  simp only [hdata] at hpq
  exact hinj p q hpq

/-- Witness of C8: on the sample heap, two sends, a second send of the first buffer, and
the release of the first. -/
theorem otgBuffers_identity_nodup_witness :
    Link.fresh.otgBuffers = [] ∧
    (∀ p q, (sampleHeap p).data = (sampleHeap q).data → p = q) ∧
    ((runCalls (sampleHeap, Link.fresh)
        [.sendBuffer (ascii "B") 1, .sendBuffer (ascii "B") 2, .sendBuffer (ascii "B") 1,
          .freeOlderBuffer 4112, .sendBuffer (ascii "B") 1]).2.otgBuffers.map
      fun p => ((runCalls (sampleHeap, Link.fresh)
        [.sendBuffer (ascii "B") 1, .sendBuffer (ascii "B") 2, .sendBuffer (ascii "B") 1,
          .freeOlderBuffer 4112, .sendBuffer (ascii "B") 1]).1 p).data).Nodup :=
  ⟨rfl, (fun p q h => by simpa [sampleHeap] using h),
    otgBuffers_identity_nodup sampleHeap Link.fresh _ rfl
      (fun p q h => by simpa [sampleHeap] using h)⟩

/-! ### A send followed by its release -/

/-- Whatever the socket does, `sendBuffer` returns `true` on a buffer that is not leased. -/
theorem sendBuffer_returns_true (heap : Heap) (link : Link) (name : List Byte)
    (buf : SerializedObjectPtr) (hfree : (heap buf).mutex = false) :
    (Link.sendBuffer heap link name buf).1 = true := by
  simp only [Link.sendBuffer, hfree, Bool.false_eq_true, if_false]
  generalize OutSocket.send link.socketBufferOut ⟨cString name, true, none⟩ = r1
  obtain ⟨e1, s1⟩ := r1
  cases e1 with
  | some e => rfl
  | none =>
    simp only
    generalize OutSocket.send s1 _ = r2
    obtain ⟨e2, s2⟩ := r2
    cases e2 <;> rfl

theorem setMutex_setMutex (heap : Heap) (buf : SerializedObjectPtr)
    (hfree : (heap buf).mutex = false) :
    ∀ p, (heap.setMutex buf true).setMutex buf false p = heap p := by
  intro p
  by_cases hp : p = buf
  · subst hp
    rw [setMutex_self, setMutex_data, setMutex_bytes, ← hfree]
  · rw [setMutex_other _ _ _ _ hp, setMutex_other _ _ _ _ hp]

/-- The release of the buffer pushed last, when no earlier entry has its address. -/
theorem freeOlderBuffer_last (heap : Heap) (msgOut bufOut : OutSocket)
    (otg : List SerializedObjectPtr) (buf : SerializedObjectPtr)
    (huniq : ∀ q ∈ otg, (heap q).data ≠ (heap buf).data) :
    Link.freeOlderBuffer (heap.setMutex buf true) ⟨msgOut, bufOut, otg ++ [buf]⟩
        (heap buf).data
      = ((heap.setMutex buf true).setMutex buf false, ⟨msgOut, bufOut, otg⟩) := by
  have hnone : otg.findIdx
      (fun buffer => (heap.setMutex buf true buffer).data == (heap buf).data)
      = otg.length := by
    apply List.findIdx_eq_length_of_false
    intro p hp
    simpa [setMutex_data] using huniq p hp
  have hlast : [buf].findIdx
      (fun buffer => (heap.setMutex buf true buffer).data == (heap buf).data) = 0 := by
    simp [List.findIdx_cons, setMutex_data]
  have hidx : (otg ++ [buf]).findIdx
      (fun buffer => (heap.setMutex buf true buffer).data == (heap buf).data)
      = otg.length := by
    rw [List.findIdx_append, hnone, if_neg (lt_irrefl _), hlast, Nat.zero_add]
  have herase : (otg ++ [buf]).eraseIdx otg.length = otg := by
    rw [List.eraseIdx_append_of_length_le (le_refl _)]
    simp
  simp [Link.freeOlderBuffer, hidx, herase]

/-- A send and the release that follows it, on given sockets: the heap and the buffers
being sent are restored. -/
theorem sendBuffer_then_free (heap : Heap) (link : Link) (name : List Byte)
    (buf : SerializedObjectPtr) (hfree : (heap buf).mutex = false)
    (huniq : ∀ q ∈ link.otgBuffers, (heap q).data ≠ (heap buf).data) :
    (∀ p, (Link.freeOlderBuffer (Link.sendBuffer heap link name buf).2.1
        (Link.sendBuffer heap link name buf).2.2
        ((Link.sendBuffer heap link name buf).2.1 buf).data).1 p = heap p) ∧
    (Link.freeOlderBuffer (Link.sendBuffer heap link name buf).2.1
        (Link.sendBuffer heap link name buf).2.2
        ((Link.sendBuffer heap link name buf).2.1 buf).data).2.otgBuffers
      = link.otgBuffers := by
  have hrestored := setMutex_setMutex heap buf hfree
  simp only [Link.sendBuffer, hfree, Bool.false_eq_true, if_false]
  generalize OutSocket.send link.socketBufferOut ⟨cString name, true, none⟩ = r1
  obtain ⟨e1, s1⟩ := r1
  cases e1 with
  | some e =>
    simp only [setMutex_data]
    rw [freeOlderBuffer_last heap _ _ _ buf huniq]
    exact ⟨hrestored, rfl⟩
  | none =>
    simp only
    generalize OutSocket.send s1 _ = r2
    obtain ⟨e2, s2⟩ := r2
    cases e2 with
    | some e =>
      simp only [setMutex_data]
      rw [freeOlderBuffer_last heap _ _ _ buf huniq]
      simp only [setMutex_data]
      rw [freeOlderBuffer_not_found_aux]
      · exact ⟨hrestored, rfl⟩
      · intro p hp
        simpa [setMutex_data] using huniq p hp
    | none =>
      simp only [setMutex_data]
      rw [freeOlderBuffer_last heap _ _ _ buf huniq]
      exact ⟨hrestored, rfl⟩

/-- C9, as amended: when `buf` is not leased and no buffer being sent has the address of
`buf`, then `sendBuffer(name, buf)` returns `true`, whatever the socket does, and the
release callback `freeOlderBuffer(buf.data())` that follows restores the registry: the
lease of `buf` is free again, the buffers being sent are those before the send, every
buffer of the heap is as before, and a following `sendBuffer` on `buf` returns `true`
again. -/
theorem sendBuffer_freeOlderBuffer (heap : Heap) (link : Link) (name : List Byte)
    (buf : SerializedObjectPtr) (hfree : (heap buf).mutex = false)
    (huniq : ∀ q ∈ link.otgBuffers, (heap q).data ≠ (heap buf).data) :
    (Link.sendBuffer heap link name buf).1 = true ∧
    ((sendThenRelease heap link name buf).1 buf).mutex = false ∧
    (sendThenRelease heap link name buf).2.otgBuffers = link.otgBuffers ∧
    (∀ p, (sendThenRelease heap link name buf).1 p = heap p) ∧
    (Link.sendBuffer (sendThenRelease heap link name buf).1
        (sendThenRelease heap link name buf).2 name buf).1 = true := by
  obtain ⟨hheap, hotg⟩ := sendBuffer_then_free heap link name buf hfree huniq
  simp only [sendThenRelease]
  have hfree2 := (congrArg SerializedObject.mutex (hheap buf)).trans hfree
  exact ⟨sendBuffer_returns_true heap link name buf hfree, hfree2, hotg, hheap,
    sendBuffer_returns_true _ _ name buf hfree2⟩

/-- Witness of C9 as amended: buffer 3 of the sample heap, while buffers 1 and 2 are being
sent. -/
theorem sendBuffer_freeOlderBuffer_witness :
    (busyHeap 3).mutex = false ∧
    (∀ q ∈ busyLink.otgBuffers, (busyHeap q).data ≠ (busyHeap 3).data) ∧
    ((Link.sendBuffer busyHeap busyLink (ascii "B") 3).1 = true ∧
    ((sendThenRelease busyHeap busyLink (ascii "B") 3).1 3).mutex = false ∧
    (sendThenRelease busyHeap busyLink (ascii "B") 3).2.otgBuffers = busyLink.otgBuffers ∧
    (∀ p, (sendThenRelease busyHeap busyLink (ascii "B") 3).1 p = busyHeap p) ∧
    (Link.sendBuffer (sendThenRelease busyHeap busyLink (ascii "B") 3).1
        (sendThenRelease busyHeap busyLink (ascii "B") 3).2 (ascii "B") 3).1 = true) :=
  ⟨rfl, by decide,
    sendBuffer_freeOlderBuffer busyHeap busyLink (ascii "B") 3 rfl (by decide)⟩

/-- Counterexample to C9 as stated: two empty buffers have the same address.  While buffer 1
is being sent, `sendBuffer("B", 2)` succeeds, but the release `freeOlderBuffer` called with
the address of buffer 2 unlocks and removes buffer 1: buffer 2 stays leased, the buffers
being sent are `[2]` and not `[1]` as before the send, and a following `sendBuffer` on
buffer 2 returns `false`. -/
theorem sendBuffer_freeOlderBuffer_aliased :
    aliasedState.2.otgBuffers = [1] ∧ (aliasedState.1 2).mutex = false ∧
    aliasedState.2.socketBufferOut.quiet = true ∧
    (aliasedState.1 1).data = (aliasedState.1 2).data ∧
    (Link.sendBuffer aliasedState.1 aliasedState.2 (ascii "B") 2).1 = true ∧
    ((sendThenRelease aliasedState.1 aliasedState.2 (ascii "B") 2).1 2).mutex = true ∧
    (sendThenRelease aliasedState.1 aliasedState.2 (ascii "B") 2).2.otgBuffers = [2] ∧
    (Link.sendBuffer (sendThenRelease aliasedState.1 aliasedState.2 (ascii "B") 2).1
        (sendThenRelease aliasedState.1 aliasedState.2 (ascii "B") 2).2 (ascii "B") 2).1 = false :=
  ⟨rfl, rfl, rfl, rfl, rfl, rfl, rfl, rfl⟩

/-! ## The frames of a message -/

/-- C11: for every target name and every buffer that is not leased, `sendBuffer` on a socket
that raises nothing emits exactly two frames on the data channel, in this order: the
zero-terminated target name, with more frames to follow, then a final frame, built over the
memory of the buffer, whose content is exactly the bytes of the buffer. -/
theorem sendBuffer_frames (heap : Heap) (link : Link) (name : List Byte)
    (buffer : SerializedObjectPtr) (hfree : (heap buffer).mutex = false)
    (hq : link.socketBufferOut.quiet = true) :
    emitted link.socketBufferOut (Link.sendBuffer heap link name buffer).2.2.socketBufferOut
      = [⟨cString name, true, none⟩,
          ⟨(heap buffer).bytes, false, some (heap buffer).data⟩] := by
  obtain ⟨sock, hsent, _, hrun⟩ := sendBuffer_quiet heap link name buffer hfree hq
  rw [hrun]
  exact emitted_append _ _ _ hsent

/-- Witness of C11: the buffer with the 16 bytes `0, 1, ..., 15`, sent to `"B"`. -/
theorem sendBuffer_frames_witness :
    (sampleHeap 0).mutex = false ∧ Link.fresh.socketBufferOut.quiet = true ∧
    emitted Link.fresh.socketBufferOut
        (Link.sendBuffer sampleHeap Link.fresh (ascii "B") 0).2.2.socketBufferOut
      = [⟨cString (ascii "B"), true, none⟩,
          ⟨(sampleHeap 0).bytes, false, some (sampleHeap 0).data⟩] :=
  ⟨rfl, rfl, sendBuffer_frames sampleHeap Link.fresh (ascii "B") 0 rfl rfl⟩

/-! ## The payload of a string -/

theorem valuesFrames_length_pos (v : Values) : 0 < (valuesFrames v).length := by
  simp [valuesFrames]

theorem noZero_iff (str : List Byte) :
    noZero str = true ↔ ∀ b ∈ str, (decide (b.val ≠ 0)) = true := by
  simp [noZero, List.all_eq_true]

theorem cView_append (pre str : List Byte) (h : noZero pre = true) :
    cView (pre ++ str) = pre ++ cView str :=
  List.takeWhile_append_of_pos ((noZero_iff pre).1 h)

theorem cView_of_noZero (str : List Byte) (h : noZero str = true) : cView str = str :=
  List.takeWhile_eq_self_iff.2 ((noZero_iff str).1 h)

theorem messageEndpoint_eq (name : List Byte) :
    messageEndpoint name = ascii "ipc:///tmp/splash_msg_" ++ cView name :=
  cView_append _ _ (by decide)

theorem bufferEndpoint_eq (name : List Byte) :
    bufferEndpoint name = ascii "ipc:///tmp/splash_buf_" ++ cView name :=
  cView_append _ _ (by decide)

/-- C13, as amended: the control endpoint of a peer always differs from the data endpoint of
any peer, and for names P and Q without a zero byte the control endpoints, and likewise the
data endpoints, of P and Q are equal only if P = Q. -/
theorem endpoints_distinct (P Q : List Byte) :
    messageEndpoint P ≠ bufferEndpoint Q ∧
    (noZero P = true → noZero Q = true → messageEndpoint P = messageEndpoint Q → P = Q) ∧
    (noZero P = true → noZero Q = true → bufferEndpoint P = bufferEndpoint Q → P = Q) := by
  refine ⟨?_, ?_, ?_⟩
  · rw [messageEndpoint_eq, bufferEndpoint_eq]
    intro h
    have h22 := congrArg (List.take 22) h
    have hm : (ascii "ipc:///tmp/splash_msg_").length = 22 := by decide
    have hb : (ascii "ipc:///tmp/splash_buf_").length = 22 := by decide
    rw [List.take_left' hm, List.take_left' hb] at h22
    revert h22
    decide
  · intro hP hQ h
    rw [messageEndpoint_eq, messageEndpoint_eq, cView_of_noZero P hP,
      cView_of_noZero Q hQ] at h
    exact List.append_cancel_left h
  · intro hP hQ h
    rw [bufferEndpoint_eq, bufferEndpoint_eq, cView_of_noZero P hP,
      cView_of_noZero Q hQ] at h
    exact List.append_cancel_left h

/-- Witness of C13: the peers `"left"` and `"right"`, whose names have no zero byte, have
four endpoints that differ from one another. -/
theorem endpoints_distinct_witness :
    noZero (ascii "left") = true ∧ noZero (ascii "right") = true ∧
    messageEndpoint (ascii "left") ≠ bufferEndpoint (ascii "right") ∧
    messageEndpoint (ascii "left") ≠ bufferEndpoint (ascii "left") ∧
    messageEndpoint (ascii "left") ≠ messageEndpoint (ascii "right") ∧
    bufferEndpoint (ascii "left") ≠ bufferEndpoint (ascii "right") :=
  ⟨by decide, by decide,
    (endpoints_distinct (ascii "left") (ascii "right")).1,
    (endpoints_distinct (ascii "left") (ascii "left")).1,
    fun h => absurd ((endpoints_distinct (ascii "left") (ascii "right")).2.1
      (by decide) (by decide) h) (by decide),
    fun h => absurd ((endpoints_distinct (ascii "left") (ascii "right")).2.2
      (by decide) (by decide) h) (by decide)⟩

/-- Counterexample to C13 as stated: the names `"a\0b"` and `"a"` differ and have the same
control endpoint and the same data endpoint, since the endpoint is read as a C string. -/
theorem endpoints_collide :
    [byte 97, byte 0, byte 98] ≠ [byte 97] ∧
    messageEndpoint [byte 97, byte 0, byte 98] = messageEndpoint [byte 97] ∧
    bufferEndpoint [byte 97, byte 0, byte 98] = bufferEndpoint [byte 97] := by
  decide

/-! ## The configuration of the sockets -/

theorem call_quiet (transport : Transport) (call : ApiCall) (h : transport.quiet = true) :
    (transport.call call).1 = none ∧
    (transport.call call).2.calls = transport.calls ++ [call] ∧
    (transport.call call).2.quiet = true := by
  obtain ⟨calls, script⟩ := transport
  cases script with
  | nil => exact ⟨rfl, rfl, h⟩
  | cons e script =>
    simp only [Transport.quiet, List.all_cons, Bool.and_eq_true] at h
    cases e with
    | some e => simp at h
    | none => exact ⟨rfl, rfl, h.2⟩

theorem transport_andThen_of_none (r : Option ZmqError × Transport)
    (k : Transport → Option ZmqError × Transport) (h : r.1 = none) :
    Transport.andThen r k = k r.2 := by
  obtain ⟨e, transport⟩ := r
  simp only at h
  subst h
  rfl

/-- C17: when no call on the transport raises, `connectTo` sets the outbound high-water mark
of the control channel to 0 and that of the data channel to 10, in this order and before
it connects the two sockets, and the head of the control receive loop sets the inbound
high-water mark of the control channel to 100 before it binds the socket. -/
theorem highWaterMarks (transport : Transport) (peer name : List Byte)
    (hq : transport.quiet = true) :
    (Link.connectTo transport peer).calls = transport.calls ++
      [.setsockopt .messageOut .sndhwm 0, .setsockopt .bufferOut .sndhwm 10,
        .connect .messageOut (messageEndpoint peer), .connect .bufferOut (bufferEndpoint peer),
        .nanosleep 100000000] ∧
    (messageInSetup transport name).1 = none ∧
    (messageInSetup transport name).2.calls = transport.calls ++
      [.setsockopt .messageIn .rcvhwm 100, .bind .messageIn (messageEndpoint name),
        .subscribe .messageIn []] := by
  refine ⟨?_, ?_, ?_⟩
  · obtain ⟨a1, a2, a3⟩ := call_quiet transport (.setsockopt .messageOut .sndhwm 0) hq
    obtain ⟨b1, b2, b3⟩ := call_quiet _ (.setsockopt .bufferOut .sndhwm 10) a3
    obtain ⟨c1, c2, c3⟩ := call_quiet _ (.connect .messageOut (messageEndpoint peer)) b3
    obtain ⟨d1, d2, d3⟩ := call_quiet _ (.connect .bufferOut (bufferEndpoint peer)) c3
    simp only [Link.connectTo, connectToBody, transport_andThen_of_none _ _ a1,
      transport_andThen_of_none _ _ b1, transport_andThen_of_none _ _ c1]
    rw [d2, c2, b2, a2]
    simp
  · obtain ⟨a1, a2, a3⟩ := call_quiet transport (.setsockopt .messageIn .rcvhwm 100) hq
    obtain ⟨b1, b2, b3⟩ := call_quiet _ (.bind .messageIn (messageEndpoint name)) a3
    obtain ⟨c1, c2, c3⟩ := call_quiet _ (.subscribe .messageIn []) b3
    simp only [messageInSetup, transport_andThen_of_none _ _ a1,
      transport_andThen_of_none _ _ b1]
    exact c1
  · obtain ⟨a1, a2, a3⟩ := call_quiet transport (.setsockopt .messageIn .rcvhwm 100) hq
    obtain ⟨b1, b2, b3⟩ := call_quiet _ (.bind .messageIn (messageEndpoint name)) a3
    obtain ⟨c1, c2, c3⟩ := call_quiet _ (.subscribe .messageIn []) b3
    simp only [messageInSetup, transport_andThen_of_none _ _ a1,
      transport_andThen_of_none _ _ b1]
    rw [c2, b2, a2]
    simp

/-- Witness of C17: a fresh transport, the peer `"B"` and the link `"A"`. -/
theorem highWaterMarks_witness :
    Transport.fresh.quiet = true ∧
    ((Link.connectTo Transport.fresh (ascii "B")).calls = Transport.fresh.calls ++
      [.setsockopt .messageOut .sndhwm 0, .setsockopt .bufferOut .sndhwm 10,
        .connect .messageOut (messageEndpoint (ascii "B")),
        .connect .bufferOut (bufferEndpoint (ascii "B")), .nanosleep 100000000] ∧
    (messageInSetup Transport.fresh (ascii "A")).1 = none ∧
    (messageInSetup Transport.fresh (ascii "A")).2.calls = Transport.fresh.calls ++
      [.setsockopt .messageIn .rcvhwm 100, .bind .messageIn (messageEndpoint (ascii "A")),
        .subscribe .messageIn []]) :=
  ⟨rfl, highWaterMarks Transport.fresh (ascii "B") (ascii "A") rfl⟩

/-! ## A message with an unknown type tag -/

theorem allFrames_cons (ev : InEvent) (evs : List InEvent)
    (h : (ev :: evs).all InEvent.isFrame = true) :
    (∃ data, ev = InEvent.frame data) ∧ evs.all InEvent.isFrame = true := by
  simp only [List.all_cons, Bool.and_eq_true] at h
  refine ⟨?_, h.2⟩
  cases ev with
  | frame data => exact ⟨data, rfl⟩
  | raise e => simp [InEvent.isFrame] at h

/-- One more iteration of the loop of the decoder in front of a run that stops at the
raised error or returns with the error still ahead. -/
theorem recvElements_cut_step (e : ZmqError) (n : Nat) (pre pre2 : List InEvent)
    (acc acc2 : Values) (hlen : pre2.length ≤ pre.length)
    (hstep : ∀ fuel post, pre.length ≤ fuel →
      recvElements (recvMessageAux fuel) (n + 1) (pre ++ InEvent.raise e :: post) acc
        = recvElements (recvMessageAux fuel) n (pre2 ++ InEvent.raise e :: post) acc2)
    (ih : (∃ s, (s = Stop.raised e ∨ s = Stop.undefined) ∧ ∀ fuel post, pre2.length ≤ fuel →
        recvElements (recvMessageAux fuel) n (pre2 ++ InEvent.raise e :: post) acc2
          = .error s) ∨
      (∃ vs pre', pre'.all InEvent.isFrame = true ∧ pre'.length ≤ pre2.length ∧
        ∀ fuel post, pre2.length ≤ fuel →
          recvElements (recvMessageAux fuel) n (pre2 ++ InEvent.raise e :: post) acc2
            = .ok (vs, pre' ++ InEvent.raise e :: post))) :
    (∃ s, (s = Stop.raised e ∨ s = Stop.undefined) ∧ ∀ fuel post, pre.length ≤ fuel →
        recvElements (recvMessageAux fuel) (n + 1) (pre ++ InEvent.raise e :: post) acc
          = .error s) ∨
      (∃ vs pre', pre'.all InEvent.isFrame = true ∧ pre'.length ≤ pre.length ∧
        ∀ fuel post, pre.length ≤ fuel →
          recvElements (recvMessageAux fuel) (n + 1) (pre ++ InEvent.raise e :: post) acc
            = .ok (vs, pre' ++ InEvent.raise e :: post)) := by
  rcases ih with ⟨s, hs, hrun⟩ | ⟨vs, pre', hall, hle, hrun⟩
  · exact Or.inl ⟨s, hs, fun fuel post h => by rw [hstep fuel post h, hrun fuel post (by omega)]⟩
  · exact Or.inr ⟨vs, pre', hall, by omega,
      fun fuel post h => by rw [hstep fuel post h, hrun fuel post (by omega)]⟩

/-- The loop of the decoder on frames followed by a raised error, given that the decoder
itself stops at the error or returns with it still ahead on fewer than `k` frames. -/
theorem recvElements_cut (e : ZmqError) (k : Nat)
    (hrec : ∀ pre : List InEvent, pre.length < k → pre.all InEvent.isFrame = true →
      (∃ s, (s = Stop.raised e ∨ s = Stop.undefined) ∧ ∀ fuel post, pre.length < fuel →
        recvMessageAux fuel (pre ++ InEvent.raise e :: post) = .error s) ∨
      (∃ vs pre', pre'.all InEvent.isFrame = true ∧ pre'.length < pre.length ∧
        ∀ fuel post, pre.length < fuel →
          recvMessageAux fuel (pre ++ InEvent.raise e :: post)
            = .ok (vs, pre' ++ InEvent.raise e :: post))) :
    ∀ (n : Nat) (pre : List InEvent) (acc : Values), pre.length ≤ k →
      pre.all InEvent.isFrame = true →
      (∃ s, (s = Stop.raised e ∨ s = Stop.undefined) ∧ ∀ fuel post, pre.length ≤ fuel →
        recvElements (recvMessageAux fuel) n (pre ++ InEvent.raise e :: post) acc
          = .error s) ∨
      (∃ vs pre', pre'.all InEvent.isFrame = true ∧ pre'.length ≤ pre.length ∧
        ∀ fuel post, pre.length ≤ fuel →
          recvElements (recvMessageAux fuel) n (pre ++ InEvent.raise e :: post) acc
            = .ok (vs, pre' ++ InEvent.raise e :: post)) := by
  intro n
  induction n with
  | zero =>
    intro pre acc _ hall
    exact Or.inr ⟨acc, pre, hall, le_refl _, fun fuel post _ => rfl⟩
  | succ n ih =>
    intro pre acc hk hall
    cases pre with
    | nil =>
      exact Or.inl ⟨Stop.raised e, Or.inl rfl, fun fuel post _ => by
        rw [recvElements]
        rfl⟩
    | cons ev pre1 =>
      obtain ⟨⟨tag, rfl⟩, hall1⟩ := allFrames_cons ev pre1 hall
      simp only [List.length_cons] at hk
      cases hri : readInt tag with
      | none =>
        exact Or.inl ⟨Stop.undefined, Or.inr rfl, fun fuel post _ => by
          rw [recvElements]
          simp only [List.cons_append, recv, hri]⟩
      | some t =>
        by_cases hv : t = ValueType.v.code
        · rcases hrec pre1 (by omega) hall1 with ⟨s, hs, hrun⟩ | ⟨nested, pre2, hall2, hlt2, hrun⟩
          · exact Or.inl ⟨s, hs, fun fuel post h => by
              simp only [List.length_cons] at h
              rw [recvElements]
              simp only [List.cons_append, recv, hri, hv, if_true, hrun fuel post (by omega)]⟩
          · apply recvElements_cut_step e n (InEvent.frame tag :: pre1) pre2 acc
              (acc ++ [Value.v nested]) (by simp only [List.length_cons]; omega)
            · intro fuel post h
              simp only [List.length_cons] at h
              rw [recvElements]
              simp only [List.cons_append, recv, hri, hv, if_true, hrun fuel post (by omega)]
            · exact ih pre2 _ (by omega) hall2
        · cases pre1 with
          | nil =>
            exact Or.inl ⟨Stop.raised e, Or.inl rfl, fun fuel post _ => by
              rw [recvElements]
              simp only [List.cons_append, List.nil_append, recv, hri, hv, if_false]⟩
          | cons ev2 pre2 =>
            obtain ⟨⟨msg, rfl⟩, hall2⟩ := allFrames_cons ev2 pre2 hall1
            simp only [List.length_cons] at hk
            have hle : pre2.length ≤ (InEvent.frame tag :: InEvent.frame msg :: pre2).length := by
              simp only [List.length_cons]
              omega
            by_cases hi : t = ValueType.i.code
            · subst hi
              cases hx : readInt msg with
              | none =>
                exact Or.inl ⟨Stop.undefined, Or.inr rfl, fun fuel post _ => by
                  rw [recvElements]
                  simp only [List.cons_append, recv, hri, code_i_ne_v, if_false, eq_self_iff_true, if_true,
                    hx]⟩
              | some x =>
                apply recvElements_cut_step e n _ pre2 acc (acc ++ [Value.i x]) hle
                · intro fuel post _
                  rw [recvElements]
                  simp only [List.cons_append, recv, hri, code_i_ne_v, if_false, eq_self_iff_true, if_true,
                    hx]
                · exact ih pre2 _ (by omega) hall2
            · by_cases hf : t = ValueType.f.code
              · subst hf
                cases hx : readFloat msg with
                | none =>
                  exact Or.inl ⟨Stop.undefined, Or.inr rfl, fun fuel post _ => by
                    rw [recvElements]
                    simp only [List.cons_append, recv, hri, code_f_ne_v, code_f_ne_i, if_false,
                      eq_self_iff_true, if_true, hx]⟩
                | some x =>
                  apply recvElements_cut_step e n _ pre2 acc (acc ++ [Value.f x]) hle
                  · intro fuel post _
                    rw [recvElements]
                    simp only [List.cons_append, recv, hri, code_f_ne_v, code_f_ne_i, if_false,
                      eq_self_iff_true, if_true, hx]
                  · exact ih pre2 _ (by omega) hall2
              · by_cases hs : t = ValueType.s.code
                · subst hs
                  cases hx : readCString msg with
                  | none =>
                    exact Or.inl ⟨Stop.undefined, Or.inr rfl, fun fuel post _ => by
                      rw [recvElements]
                      simp only [List.cons_append, recv, hri, code_s_ne_v, code_s_ne_i, code_s_ne_f,
                        if_false, eq_self_iff_true, if_true, hx]⟩
                  | some x =>
                    apply recvElements_cut_step e n _ pre2 acc (acc ++ [Value.s x]) hle
                    · intro fuel post _
                      rw [recvElements]
                      simp only [List.cons_append, recv, hri, code_s_ne_v, code_s_ne_i, code_s_ne_f,
                        if_false, eq_self_iff_true, if_true, hx]
                    · exact ih pre2 _ (by omega) hall2
                · apply recvElements_cut_step e n _ pre2 acc acc hle
                  · intro fuel post _
                    rw [recvElements]
                    simp only [List.cons_append, recv, hri, hv, if_false, hi, hf, hs]
                  · exact ih pre2 _ (by omega) hall2

/-- The decoder on frames followed by a raised error: it stops at the error, or on a read
past the end of a frame, or it returns with the error still ahead; which of these, and
with what values, does not depend on the fuel nor on what follows the error. -/
theorem recvMessageAux_cut (e : ZmqError) : ∀ (k : Nat) (pre : List InEvent),
    pre.length < k → pre.all InEvent.isFrame = true →
    (∃ s, (s = Stop.raised e ∨ s = Stop.undefined) ∧ ∀ fuel post, pre.length < fuel →
      recvMessageAux fuel (pre ++ InEvent.raise e :: post) = .error s) ∨
    (∃ vs pre', pre'.all InEvent.isFrame = true ∧ pre'.length < pre.length ∧
      ∀ fuel post, pre.length < fuel →
        recvMessageAux fuel (pre ++ InEvent.raise e :: post)
          = .ok (vs, pre' ++ InEvent.raise e :: post)) := by
  intro k
  induction k with
  | zero => intro pre h; omega
  | succ k ih =>
    intro pre hk hall
    cases pre with
    | nil =>
      exact Or.inl ⟨Stop.raised e, Or.inl rfl, fun fuel post h => by
        obtain ⟨f, rfl⟩ : ∃ f, fuel = f + 1 := ⟨fuel - 1, by omega⟩
        rfl⟩
    | cons ev pre1 =>
      obtain ⟨⟨msg, rfl⟩, hall1⟩ := allFrames_cons ev pre1 hall
      simp only [List.length_cons] at hk
      cases hri : readInt msg with
      | none =>
        exact Or.inl ⟨Stop.undefined, Or.inr rfl, fun fuel post h => by
          obtain ⟨f, rfl⟩ : ∃ f, fuel = f + 1 := ⟨fuel - 1, by omega⟩
          rw [recvMessageAux]
          simp only [List.cons_append, recv, hri]⟩
      | some size =>
        have hunfold : ∀ fuel post, (InEvent.frame msg :: pre1).length < fuel + 1 →
            recvMessageAux (fuel + 1) (InEvent.frame msg :: pre1 ++ InEvent.raise e :: post)
              = recvElements (recvMessageAux fuel) size.val.toNat
                  (pre1 ++ InEvent.raise e :: post) [] := by
          intro fuel post _
          rw [recvMessageAux]
          simp only [List.cons_append, recv, hri]
        rcases recvElements_cut e k ih size.val.toNat pre1 [] (by omega) hall1 with
          ⟨s, hs, hrun⟩ | ⟨vs, pre', hall', hle, hrun⟩
        · exact Or.inl ⟨s, hs, fun fuel post h => by
            obtain ⟨f, rfl⟩ : ∃ f, fuel = f + 1 := ⟨fuel - 1, by omega⟩
            simp only [List.length_cons] at h
            rw [hunfold f post (by simp only [List.length_cons]; omega),
              hrun f post (by omega)]⟩
        · exact Or.inr ⟨vs, pre', hall', by simp only [List.length_cons]; omega,
            fun fuel post h => by
              obtain ⟨f, rfl⟩ : ∃ f, fuel = f + 1 := ⟨fuel - 1, by omega⟩
              simp only [List.length_cons] at h
              rw [hunfold f post (by simp only [List.length_cons]; omega),
                hrun f post (by omega)]⟩

/-- The decoder `recvMessage` on frames followed by a raised error. -/
theorem recvMessage_cut (e : ZmqError) (pre : List InEvent)
    (hall : pre.all InEvent.isFrame = true) :
    (∃ s, (s = Stop.raised e ∨ s = Stop.undefined) ∧ ∀ post,
      recvMessage (pre ++ InEvent.raise e :: post) = .error s) ∨
    (∃ vs pre', pre'.all InEvent.isFrame = true ∧ pre'.length < pre.length ∧
      ∀ post, recvMessage (pre ++ InEvent.raise e :: post)
        = .ok (vs, pre' ++ InEvent.raise e :: post)) := by
  have hfuel : ∀ post : List InEvent,
      pre.length < (pre ++ InEvent.raise e :: post).length + 1 := by
    intro post
    simp only [List.length_append, List.length_cons]
    omega
  rcases recvMessageAux_cut e (pre.length + 1) pre (Nat.lt_succ_self _) hall with
    ⟨s, hs, hrun⟩ | ⟨vs, pre', hall', hlt, hrun⟩
  · exact Or.inl ⟨s, hs, fun post => hrun _ post (hfuel post)⟩
  · exact Or.inr ⟨vs, pre', hall', hlt, fun post => hrun _ post (hfuel post)⟩

/-- The control receive loop on frames followed by a raised error: it stops at the error, or
on a read past the end of a frame, with calls that depend neither on the fuel nor on what
follows the error. -/
theorem messageLoop_cut (e : ZmqError) : ∀ (k : Nat) (pre : List InEvent)
    (calls : List RootCall), pre.length < k → pre.all InEvent.isFrame = true →
    ∃ result : LoopResult, (result.stop = Stop.raised e ∨ result.stop = Stop.undefined) ∧
      ∀ fuel post, pre.length < fuel →
        messageLoop fuel (pre ++ InEvent.raise e :: post) calls = result := by
  intro k
  induction k with
  | zero => intro pre calls h; omega
  | succ k ih =>
    intro pre calls hk hall
    cases pre with
    | nil =>
      exact ⟨⟨calls, Stop.raised e⟩, Or.inl rfl, fun fuel post h => by
        obtain ⟨f, rfl⟩ : ∃ f, fuel = f + 1 := ⟨fuel - 1, by omega⟩
        rfl⟩
    | cons ev pre1 =>
      obtain ⟨⟨nameFrame, rfl⟩, hall1⟩ := allFrames_cons ev pre1 hall
      simp only [List.length_cons] at hk
      cases hname : readCString nameFrame with
      | none =>
        exact ⟨⟨calls, Stop.undefined⟩, Or.inr rfl, fun fuel post h => by
          obtain ⟨f, rfl⟩ : ∃ f, fuel = f + 1 := ⟨fuel - 1, by omega⟩
          rw [messageLoop]
          simp only [List.cons_append, recv, hname]⟩
      | some name =>
        cases pre1 with
        | nil =>
          exact ⟨⟨calls, Stop.raised e⟩, Or.inl rfl, fun fuel post h => by
            obtain ⟨f, rfl⟩ : ∃ f, fuel = f + 1 := ⟨fuel - 1, by omega⟩
            rw [messageLoop]
            simp only [List.cons_append, List.nil_append, recv, hname]⟩
        | cons ev2 pre2 =>
          obtain ⟨⟨attribFrame, rfl⟩, hall2⟩ := allFrames_cons ev2 pre2 hall1
          simp only [List.length_cons] at hk
          cases hattrib : readCString attribFrame with
          | none =>
            exact ⟨⟨calls, Stop.undefined⟩, Or.inr rfl, fun fuel post h => by
              obtain ⟨f, rfl⟩ : ∃ f, fuel = f + 1 := ⟨fuel - 1, by omega⟩
              rw [messageLoop]
              simp only [List.cons_append, recv, hname, hattrib]⟩
          | some attrib =>
            rcases recvMessage_cut e pre2 hall2 with ⟨s, hs, hrun⟩ | ⟨vs, pre3, hall3, hlt, hrun⟩
            · refine ⟨⟨calls, s⟩, hs, fun fuel post h => ?_⟩
              obtain ⟨f, rfl⟩ : ∃ f, fuel = f + 1 := ⟨fuel - 1, by omega⟩
              rw [messageLoop]
              simp only [List.cons_append, recv, hname, hattrib, hrun post]
            · obtain ⟨result, hstop, hloop⟩ :=
                ih pre3 (calls ++ [RootCall.set name attrib vs]) (by omega) hall3
              refine ⟨result, hstop, fun fuel post h => ?_⟩
              obtain ⟨f, rfl⟩ : ∃ f, fuel = f + 1 := ⟨fuel - 1, by omega⟩
              simp only [List.length_cons] at h
              rw [messageLoop]
              simp only [List.cons_append, recv, hname, hattrib, hrun post]
              exact hloop f post (by omega)

/-- The data receive loop on frames followed by a raised error. -/
theorem bufferLoop_cut (e : ZmqError) : ∀ (k : Nat) (pre : List InEvent)
    (calls : List RootCall), pre.length < k → pre.all InEvent.isFrame = true →
    ∃ result : LoopResult, (result.stop = Stop.raised e ∨ result.stop = Stop.undefined) ∧
      ∀ fuel post, pre.length < fuel →
        bufferLoop fuel (pre ++ InEvent.raise e :: post) calls = result := by
  intro k
  induction k with
  | zero => intro pre calls h; omega
  | succ k ih =>
    intro pre calls hk hall
    cases pre with
    | nil =>
      exact ⟨⟨calls, Stop.raised e⟩, Or.inl rfl, fun fuel post h => by
        obtain ⟨f, rfl⟩ : ∃ f, fuel = f + 1 := ⟨fuel - 1, by omega⟩
        rfl⟩
    | cons ev pre1 =>
      obtain ⟨⟨nameFrame, rfl⟩, hall1⟩ := allFrames_cons ev pre1 hall
      simp only [List.length_cons] at hk
      cases hname : readCString nameFrame with
      | none =>
        exact ⟨⟨calls, Stop.undefined⟩, Or.inr rfl, fun fuel post h => by
          obtain ⟨f, rfl⟩ : ∃ f, fuel = f + 1 := ⟨fuel - 1, by omega⟩
          rw [bufferLoop]
          simp only [List.cons_append, recv, hname]⟩
      | some name =>
        cases pre1 with
        | nil =>
          exact ⟨⟨calls, Stop.raised e⟩, Or.inl rfl, fun fuel post h => by
            obtain ⟨f, rfl⟩ : ∃ f, fuel = f + 1 := ⟨fuel - 1, by omega⟩
            rw [bufferLoop]
            simp only [List.cons_append, List.nil_append, recv, hname]⟩
        | cons ev2 pre2 =>
          obtain ⟨⟨bytes, rfl⟩, hall2⟩ := allFrames_cons ev2 pre2 hall1
          simp only [List.length_cons] at hk
          obtain ⟨result, hstop, hloop⟩ :=
            ih pre2 (calls ++ [RootCall.setFromSerializedObject name bytes]) (by omega) hall2
          refine ⟨result, hstop, fun fuel post h => ?_⟩
          obtain ⟨f, rfl⟩ : ∃ f, fuel = f + 1 := ⟨fuel - 1, by omega⟩
          simp only [List.length_cons] at h
          rw [bufferLoop]
          simp only [List.cons_append, recv, hname]
          exact hloop f post (by omega)

/-- C15, as amended: when a `recv` of a receive loop (control or data) raises a transport
error `e`, whether or not `e` is the termination signal, the loop ends there: what it has
done does not depend on the events that follow the error, none of which is received, and
its last step is the raised error `e` (or, before it, a read past the end of a frame). -/
theorem receive_loops_stop_on_error (pre : List InEvent) (e : ZmqError)
    (post : List InEvent) (hpre : pre.all InEvent.isFrame = true) :
    (handleInputMessages (pre ++ InEvent.raise e :: post)
        = handleInputMessages (pre ++ [InEvent.raise e]) ∧
      ((handleInputMessages (pre ++ [InEvent.raise e])).stop = Stop.raised e ∨
        (handleInputMessages (pre ++ [InEvent.raise e])).stop = Stop.undefined)) ∧
    (handleInputBuffers (pre ++ InEvent.raise e :: post)
        = handleInputBuffers (pre ++ [InEvent.raise e]) ∧
      ((handleInputBuffers (pre ++ [InEvent.raise e])).stop = Stop.raised e ∨
        (handleInputBuffers (pre ++ [InEvent.raise e])).stop = Stop.undefined)) := by
  have hfuel : ∀ post : List InEvent,
      pre.length < (pre ++ InEvent.raise e :: post).length + 1 := by
    intro post
    simp only [List.length_append, List.length_cons]
    omega
  obtain ⟨r1, hs1, h1⟩ := messageLoop_cut e (pre.length + 1) pre [] (Nat.lt_succ_self _) hpre
  obtain ⟨r2, hs2, h2⟩ := bufferLoop_cut e (pre.length + 1) pre [] (Nat.lt_succ_self _) hpre
  simp only [handleInputMessages, handleInputBuffers]
  rw [h1 _ post (hfuel post), h1 _ [] (hfuel []), h2 _ post (hfuel post), h2 _ [] (hfuel [])]
  exact ⟨⟨rfl, hs1⟩, ⟨rfl, hs2⟩⟩

/-- Witness of C15: a message, the name frame of a second one, then an error that is not
the termination signal, then a whole further message, which is never received. -/
theorem receive_loops_stop_on_error_witness :
    (wire (messageFrames (ascii "B") (ascii "brightness") [Value.f half])
        ++ [InEvent.frame (cString (ascii "A"))]).all InEvent.isFrame = true ∧
    ((handleInputMessages ((wire (messageFrames (ascii "B") (ascii "brightness") [Value.f half])
            ++ [InEvent.frame (cString (ascii "A"))]) ++ InEvent.raise ZmqError.other
              :: wire (messageFrames (ascii "A") (ascii "size") sampleValues))
        = handleInputMessages ((wire (messageFrames (ascii "B") (ascii "brightness")
            [Value.f half]) ++ [InEvent.frame (cString (ascii "A"))])
              ++ [InEvent.raise ZmqError.other]) ∧
      ((handleInputMessages ((wire (messageFrames (ascii "B") (ascii "brightness")
            [Value.f half]) ++ [InEvent.frame (cString (ascii "A"))])
              ++ [InEvent.raise ZmqError.other])).stop = Stop.raised ZmqError.other ∨
        (handleInputMessages ((wire (messageFrames (ascii "B") (ascii "brightness")
            [Value.f half]) ++ [InEvent.frame (cString (ascii "A"))])
              ++ [InEvent.raise ZmqError.other])).stop = Stop.undefined)) ∧
    (handleInputBuffers ((wire (messageFrames (ascii "B") (ascii "brightness") [Value.f half])
            ++ [InEvent.frame (cString (ascii "A"))]) ++ InEvent.raise ZmqError.other
              :: wire (messageFrames (ascii "A") (ascii "size") sampleValues))
        = handleInputBuffers ((wire (messageFrames (ascii "B") (ascii "brightness")
            [Value.f half]) ++ [InEvent.frame (cString (ascii "A"))])
              ++ [InEvent.raise ZmqError.other]) ∧
      ((handleInputBuffers ((wire (messageFrames (ascii "B") (ascii "brightness")
            [Value.f half]) ++ [InEvent.frame (cString (ascii "A"))])
              ++ [InEvent.raise ZmqError.other])).stop = Stop.raised ZmqError.other ∨
        (handleInputBuffers ((wire (messageFrames (ascii "B") (ascii "brightness")
            [Value.f half]) ++ [InEvent.frame (cString (ascii "A"))])
              ++ [InEvent.raise ZmqError.other])).stop = Stop.undefined))) :=
  ⟨by decide,
    receive_loops_stop_on_error
      (wire (messageFrames (ascii "B") (ascii "brightness") [Value.f half])
        ++ [InEvent.frame (cString (ascii "A"))])
      ZmqError.other (wire (messageFrames (ascii "A") (ascii "size") sampleValues))
      (by decide)⟩

/-- Counterexample to C15 as stated: the first `recv` raises an error that is not the
termination signal, and a whole message (a name and a buffer on the data channel) follows.
Neither loop continues with it: both end with no call made, where without the error each
makes its call. -/
theorem receive_loops_do_not_continue :
    ZmqError.other ≠ ZmqError.eterm ∧
    handleInputMessages (InEvent.raise ZmqError.other
        :: wire (messageFrames (ascii "B") (ascii "brightness") [Value.f half]))
      = ⟨[], Stop.raised ZmqError.other⟩ ∧
    handleInputMessages (wire (messageFrames (ascii "B") (ascii "brightness") [Value.f half]))
      = ⟨[RootCall.set (ascii "B") (ascii "brightness") [Value.f half]], Stop.blocked⟩ ∧
    handleInputBuffers [InEvent.raise ZmqError.other, InEvent.frame (cString (ascii "B")),
        InEvent.frame (sampleHeap 0).bytes]
      = ⟨[], Stop.raised ZmqError.other⟩ ∧
    handleInputBuffers [InEvent.frame (cString (ascii "B")), InEvent.frame (sampleHeap 0).bytes]
      = ⟨[RootCall.setFromSerializedObject (ascii "B") (sampleHeap 0).bytes], Stop.blocked⟩ :=
  ⟨by decide, rfl, rfl, rfl, rfl⟩

/-! ## Attributes of a base object -/

theorem findAttribute_putAttribute {σ : Type} (name : List Byte) (attr : Attribute σ) :
    ∀ entries : List (List Byte × Attribute σ),
      findAttribute name (putAttribute name attr entries) = some attr := by
  intro entries
  induction entries with
  | nil => simp [putAttribute, findAttribute]
  | cons entry rest ih =>
    obtain ⟨key, old⟩ := entry
    by_cases h : key = name
    · simp [putAttribute, findAttribute, h]
    · simp [putAttribute, findAttribute, h, ih]

theorem findAttribute_putAttribute_other {σ : Type} (name other : List Byte)
    (attr : Attribute σ) (h : other ≠ name) :
    ∀ entries : List (List Byte × Attribute σ),
      findAttribute name (putAttribute other attr entries) = findAttribute name entries := by
  intro entries
  induction entries with
  | nil => simp [putAttribute, findAttribute, h]
  | cons entry rest ih =>
    obtain ⟨key, old⟩ := entry
    by_cases hk : key = other
    · subst hk
      simp [putAttribute, findAttribute, h]
    · by_cases hn : key = name
      · subst hn
        simp [putAttribute, findAttribute, hk]
      · simp [putAttribute, findAttribute, hk, hn, ih]

/-- C19: for a `BaseObjectMock`, whatever its members hold and whatever the conversions
between types are, after `setAttribute("integer", {n})` the call
`getAttribute("integer", out)` returns true with `out = {n}`, and likewise for the
attribute `"float"` with a float and the attribute `"string"` with a string: `out` is not
empty and `out[0]` is the value that was set. -/
theorem getAttribute_setAttribute_registered (conv : Conversions) (fields : MockFields)
    (n : CInt) (x : CFloat) (str : List Byte) (out : Values) :
    (((baseObjectMock conv fields).setAttribute (ascii "integer") [Value.i n]).2.getAttribute
        (ascii "integer") out = (true, [Value.i n])) ∧
    (((baseObjectMock conv fields).setAttribute (ascii "float") [Value.f x]).2.getAttribute
        (ascii "float") out = (true, [Value.f x])) ∧
    (((baseObjectMock conv fields).setAttribute (ascii "string") [Value.s str]).2.getAttribute
        (ascii "string") out = (true, [Value.s str])) := by
  refine ⟨?_, ?_, ?_⟩
  · have hfind : findAttribute (ascii "integer") (baseObjectMock conv fields).attribFunctions
        = some (.registered
          (fun fields args =>
            match args with
            | arg :: _ => (⟨arg.asInt conv, fields.float, fields.string⟩, true)
            | [] => (fields, true))
          (some fun fields => [Value.i fields.integer]) ['n']) := by
      rfl
    simp only [BaseObject.setAttribute, hfind, BaseObject.getAttribute,
      findAttribute_putAttribute]
    rfl
  · have hfind : findAttribute (ascii "float") (baseObjectMock conv fields).attribFunctions
        = some (.registered
          (fun fields args =>
            match args with
            | arg :: _ => (⟨fields.integer, arg.asFloat conv, fields.string⟩, true)
            | [] => (fields, true))
          (some fun fields => [Value.f fields.float]) ['n']) := by
      rfl
    simp only [BaseObject.setAttribute, hfind, BaseObject.getAttribute,
      findAttribute_putAttribute]
    rfl
  · have hfind : findAttribute (ascii "string") (baseObjectMock conv fields).attribFunctions
        = some (.registered
          (fun fields args =>
            match args with
            | arg :: _ => (⟨fields.integer, fields.float, arg.asString conv⟩, true)
            | [] => (fields, true))
          (some fun fields => [Value.s fields.string]) ['s']) := by
      rfl
    simp only [BaseObject.setAttribute, hfind, BaseObject.getAttribute,
      findAttribute_putAttribute]
    rfl

/-- C20: for every object and every name that has no registered attribute, after
`setAttribute(name, values)` the call `getAttribute(name, out)` returns false and `out`
holds the values that were set, so that `out` is not empty when they are not. -/
theorem getAttribute_setAttribute_unregistered {σ : Type} (obj : BaseObject σ)
    (name : List Byte) (values out : Values) (h : obj.isRegistered name = false) :
    (obj.setAttribute name values).2.getAttribute name out = (false, values) ∧
    (values ≠ [] → ((obj.setAttribute name values).2.getAttribute name out).2 ≠ []) := by
  have hget : (obj.setAttribute name values).2.getAttribute name out = (false, values) := by
    simp only [BaseObject.isRegistered] at h
    cases hfind : findAttribute name obj.attribFunctions with
    | none =>
      simp only [BaseObject.setAttribute, hfind, BaseObject.getAttribute,
        findAttribute_putAttribute]
      rfl
    | some attr =>
      rw [hfind] at h
      cases attr with
      | registered setFunc getFunc types => simp [Attribute.isDefault] at h
      | default old =>
        simp only [BaseObject.setAttribute, hfind, BaseObject.getAttribute, Attribute.set,
          findAttribute_putAttribute]
        rfl
  refine ⟨hget, ?_⟩
  rw [hget]
  exact id

/-- Witness of C20: the name `"newAttribute"` with `{1, 4.2, "sheraf"}` on a fresh
`BaseObjectMock`. -/
theorem getAttribute_setAttribute_unregistered_witness :
    (baseObjectMock Conversions.zero MockFields.initial).isRegistered (ascii "newAttribute")
      = false ∧
    (((baseObjectMock Conversions.zero MockFields.initial).setAttribute (ascii "newAttribute")
        [Value.i (toCInt 1), Value.f float42, Value.s (ascii "sheraf")]).2.getAttribute
        (ascii "newAttribute") []
      = (false, [Value.i (toCInt 1), Value.f float42, Value.s (ascii "sheraf")]) ∧
    ([Value.i (toCInt 1), Value.f float42, Value.s (ascii "sheraf")] ≠ [] →
      (((baseObjectMock Conversions.zero MockFields.initial).setAttribute
        (ascii "newAttribute")
        [Value.i (toCInt 1), Value.f float42, Value.s (ascii "sheraf")]).2.getAttribute
        (ascii "newAttribute") []).2 ≠ [])) :=
  ⟨rfl, getAttribute_setAttribute_unregistered _ (ascii "newAttribute")
    [Value.i (toCInt 1), Value.f float42, Value.s (ascii "sheraf")] [] rfl⟩

/-- The checks of the test case of `check_base_object.cpp` (lines 70-88) hold in the model:
the three registered attributes give back what was set and true, the unregistered
`"newAttribute"` gives back its values and false, and `"inexistingAttribute"` gives false
and empties the values held before. -/
theorem testObject_checks (conv : Conversions) :
    (testObject conv).getAttribute (ascii "integer") [] = (true, [Value.i (toCInt 42)]) ∧
    (testObject conv).getAttribute (ascii "float") [Value.i (toCInt 42)]
      = (true, [Value.f float31415]) ∧
    (testObject conv).getAttribute (ascii "string") [Value.f float31415]
      = (true, [Value.s ouiche]) ∧
    (testObject conv).getAttribute (ascii "newAttribute") [Value.s ouiche]
      = (false, [Value.i (toCInt 1), Value.f float42, Value.s (ascii "sheraf")]) ∧
    (testObject conv).getAttribute (ascii "inexistingAttribute")
        [Value.i (toCInt 1), Value.f float42, Value.s (ascii "sheraf")]
      = (false, []) :=
  ⟨rfl, rfl, rfl, rfl, rfl⟩

/-! ## Threads that call `sendBuffer` on one buffer -/

theorem countP_set_same {α : Type} (p : α → Bool) : ∀ (l : List α) (t : Nat) (x y : α),
    l[t]? = some x → p x = p y → (l.set t y).countP p = l.countP p := by
  intro l
  induction l with
  | nil => intro t x y h; simp at h
  | cons a l ih =>
    intro t x y h hp
    cases t with
    | zero =>
      simp only [List.getElem?_cons_zero, Option.some.injEq] at h
      subst h
      simp [List.countP_cons, hp]
    | succ t =>
      simp only [List.getElem?_cons_succ] at h
      simp [List.countP_cons, ih t x y h hp]

theorem countP_set_gain {α : Type} (p : α → Bool) : ∀ (l : List α) (t : Nat) (x y : α),
    l[t]? = some x → p x = false → p y = true → (l.set t y).countP p = l.countP p + 1 := by
  intro l
  induction l with
  | nil => intro t x y h; simp at h
  | cons a l ih =>
    intro t x y h hx hy
    cases t with
    | zero =>
      simp only [List.getElem?_cons_zero, Option.some.injEq] at h
      subst h
      simp [List.countP_cons, hx, hy]
    | succ t =>
      simp only [List.getElem?_cons_succ] at h
      simp only [List.set_cons_succ, List.countP_cons, ih t x y h hx hy]
      omega

theorem countP_set_lose {α : Type} (p : α → Bool) : ∀ (l : List α) (t : Nat) (x y : α),
    l[t]? = some x → p x = true → p y = false → (l.set t y).countP p + 1 = l.countP p := by
  intro l
  induction l with
  | nil => intro t x y h; simp at h
  | cons a l ih =>
    intro t x y h hx hy
    cases t with
    | zero =>
      simp only [List.getElem?_cons_zero, Option.some.injEq] at h
      subst h
      simp [List.countP_cons, hx, hy]
    | succ t =>
      simp only [List.getElem?_cons_succ] at h
      have := ih t x y h hx hy
      simp only [List.set_cons_succ, List.countP_cons]
      omega

theorem countP_pos_of_getElem {α : Type} (p : α → Bool) (l : List α) (t : Nat) (x : α)
    (h : l[t]? = some x) (hx : p x = true) : 1 ≤ l.countP p :=
  List.countP_pos_iff.2 ⟨x, List.getElem?_mem h, hx⟩

theorem forall_mem_set {α : Type} (P : α → Prop) (l : List α) (t : Nat) (y : α)
    (h : ∀ a ∈ l, P a) (hy : P y) : ∀ a ∈ l.set t y, P a := by
  intro a ha
  rcases List.mem_or_eq_of_mem_set ha with h1 | h1
  · exact h a h1
  · exact h1 ▸ hy

theorem sum_set_lt {α : Type} (f : α → Nat) : ∀ (l : List α) (t : Nat) (x y : α),
    l[t]? = some x → f y < f x → ((l.set t y).map f).sum < (l.map f).sum := by
  intro l
  induction l with
  | nil => intro t x y h; simp at h
  | cons a l ih =>
    intro t x y h hlt
    cases t with
    | zero =>
      simp only [List.getElem?_cons_zero, Option.some.injEq] at h
      subst h
      simp only [List.set_cons_zero, List.map_cons, List.sum_cons]
      omega
    | succ t =>
      simp only [List.getElem?_cons_succ] at h
      have := ih t x y h hlt
      simp only [List.set_cons_succ, List.map_cons, List.sum_cons]
      omega

/-- A step that puts the thread `t` at a position with fewer steps left and leaves the other
threads where they are. -/
theorem remaining_set_lt (s : SendThreads) (t : Nat) (name : List Byte) (old new : SendStep)
    (heap : Heap) (link : Link) (mutex : Bool) (completions : Nat)
    (hget : s.threads[t]? = some (name, old)) (hlt : new.remaining < old.remaining) :
    SendThreads.remaining ⟨heap, link, mutex, s.threads.set t (name, new), completions⟩
      < s.remaining := by
  unfold SendThreads.remaining
  exact sum_set_lt (fun thread : List Byte × SendStep => thread.2.remaining) s.threads t
    (name, old) (name, new) hget hlt

/-- Every step leaves the state as it is or brings a thread nearer to its return. -/
theorem step_same_or_less (buffer : SerializedObjectPtr) (s : SendThreads) (t : Nat) :
    SendThreads.step buffer s t = s ∨ (SendThreads.step buffer s t).remaining < s.remaining := by
  unfold SendThreads.step
  cases hget : s.threads[t]? with
  | none => exact Or.inl rfl
  | some thread =>
    obtain ⟨name, pc⟩ := thread
    cases pc with
    | lockSend =>
      simp only
      cases s.bufferSendMutex with
      | true => exact Or.inl rfl
      | false =>
        exact Or.inr (remaining_set_lt s t name _ _ _ _ _ _ hget (by decide))
    | tryLock =>
      simp only
      cases (s.heap buffer).mutex with
      | true => exact Or.inr (remaining_set_lt s t name _ _ _ _ _ _ hget (by decide))
      | false => exact Or.inr (remaining_set_lt s t name _ _ _ _ _ _ hget (by decide))
    | push => exact Or.inr (remaining_set_lt s t name _ _ _ _ _ _ hget (by decide))
    | sendName =>
      simp only
      rcases s.link.socketBufferOut.send ⟨cString name, true, none⟩ with ⟨e, sock⟩
      cases e with
      | some e => exact Or.inr (remaining_set_lt s t name _ _ _ _ _ _ hget (by decide))
      | none => exact Or.inr (remaining_set_lt s t name _ _ _ _ _ _ hget (by decide))
    | sendData =>
      simp only
      rcases s.link.socketBufferOut.send
        ⟨(s.heap buffer).bytes, false, some (s.heap buffer).data⟩ with ⟨e, sock⟩
      cases e with
      | some e => exact Or.inr (remaining_set_lt s t name _ _ _ _ _ _ hget (by decide))
      | none => exact Or.inr (remaining_set_lt s t name _ _ _ _ _ _ hget (by decide))
    | returned result => exact Or.inl rfl

/-- A thread that is not back and does not wait for `_bufferSendMutex` moves when its turn
comes. -/
theorem step_moves (buffer : SerializedObjectPtr) (s : SendThreads) (t : Nat)
    (name : List Byte) (pc : SendStep) (hget : s.threads[t]? = some (name, pc))
    (hleft : 0 < pc.remaining)
    (hfree : pc = SendStep.lockSend → s.bufferSendMutex = false) :
    (SendThreads.step buffer s t).remaining < s.remaining := by
  unfold SendThreads.step
  rw [hget]
  cases pc with
  | lockSend =>
    simp only [hfree rfl, Bool.false_eq_true, if_false]
    exact remaining_set_lt s t name _ _ _ _ _ _ hget (by decide)
  | tryLock =>
    simp only
    cases (s.heap buffer).mutex with
    | true => exact remaining_set_lt s t name _ _ _ _ _ _ hget (by decide)
    | false => exact remaining_set_lt s t name _ _ _ _ _ _ hget (by decide)
  | push => exact remaining_set_lt s t name _ _ _ _ _ _ hget (by decide)
  | sendName =>
    simp only
    rcases s.link.socketBufferOut.send ⟨cString name, true, none⟩ with ⟨e, sock⟩
    cases e with
    | some e => exact remaining_set_lt s t name _ _ _ _ _ _ hget (by decide)
    | none => exact remaining_set_lt s t name _ _ _ _ _ _ hget (by decide)
  | sendData =>
    simp only
    rcases s.link.socketBufferOut.send
      ⟨(s.heap buffer).bytes, false, some (s.heap buffer).data⟩ with ⟨e, sock⟩
    cases e with
    | some e => exact remaining_set_lt s t name _ _ _ _ _ _ hget (by decide)
    | none => exact remaining_set_lt s t name _ _ _ _ _ _ hget (by decide)
  | returned result => simp [SendStep.remaining] at hleft

/-- The invariant after a step that takes the thread `t` from a position inside its call,
past `try_lock`, to another such position, the heap and the completions staying as they
are. -/
theorem inv_step_inside (buffer : SerializedObjectPtr) (s : SendThreads)
    (hinv : s.Inv buffer) (t : Nat) (old new : List Byte × SendStep) (link : Link)
    (hget : s.threads[t]? = some old) (hold : tookLease old = true)
    (hnew : tookLease new = true) (hsold : succeeded old = false)
    (hsnew : succeeded new = false) (hcold : critical old = true)
    (hcnew : critical new = true) :
    SendThreads.Inv buffer
      ⟨s.heap, link, s.bufferSendMutex, s.threads.set t new, s.completions⟩ := by
  obtain ⟨h1, h2, _, h4, h5⟩ := hinv
  have hT := countP_set_same tookLease s.threads t old new hget (by rw [hold, hnew])
  have hS := countP_set_same succeeded s.threads t old new hget (by rw [hsold, hsnew])
  have hC := countP_set_same critical s.threads t old new hget (by rw [hcold, hcnew])
  have hpos := countP_pos_of_getElem tookLease s.threads t old hget hold
  refine ⟨?_, ?_, Or.inr ?_, ?_, ?_⟩
  · show (s.threads.set t new).countP tookLease ≤ _
    rw [hT]
    exact h1
  · intro _
    show 1 ≤ (s.threads.set t new).countP tookLease
    rw [hT]
    exact hpos
  · show 1 ≤ (s.threads.set t new).countP tookLease
    rw [hT]
    exact hpos
  · show s.completions ≤ (s.threads.set t new).countP succeeded
    rw [hS]
    exact h4
  · show (s.threads.set t new).countP critical = _
    rw [hC]
    exact h5

/-- The invariant after a step in which the thread `t`, past `try_lock`, returns `true` and
releases `_bufferSendMutex`, the heap staying as it is or a completion taking place. -/
theorem inv_step_return (buffer : SerializedObjectPtr) (s : SendThreads)
    (hinv : s.Inv buffer) (t : Nat) (name : List Byte) (old : SendStep) (heap : Heap)
    (link : Link) (completions : Nat)
    (hget : s.threads[t]? = some (name, old)) (hold : tookLease (name, old) = true)
    (hsold : succeeded (name, old) = false) (hcold : critical (name, old) = true)
    (hheap : (heap = s.heap ∧ completions = s.completions) ∨
      completions = s.completions + 1) :
    SendThreads.Inv buffer
      ⟨heap, link, false, s.threads.set t (name, SendStep.returned true), completions⟩ := by
  obtain ⟨h1, h2, _, h4, h5⟩ := hinv
  have hT := countP_set_same tookLease s.threads t (name, old) (name, SendStep.returned true)
    hget (by rw [hold]; rfl)
  have hS := countP_set_gain succeeded s.threads t (name, old) (name, SendStep.returned true)
    hget hsold rfl
  have hC := countP_set_lose critical s.threads t (name, old) (name, SendStep.returned true)
    hget hcold rfl
  have hpos := countP_pos_of_getElem tookLease s.threads t (name, old) hget hold
  refine ⟨?_, ?_, Or.inr ?_, ?_, ?_⟩
  · show (s.threads.set t (name, SendStep.returned true)).countP tookLease
      ≤ completions + (if (heap buffer).mutex then 1 else 0)
    rw [hT]
    rcases hheap with ⟨hh, hc⟩ | hc
    · rw [hh, hc]
      exact h1
    · rw [hc]
      have : s.threads.countP tookLease ≤ s.completions + 1 := by
        refine le_trans h1 ?_
        split <;> omega
      split <;> omega
  · intro _
    show 1 ≤ (s.threads.set t (name, SendStep.returned true)).countP tookLease
    rw [hT]
    exact hpos
  · show 1 ≤ (s.threads.set t (name, SendStep.returned true)).countP tookLease
    rw [hT]
    exact hpos
  · show completions ≤ (s.threads.set t (name, SendStep.returned true)).countP succeeded
    rw [hS]
    rcases hheap with ⟨_, hc⟩ | hc <;> omega
  · show (s.threads.set t (name, SendStep.returned true)).countP critical
      = if false = true then 1 else 0
    rw [h5] at hC
    simp only [Bool.false_eq_true, if_false]
    split at hC <;> omega

/-- Every step of every thread keeps the invariant, whatever the `send` calls do. -/
theorem inv_step (buffer : SerializedObjectPtr) (s : SendThreads) (t : Nat)
    (hinv : s.Inv buffer) : (SendThreads.step buffer s t).Inv buffer := by
  unfold SendThreads.step
  cases hget : s.threads[t]? with
  | none => exact hinv
  | some thread =>
    obtain ⟨name, pc⟩ := thread
    cases pc with
    | lockSend =>
      simp only
      cases hm : s.bufferSendMutex with
      | true =>
        simp only [if_true]
        exact hinv
      | false =>
        simp only [Bool.false_eq_true, if_false]
        obtain ⟨h1, h2, h3, h4, h5⟩ := hinv
        have hT := countP_set_same tookLease s.threads t (name, SendStep.lockSend)
          (name, SendStep.tryLock) hget rfl
        have hS := countP_set_same succeeded s.threads t (name, SendStep.lockSend)
          (name, SendStep.tryLock) hget rfl
        have hC := countP_set_gain critical s.threads t (name, SendStep.lockSend)
          (name, SendStep.tryLock) hget rfl rfl
        refine ⟨?_, ?_, ?_, ?_, ?_⟩
        · show (s.threads.set t (name, SendStep.tryLock)).countP tookLease ≤ _
          rw [hT]
          exact h1
        · intro hl
          show 1 ≤ (s.threads.set t (name, SendStep.tryLock)).countP tookLease
          rw [hT]
          exact h2 hl
        · rcases h3 with h3 | h3
          · exact Or.inl (forall_mem_set _ s.threads t _ h3 rfl)
          · right
            show 1 ≤ (s.threads.set t (name, SendStep.tryLock)).countP tookLease
            rw [hT]
            exact h3
        · show s.completions ≤ (s.threads.set t (name, SendStep.tryLock)).countP succeeded
          rw [hS]
          exact h4
        · show (s.threads.set t (name, SendStep.tryLock)).countP critical
            = if true = true then 1 else 0
          rw [hC, h5, hm]
          rfl
    | tryLock =>
      simp only
      obtain ⟨h1, h2, h3, h4, h5⟩ := hinv
      cases hl : (s.heap buffer).mutex with
      | true =>
        simp only [if_true]
        have hT := countP_set_same tookLease s.threads t (name, SendStep.tryLock)
          (name, SendStep.returned false) hget rfl
        have hS := countP_set_same succeeded s.threads t (name, SendStep.tryLock)
          (name, SendStep.returned false) hget rfl
        have hC := countP_set_lose critical s.threads t (name, SendStep.tryLock)
          (name, SendStep.returned false) hget rfl rfl
        refine ⟨?_, ?_, Or.inr ?_, ?_, ?_⟩
        · show (s.threads.set t (name, SendStep.returned false)).countP tookLease ≤ _
          rw [hT]
          exact h1
        · intro _
          show 1 ≤ (s.threads.set t (name, SendStep.returned false)).countP tookLease
          rw [hT]
          exact h2 hl
        · show 1 ≤ (s.threads.set t (name, SendStep.returned false)).countP tookLease
          rw [hT]
          exact h2 hl
        · show s.completions
            ≤ (s.threads.set t (name, SendStep.returned false)).countP succeeded
          rw [hS]
          exact h4
        · show (s.threads.set t (name, SendStep.returned false)).countP critical
            = if false = true then 1 else 0
          rw [h5] at hC
          simp only [Bool.false_eq_true, if_false]
          split at hC <;> omega
      | false =>
        simp only [Bool.false_eq_true, if_false]
        have hT := countP_set_gain tookLease s.threads t (name, SendStep.tryLock)
          (name, SendStep.push) hget rfl rfl
        have hS := countP_set_same succeeded s.threads t (name, SendStep.tryLock)
          (name, SendStep.push) hget rfl
        have hC := countP_set_same critical s.threads t (name, SendStep.tryLock)
          (name, SendStep.push) hget rfl
        rw [hl] at h1
        simp only [Bool.false_eq_true, if_false, Nat.add_zero] at h1
        refine ⟨?_, ?_, Or.inr ?_, ?_, ?_⟩
        · show (s.threads.set t (name, SendStep.push)).countP tookLease
            ≤ s.completions + (if (s.heap.setMutex buffer true buffer).mutex then 1 else 0)
          rw [hT, setMutex_self]
          simp only [if_true]
          omega
        · intro _
          show 1 ≤ (s.threads.set t (name, SendStep.push)).countP tookLease
          rw [hT]
          omega
        · show 1 ≤ (s.threads.set t (name, SendStep.push)).countP tookLease
          rw [hT]
          omega
        · show s.completions ≤ (s.threads.set t (name, SendStep.push)).countP succeeded
          rw [hS]
          exact h4
        · show (s.threads.set t (name, SendStep.push)).countP critical = _
          rw [hC]
          exact h5
    | push =>
      exact inv_step_inside buffer s hinv t _ _ _ hget rfl rfl rfl rfl rfl rfl
    | sendName =>
      simp only
      rcases s.link.socketBufferOut.send ⟨cString name, true, none⟩ with ⟨e, sock⟩
      cases e with
      | some e =>
        exact inv_step_return buffer s hinv t name _ _ _ _ hget rfl rfl rfl (Or.inl ⟨rfl, rfl⟩)
      | none =>
        exact inv_step_inside buffer s hinv t _ _ _ hget rfl rfl rfl rfl rfl rfl
    | sendData =>
      simp only
      rcases s.link.socketBufferOut.send
        ⟨(s.heap buffer).bytes, false, some (s.heap buffer).data⟩ with ⟨e, sock⟩
      cases e with
      | some e =>
        exact inv_step_return buffer s hinv t name _ _ _ _ hget rfl rfl rfl (Or.inr rfl)
      | none =>
        exact inv_step_return buffer s hinv t name _ _ _ _ hget rfl rfl rfl (Or.inl ⟨rfl, rfl⟩)
    | returned result => exact hinv

/-- Every schedule keeps the invariant. -/
theorem inv_run (buffer : SerializedObjectPtr) (schedule : List Nat) :
    ∀ s : SendThreads, s.Inv buffer → (SendThreads.run buffer s schedule).Inv buffer := by
  induction schedule with
  | nil => intro s h; exact h
  | cons t schedule ih =>
    intro s h
    simp only [SendThreads.run, List.foldl_cons]
    exact ih _ (inv_step buffer s t h)

/-- The invariant holds at the start, when the buffer is not leased. -/
theorem inv_start (buffer : SerializedObjectPtr) (heap : Heap) (link : Link)
    (names : List (List Byte)) (hfree : (heap buffer).mutex = false) :
    (SendThreads.start heap link names).Inv buffer := by
  have hT : (names.map fun name => (name, SendStep.lockSend)).countP tookLease = 0 := by
    simp only [List.countP_eq_zero, List.mem_map]
    rintro thread ⟨name, _, rfl⟩
    simp [tookLease]
  have hC : (names.map fun name => (name, SendStep.lockSend)).countP critical = 0 := by
    simp only [List.countP_eq_zero, List.mem_map]
    rintro thread ⟨name, _, rfl⟩
    simp [critical]
  refine ⟨?_, ?_, Or.inl ?_, Nat.zero_le _, ?_⟩
  · show (names.map fun name => (name, SendStep.lockSend)).countP tookLease ≤ _
    rw [hT]
    exact Nat.zero_le _
  · intro h
    have h' : (heap buffer).mutex = true := h
    rw [hfree] at h'
    cases h'
  · intro thread hthread
    simp only [SendThreads.start, List.mem_map] at hthread
    obtain ⟨name, _, rfl⟩ := hthread
    rfl
  · show (names.map fun name => (name, SendStep.lockSend)).countP critical
      = if false = true then 1 else 0
    rw [hC]
    rfl

/-- No step changes the number of threads. -/
theorem step_length (buffer : SerializedObjectPtr) (s : SendThreads) (t : Nat) :
    (SendThreads.step buffer s t).threads.length = s.threads.length := by
  unfold SendThreads.step
  cases hget : s.threads[t]? with
  | none => rfl
  | some thread =>
    obtain ⟨name, pc⟩ := thread
    cases pc with
    | lockSend =>
      simp only
      split <;> simp
    | tryLock =>
      simp only
      split <;> simp
    | push => simp
    | sendName =>
      simp only
      split <;> simp
    | sendData =>
      simp only
      split <;> simp
    | returned result => rfl

/-- No schedule changes the number of threads. -/
theorem run_length (buffer : SerializedObjectPtr) (schedule : List Nat) :
    ∀ s : SendThreads, (SendThreads.run buffer s schedule).threads.length = s.threads.length := by
  induction schedule with
  | nil => intro s; rfl
  | cons t schedule ih =>
    intro s
    simp only [SendThreads.run, List.foldl_cons]
    exact (ih _).trans (step_length buffer s t)

theorem run_append (buffer : SerializedObjectPtr) (s : SendThreads) (first second : List Nat) :
    SendThreads.run buffer s (first ++ second)
      = SendThreads.run buffer (SendThreads.run buffer s first) second := by
  simp [SendThreads.run, List.foldl_append]

/-- No schedule takes a thread away from its return. -/
theorem run_remaining_le (buffer : SerializedObjectPtr) (schedule : List Nat) :
    ∀ s : SendThreads, (SendThreads.run buffer s schedule).remaining ≤ s.remaining := by
  induction schedule with
  | nil => intro s; exact Nat.le_refl _
  | cons t schedule ih =>
    intro s
    simp only [SendThreads.run, List.foldl_cons]
    refine le_trans (ih _) ?_
    rcases step_same_or_less buffer s t with h | h
    · rw [h]
    · exact Nat.le_of_lt h

/-- A schedule brings a thread nearer to its return, or none of its steps moves a thread. -/
theorem run_less_or_same (buffer : SerializedObjectPtr) (schedule : List Nat) :
    ∀ s : SendThreads, (SendThreads.run buffer s schedule).remaining < s.remaining ∨
      ∀ t ∈ schedule, SendThreads.step buffer s t = s := by
  induction schedule with
  | nil => intro s; exact Or.inr (fun t h => by cases h)
  | cons t schedule ih =>
    intro s
    simp only [SendThreads.run, List.foldl_cons]
    rcases step_same_or_less buffer s t with h | h
    · rw [h]
      rcases ih s with h2 | h2
      · exact Or.inl h2
      · right
        intro u hu
        rcases List.mem_cons.1 hu with rfl | hu
        · exact h
        · exact h2 u hu
    · exact Or.inl (lt_of_le_of_lt (run_remaining_le buffer schedule _) h)

theorem exists_pos_of_sum_pos {α : Type} (f : α → Nat) : ∀ l : List α,
    0 < (l.map f).sum → ∃ a ∈ l, 0 < f a := by
  intro l
  induction l with
  | nil => intro h; simp at h
  | cons a l ih =>
    intro h
    simp only [List.map_cons, List.sum_cons] at h
    by_cases ha : 0 < f a
    · exact ⟨a, List.mem_cons_self _ _, ha⟩
    · obtain ⟨b, hb, hfb⟩ := ih (by omega)
      exact ⟨b, List.mem_cons_of_mem _ hb, hfb⟩

theorem eq_zero_of_sum_eq_zero {α : Type} (f : α → Nat) : ∀ l : List α,
    (l.map f).sum = 0 → ∀ a ∈ l, f a = 0 := by
  intro l
  induction l with
  | nil => intro _ a h; cases h
  | cons b l ih =>
    intro h a ha
    simp only [List.map_cons, List.sum_cons] at h
    rcases List.mem_cons.1 ha with rfl | ha
    · omega
    · exact ih (by omega) a ha

/-- While a thread is not back, some thread moves when its turn comes: the one inside its
call when `_bufferSendMutex` is locked, any thread that is not back otherwise. -/
theorem exists_enabled (buffer : SerializedObjectPtr) (s : SendThreads) (hinv : s.Inv buffer)
    (hleft : 0 < s.remaining) :
    ∃ t, t < s.threads.length ∧ (SendThreads.step buffer s t).remaining < s.remaining := by
  cases hm : s.bufferSendMutex with
  | true =>
    have hC := hinv.2.2.2.2
    rw [hm] at hC
    have hpos : 0 < s.threads.countP critical := by
      rw [hC]
      decide
    obtain ⟨thread, hmem, hcrit⟩ := List.countP_pos_iff.1 hpos
    obtain ⟨t, ht, hget⟩ := List.getElem_of_mem hmem
    obtain ⟨name, pc⟩ := thread
    refine ⟨t, ht, step_moves buffer s t name pc ?_ ?_ ?_⟩
    · rw [List.getElem?_eq_getElem ht, hget]
    · cases pc <;> simp_all [critical, SendStep.remaining]
    · intro h
      subst h
      simp [critical] at hcrit
  | false =>
    obtain ⟨thread, hmem, hpos⟩ :=
      exists_pos_of_sum_pos (fun thread : List Byte × SendStep => thread.2.remaining)
        s.threads hleft
    obtain ⟨t, ht, hget⟩ := List.getElem_of_mem hmem
    obtain ⟨name, pc⟩ := thread
    refine ⟨t, ht, step_moves buffer s t name pc ?_ hpos (fun _ => hm)⟩
    rw [List.getElem?_eq_getElem ht, hget]

/-- A round in which every thread has its turn brings a thread nearer to its return, while
one is not back. -/
theorem round_progress (buffer : SerializedObjectPtr) (s : SendThreads) (round : List Nat)
    (hinv : s.Inv buffer) (hleft : 0 < s.remaining)
    (hfair : ∀ t, t < s.threads.length → t ∈ round) :
    (SendThreads.run buffer s round).remaining < s.remaining := by
  rcases run_less_or_same buffer round s with h | h
  · exact h
  · obtain ⟨t, ht, hmove⟩ := exists_enabled buffer s hinv hleft
    rw [h t (hfair t ht)] at hmove
    exact absurd hmove (Nat.lt_irrefl _)

/-- Each round in which every thread has its turn takes one step off what is left, until
all threads are back. -/
theorem rounds_progress (buffer : SerializedObjectPtr) : ∀ (rounds : List (List Nat))
    (s : SendThreads), s.Inv buffer →
    (∀ round ∈ rounds, ∀ t, t < s.threads.length → t ∈ round) →
    (SendThreads.run buffer s rounds.flatten).remaining ≤ s.remaining - rounds.length := by
  intro rounds
  induction rounds with
  | nil => intro s _ _; exact Nat.le_refl _
  | cons round rest ih =>
    intro s hinv hfair
    rw [List.flatten_cons, run_append]
    have hrest := ih (SendThreads.run buffer s round) (inv_run buffer round s hinv)
      (fun r hr t ht => hfair r (List.mem_cons_of_mem _ hr) t (by
        rw [run_length] at ht
        exact ht))
    simp only [List.length_cons]
    by_cases hleft : 0 < s.remaining
    · have := round_progress buffer s round hinv hleft (hfair round (List.mem_cons_self _ _))
      omega
    · have := run_remaining_le buffer round s
      omega

theorem start_remaining (heap : Heap) (link : Link) (names : List (List Byte)) :
    (SendThreads.start heap link names).remaining = 5 * names.length := by
  simp only [SendThreads.remaining, SendThreads.start, List.map_map]
  induction names with
  | nil => rfl
  | cons name rest ih =>
    simp only [List.map_cons, List.sum_cons, List.length_cons, ih]
    simp only [Function.comp, SendStep.remaining]
    omega

/-- When no step is left, every thread is back from its call. -/
theorem returned_of_remaining_zero (s : SendThreads) (h : s.remaining = 0) :
    ∀ thread ∈ s.threads, succeeded thread = true ∨ failed thread = true := by
  intro thread hmem
  have hzero := eq_zero_of_sum_eq_zero
    (fun thread : List Byte × SendStep => thread.2.remaining) s.threads h thread hmem
  obtain ⟨name, pc⟩ := thread
  cases pc with
  | returned result =>
    cases result
    · exact Or.inr rfl
    · exact Or.inl rfl
  | lockSend => simp [SendStep.remaining] at hzero
  | tryLock => simp [SendStep.remaining] at hzero
  | push => simp [SendStep.remaining] at hzero
  | sendName => simp [SendStep.remaining] at hzero
  | sendData => simp [SendStep.remaining] at hzero

/-- What the invariant gives at any moment: the callers back with `true` are at least as many
as the completions and at most one more. -/
theorem succeeded_bounds (buffer : SerializedObjectPtr) (s : SendThreads)
    (hinv : s.Inv buffer) :
    s.completions ≤ s.threads.countP succeeded ∧
    s.threads.countP succeeded ≤ s.completions + 1 := by
  obtain ⟨h1, _, _, h4, _⟩ := hinv
  have hle : s.threads.countP succeeded ≤ s.threads.countP tookLease := by
    apply List.countP_mono_left
    intro thread _ h
    obtain ⟨name, pc⟩ := thread
    simp only [succeeded, decide_eq_true_eq] at h
    subst h
    rfl
  refine ⟨h4, le_trans hle (le_trans h1 ?_)⟩
  split <;> omega

/-- What the invariant gives once all the threads are back: at least one has `true`; and
when no completion took place exactly one has `true`, all the others have `false`, and the
lease of the buffer is held. -/
theorem results_of_inv (buffer : SerializedObjectPtr) (s : SendThreads) (hinv : s.Inv buffer)
    (hne : s.threads ≠ [])
    (hall : ∀ thread ∈ s.threads, succeeded thread = true ∨ failed thread = true) :
    1 ≤ s.threads.countP succeeded ∧
    (s.completions = 0 →
      s.threads.countP succeeded = 1 ∧ s.threads.countP failed + 1 = s.threads.length ∧
      (s.heap buffer).mutex = true) := by
  obtain ⟨h1, _, h3, _, _⟩ := hinv
  have heq : s.threads.countP succeeded = s.threads.countP tookLease := by
    apply List.countP_congr
    intro thread hthread
    obtain ⟨name, pc⟩ := thread
    constructor
    · intro h
      simp only [succeeded, decide_eq_true_eq] at h
      subst h
      rfl
    · intro h
      rcases hall _ hthread with h' | h'
      · exact h'
      · simp only [failed, decide_eq_true_eq] at h'
        subst h'
        cases h
  have hone : 1 ≤ s.threads.countP succeeded := by
    rw [heq]
    rcases h3 with h3 | h3
    · obtain ⟨thread, hthread⟩ := List.exists_mem_of_ne_nil _ hne
      have hb := h3 thread hthread
      obtain ⟨name, pc⟩ := thread
      rcases hall _ hthread with h | h
      · simp only [succeeded, decide_eq_true_eq] at h
        subst h
        cases hb
      · simp only [failed, decide_eq_true_eq] at h
        subst h
        cases hb
    · exact h3
  refine ⟨hone, fun hzero => ?_⟩
  rw [← heq, hzero] at h1
  have hlease : (s.heap buffer).mutex = true := by
    cases hm : (s.heap buffer).mutex with
    | true => rfl
    | false =>
      rw [hm] at h1
      simp only [Bool.false_eq_true, if_false] at h1
      omega
  have hexact : s.threads.countP succeeded = 1 := by
    rw [hlease] at h1
    simp only [if_true] at h1
    omega
  refine ⟨hexact, ?_, hlease⟩
  have hsplit := List.length_eq_countP_add_countP (p := succeeded) s.threads
  have hfailed : s.threads.countP (fun a => decide ¬succeeded a = true)
      = s.threads.countP failed := by
    apply List.countP_congr
    intro thread hthread
    obtain ⟨name, pc⟩ := thread
    rcases hall _ hthread with h | h
    · simp only [succeeded, decide_eq_true_eq] at h
      subst h
      simp [succeeded, failed]
    · simp only [failed, decide_eq_true_eq] at h
      subst h
      simp [succeeded, failed]
  rw [hfailed] at hsplit
  omega

/-- No completion takes place while no `send` raises. -/
theorem completions_quiet (buffer : SerializedObjectPtr) (schedule : List Nat) :
    ∀ s : SendThreads, s.link.socketBufferOut.quiet = true →
      (SendThreads.run buffer s schedule).link.socketBufferOut.quiet = true ∧
      (SendThreads.run buffer s schedule).completions = s.completions := by
  induction schedule with
  | nil => intro s h; exact ⟨h, rfl⟩
  | cons t schedule ih =>
    intro s hq
    simp only [SendThreads.run, List.foldl_cons]
    have hstep : (SendThreads.step buffer s t).link.socketBufferOut.quiet = true ∧
        (SendThreads.step buffer s t).completions = s.completions := by
      unfold SendThreads.step
      cases hget : s.threads[t]? with
      | none => exact ⟨hq, rfl⟩
      | some thread =>
        obtain ⟨name, pc⟩ := thread
        cases pc with
        | lockSend =>
          simp only
          split
          · exact ⟨hq, rfl⟩
          · exact ⟨hq, rfl⟩
        | tryLock =>
          simp only
          split
          · exact ⟨hq, rfl⟩
          · exact ⟨hq, rfl⟩
        | push => exact ⟨hq, rfl⟩
        | sendName =>
          simp only
          obtain ⟨h1, _, h3⟩ := send_quiet s.link.socketBufferOut ⟨cString name, true, none⟩ hq
          generalize s.link.socketBufferOut.send ⟨cString name, true, none⟩ = r at h1 h3
          obtain ⟨e, sock⟩ := r
          simp only at h1 h3
          subst h1
          exact ⟨h3, rfl⟩
        | sendData =>
          simp only
          obtain ⟨h1, _, h3⟩ := send_quiet s.link.socketBufferOut
            ⟨(s.heap buffer).bytes, false, some (s.heap buffer).data⟩ hq
          generalize s.link.socketBufferOut.send
            ⟨(s.heap buffer).bytes, false, some (s.heap buffer).data⟩ = r at h1 h3
          obtain ⟨e, sock⟩ := r
          simp only at h1 h3
          subst h1
          exact ⟨h3, rfl⟩
        | returned result => exact ⟨hq, rfl⟩
    obtain ⟨h1, h2⟩ := ih _ hstep.1
    exact ⟨h1, h2.trans hstep.2⟩

/-- One thread alone, moved five times, does what `Link.sendBuffer` does. -/
theorem run_alone (heap : Heap) (link : Link) (name : List Byte) (buffer : SerializedObjectPtr) :
    ((SendThreads.start heap link [name]).run buffer [0, 0, 0, 0, 0]).heap
        = (Link.sendBuffer heap link name buffer).2.1 ∧
    ((SendThreads.start heap link [name]).run buffer [0, 0, 0, 0, 0]).link
        = (Link.sendBuffer heap link name buffer).2.2 ∧
    ((SendThreads.start heap link [name]).run buffer [0, 0, 0, 0, 0]).threads
        = [(name, SendStep.returned (Link.sendBuffer heap link name buffer).1)] ∧
    ((SendThreads.start heap link [name]).run buffer [0, 0, 0, 0, 0]).bufferSendMutex = false := by
  cases hm : (heap buffer).mutex with
  | true =>
    simp [SendThreads.run, SendThreads.start, SendThreads.step, Link.sendBuffer, hm]
  | false =>
    rcases h1 : link.socketBufferOut.send ⟨cString name, true, none⟩ with ⟨e1, sock1⟩
    cases e1 with
    | some e =>
      simp [SendThreads.run, SendThreads.start, SendThreads.step, Link.sendBuffer, hm, h1]
    | none =>
      rcases h2 : sock1.send ⟨(heap buffer).bytes, false, some (heap buffer).data⟩ with ⟨e2, sock2⟩
      cases e2 with
      | some e =>
        simp [SendThreads.run, SendThreads.start, SendThreads.step, Link.sendBuffer, hm, h1, h2,
          setMutex_self, setMutex_bytes, setMutex_data]
      | none =>
        simp [SendThreads.run, SendThreads.start, SendThreads.step, Link.sendBuffer, hm, h1, h2,
          setMutex_self]

/-- A completion in between: the `send` of the buffer raises in the call of the first thread,
the release callback runs as its `try` block is left, and the second thread, which calls
afterwards, takes the lease again.  Both are back with `true`, after one completion. -/
theorem sendBuffer_concurrent_completion :
    ((SendThreads.start sampleHeap Link.failingAtSecond [ascii "B", ascii "C"]).run 0
        [0, 0, 0, 0, 0, 1, 1, 1, 1, 1]).threads
      = [(ascii "B", SendStep.returned true), (ascii "C", SendStep.returned true)] ∧
    ((SendThreads.start sampleHeap Link.failingAtSecond [ascii "B", ascii "C"]).run 0
        [0, 0, 0, 0, 0, 1, 1, 1, 1, 1]).completions = 1 := by
  decide

/-- C18: several threads each call `sendBuffer` on the same link with the same buffer, not
leased at the start; their statements interleave in any order and any `send` may raise.
At every moment the callers back with `true` are at least as many as the completions (the
runs of the release callback) and at most one more: no lease is released twice, and without
a completion at most one caller has `true`.  When the threads move in rounds, each thread
having its turn in each round, then after five rounds per thread every caller is back, at
least one with `true`; and when no completion took place in between, exactly one caller has
`true`, all the others have `false`, and the lease of the buffer is held.  No completion
takes place when no `send` raises. -/
theorem sendBuffer_concurrent (heap : Heap) (link : Link) (names : List (List Byte))
    (buffer : SerializedObjectPtr) (rounds : List (List Nat))
    (hfree : (heap buffer).mutex = false) (hne : names ≠ [])
    (hfair : ∀ round ∈ rounds, ∀ t, t < names.length → t ∈ round)
    (hlong : 5 * names.length ≤ rounds.length) :
    (∀ schedule : List Nat,
      ((SendThreads.start heap link names).run buffer schedule).completions
        ≤ ((SendThreads.start heap link names).run buffer schedule).threads.countP succeeded ∧
      ((SendThreads.start heap link names).run buffer schedule).threads.countP succeeded
        ≤ ((SendThreads.start heap link names).run buffer schedule).completions + 1) ∧
    (∀ thread ∈ ((SendThreads.start heap link names).run buffer rounds.flatten).threads,
      succeeded thread = true ∨ failed thread = true) ∧
    1 ≤ ((SendThreads.start heap link names).run buffer rounds.flatten).threads.countP
      succeeded ∧
    (((SendThreads.start heap link names).run buffer rounds.flatten).completions = 0 →
      ((SendThreads.start heap link names).run buffer rounds.flatten).threads.countP succeeded
        = 1 ∧
      ((SendThreads.start heap link names).run buffer rounds.flatten).threads.countP failed + 1
        = names.length ∧
      (((SendThreads.start heap link names).run buffer rounds.flatten).heap buffer).mutex
        = true) ∧
    (link.socketBufferOut.quiet = true →
      ((SendThreads.start heap link names).run buffer rounds.flatten).completions = 0) := by
  have hstart := inv_start buffer heap link names hfree
  have hinv := inv_run buffer rounds.flatten _ hstart
  have hlen : ((SendThreads.start heap link names).run buffer rounds.flatten).threads.length
      = names.length := by
    rw [run_length]
    simp [SendThreads.start]
  have hlen0 : (SendThreads.start heap link names).threads.length = names.length := by
    simp [SendThreads.start]
  have hzero : ((SendThreads.start heap link names).run buffer rounds.flatten).remaining
      = 0 := by
    have h := rounds_progress buffer rounds _ hstart (fun round hr t ht =>
      hfair round hr t (by rw [hlen0] at ht; exact ht))
    rw [start_remaining] at h
    omega
  have hall := returned_of_remaining_zero _ hzero
  have hne' : ((SendThreads.start heap link names).run buffer rounds.flatten).threads ≠ [] := by
    intro h
    rw [h] at hlen
    exact hne (List.length_eq_zero.1 hlen.symm)
  obtain ⟨hone, hexact⟩ := results_of_inv buffer _ hinv hne' hall
  refine ⟨fun schedule => succeeded_bounds buffer _ (inv_run buffer schedule _ hstart),
    hall, hone, fun hc => ?_, fun hq => ?_⟩
  · obtain ⟨a, b, c⟩ := hexact hc
    exact ⟨a, by rw [← hlen]; exact b, c⟩
  · exact (completions_quiet buffer rounds.flatten _ hq).2

/-- Witness of C18: four threads send buffer 0 of the sample heap on a link whose sockets
raise nothing, in twenty rounds of one step each.  The first one to take
`_bufferSendMutex` is back with `true`, the three others with `false`. -/
theorem sendBuffer_concurrent_witness :
    (sampleHeap 0).mutex = false ∧
    [ascii "B", ascii "C", ascii "D", ascii "E"] ≠ [] ∧
    (∀ round ∈ fourThreadRounds,
      ∀ t, t < [ascii "B", ascii "C", ascii "D", ascii "E"].length → t ∈ round) ∧
    5 * [ascii "B", ascii "C", ascii "D", ascii "E"].length ≤ fourThreadRounds.length ∧
    ((SendThreads.start sampleHeap Link.fresh [ascii "B", ascii "C", ascii "D", ascii "E"]).run
        0 fourThreadRounds.flatten).threads
      = [(ascii "B", SendStep.returned true), (ascii "C", SendStep.returned false),
          (ascii "D", SendStep.returned false), (ascii "E", SendStep.returned false)] ∧
    ((SendThreads.start sampleHeap Link.fresh [ascii "B", ascii "C", ascii "D", ascii "E"]).run
        0 fourThreadRounds.flatten).threads.countP succeeded = 1 ∧
    ((SendThreads.start sampleHeap Link.fresh [ascii "B", ascii "C", ascii "D", ascii "E"]).run
        0 fourThreadRounds.flatten).threads.countP failed + 1 = 4 ∧
    (((SendThreads.start sampleHeap Link.fresh
        [ascii "B", ascii "C", ascii "D", ascii "E"]).run
        0 fourThreadRounds.flatten).heap 0).mutex = true :=
  ⟨rfl, by decide, by decide, by decide, by set_option maxRecDepth 8192 in rfl,
    (sendBuffer_concurrent sampleHeap Link.fresh [ascii "B", ascii "C", ascii "D", ascii "E"] 0
      fourThreadRounds rfl (by decide) (by decide) (by decide)).2.2.2.1
      ((sendBuffer_concurrent sampleHeap Link.fresh
        [ascii "B", ascii "C", ascii "D", ascii "E"] 0
        fourThreadRounds rfl (by decide) (by decide) (by decide)).2.2.2.2 quiet_fresh)⟩

/-! ## Attributes that do not exist -/

/-- A `setAttribute` on another name leaves a name without an attribute. -/
theorem findAttribute_setAttribute_other {σ : Type} (obj : BaseObject σ)
    (name other : List Byte) (values : Values) (hne : other ≠ name)
    (h : findAttribute name obj.attribFunctions = none) :
    findAttribute name (obj.setAttribute other values).2.attribFunctions = none := by
  unfold BaseObject.setAttribute
  cases hfind : findAttribute other obj.attribFunctions with
  | none =>
    simp only
    rw [findAttribute_putAttribute_other name other _ hne, h]
  | some attr =>
    simp only
    rw [findAttribute_putAttribute_other name other _ hne, h]

/-- A sequence of `setAttribute` on other names leaves a name without an attribute. -/
theorem findAttribute_setAttributes {σ : Type} (name : List Byte) :
    ∀ (calls : List (List Byte × Values)) (obj : BaseObject σ),
      (∀ call ∈ calls, call.1 ≠ name) → findAttribute name obj.attribFunctions = none →
      findAttribute name (obj.setAttributes calls).attribFunctions = none := by
  intro calls
  induction calls with
  | nil => intro obj _ h; exact h
  | cons call rest ih =>
    intro obj hcalls h
    obtain ⟨other, values⟩ := call
    simp only [BaseObject.setAttributes]
    apply ih
    · intro c hc
      exact hcalls c (List.mem_cons_of_mem _ hc)
    · exact findAttribute_setAttribute_other obj name other values
        (hcalls (other, values) (List.mem_cons_self _ _)) h

/-- C21: for an object in which the name has no attribute (it was never registered), after
any sequence of `setAttribute` calls on other names (it was never set), `getAttribute`
with that name returns false and leaves `out` empty, whatever `out` held before the
call. -/
theorem getAttribute_unknown {σ : Type} (obj : BaseObject σ) (name : List Byte)
    (calls : List (List Byte × Values)) (out : Values)
    (hnew : findAttribute name obj.attribFunctions = none)
    (hcalls : ∀ call ∈ calls, call.1 ≠ name) :
    (obj.setAttributes calls).getAttribute name out = (false, []) := by
  unfold BaseObject.getAttribute
  rw [findAttribute_setAttributes name calls obj hcalls hnew]

/-- Witness of C21: the object of the test after its four `setAttribute` calls, asked for
`"inexistingAttribute"` while `out` holds the three values that the call before gave. -/
theorem getAttribute_unknown_witness :
    ((baseObjectMock Conversions.zero MockFields.initial).setAttributes testCalls).getAttribute
        (ascii "newAttribute") []
      = (false, [Value.i (toCInt 1), Value.f float42, Value.s (ascii "sheraf")]) ∧
    ((baseObjectMock Conversions.zero MockFields.initial).setAttributes testCalls).getAttribute
        (ascii "inexistingAttribute")
        [Value.i (toCInt 1), Value.f float42, Value.s (ascii "sheraf")]
      = (false, []) :=
  ⟨rfl, getAttribute_unknown (baseObjectMock Conversions.zero MockFields.initial)
    (ascii "inexistingAttribute") testCalls
    [Value.i (toCInt 1), Value.f float42, Value.s (ascii "sheraf")] rfl (by decide)⟩

/-! ## The end of a link -/

/-- C22: when neither `setsockopt` raises, the destructor of a link completes these steps
in this order: linger 0 on the outbound control socket and on the outbound data socket,
the release of the outbound control socket and of the outbound data socket, the release
of the context, and only then the join of the data receiver thread and of the control
receiver thread. -/
theorem destructor_order (transport : Transport) (hq : transport.quiet = true) :
    Link.destructor transport
      = (none,
          [DestructorCall.api (ApiCall.setsockopt SocketId.messageOut SocketOption.linger 0),
            DestructorCall.api (ApiCall.setsockopt SocketId.bufferOut SocketOption.linger 0),
            DestructorCall.resetSocket SocketId.messageOut,
            DestructorCall.resetSocket SocketId.bufferOut,
            DestructorCall.resetContext,
            DestructorCall.join ThreadId.bufferIn,
            DestructorCall.join ThreadId.messageIn]) := by
  unfold Link.destructor
  obtain ⟨h1, _, hq1⟩ :=
    call_quiet transport (ApiCall.setsockopt SocketId.messageOut SocketOption.linger 0) hq
  generalize transport.call (ApiCall.setsockopt SocketId.messageOut SocketOption.linger 0)
    = r1 at h1 hq1
  obtain ⟨e1, transport1⟩ := r1
  simp only at h1 hq1
  subst h1
  simp only
  obtain ⟨h2, _, _⟩ :=
    call_quiet transport1 (ApiCall.setsockopt SocketId.bufferOut SocketOption.linger 0) hq1
  generalize transport1.call (ApiCall.setsockopt SocketId.bufferOut SocketOption.linger 0)
    = r2 at h2
  obtain ⟨e2, transport2⟩ := r2
  simp only at h2
  subst h2
  rfl

/-- Witness of C22: a transport on which no call raises. -/
theorem destructor_order_witness :
    Transport.fresh.quiet = true ∧
    Link.destructor Transport.fresh
      = (none,
          [DestructorCall.api (ApiCall.setsockopt SocketId.messageOut SocketOption.linger 0),
            DestructorCall.api (ApiCall.setsockopt SocketId.bufferOut SocketOption.linger 0),
            DestructorCall.resetSocket SocketId.messageOut,
            DestructorCall.resetSocket SocketId.bufferOut,
            DestructorCall.resetContext,
            DestructorCall.join ThreadId.bufferIn,
            DestructorCall.join ThreadId.messageIn]) :=
  ⟨rfl, destructor_order Transport.fresh rfl⟩

/-! ## A `sendBuffer` whose first `send` raises -/

/-- C27: when the buffer is not leased and the `send` of the name frame raises, `sendBuffer`
returns `true`; the buffer is leased and at the back of the buffers being sent; no frame
was handed to the socket, so no release callback will come for the buffer; and a later
`sendBuffer` on the same buffer returns `false`, changing nothing. -/
theorem sendBuffer_name_raises (heap : Heap) (link : Link) (name later : List Byte)
    (buffer : SerializedObjectPtr) (e : ZmqError) (rest : List (Option ZmqError))
    (hfree : (heap buffer).mutex = false)
    (hs : link.socketBufferOut.script = some e :: rest) :
    Link.sendBuffer heap link name buffer
      = (true, heap.setMutex buffer true,
          ⟨link.socketMessageOut, ⟨link.socketBufferOut.sent, rest⟩,
            link.otgBuffers ++ [buffer]⟩) ∧
    ((Link.sendBuffer heap link name buffer).2.1 buffer).mutex = true ∧
    buffer ∈ (Link.sendBuffer heap link name buffer).2.2.otgBuffers ∧
    emitted link.socketBufferOut (Link.sendBuffer heap link name buffer).2.2.socketBufferOut
      = [] ∧
    Link.sendBuffer (Link.sendBuffer heap link name buffer).2.1
        (Link.sendBuffer heap link name buffer).2.2 later buffer
      = (false, (Link.sendBuffer heap link name buffer).2.1,
          (Link.sendBuffer heap link name buffer).2.2) := by
  have hsend : Link.sendBuffer heap link name buffer
      = (true, heap.setMutex buffer true,
          ⟨link.socketMessageOut, ⟨link.socketBufferOut.sent, rest⟩,
            link.otgBuffers ++ [buffer]⟩) := by
    simp [Link.sendBuffer, hfree, OutSocket.send, hs]
  rw [hsend]
  refine ⟨rfl, ?_, by simp, by simp [emitted], ?_⟩
  · show (heap.setMutex buffer true buffer).mutex = true
    rw [setMutex_self]
  · simp [Link.sendBuffer, setMutex_self]

/-- Witness of C27: buffer 0 of the sample heap, on a link whose data socket raises at the
first `send`. -/
theorem sendBuffer_name_raises_witness :
    (sampleHeap 0).mutex = false ∧
    Link.failingAtFirst.socketBufferOut.script = [some ZmqError.other] ∧
    (Link.sendBuffer sampleHeap Link.failingAtFirst (ascii "B") 0).1 = true ∧
    ((Link.sendBuffer sampleHeap Link.failingAtFirst (ascii "B") 0).2.1 0).mutex = true ∧
    (Link.sendBuffer sampleHeap Link.failingAtFirst (ascii "B") 0).2.2.otgBuffers = [0] ∧
    (Link.sendBuffer sampleHeap Link.failingAtFirst (ascii "B") 0).2.2.socketBufferOut.sent
      = [] ∧
    (Link.sendBuffer (Link.sendBuffer sampleHeap Link.failingAtFirst (ascii "B") 0).2.1
        (Link.sendBuffer sampleHeap Link.failingAtFirst (ascii "B") 0).2.2 (ascii "C") 0).1
      = false :=
  ⟨rfl, rfl, rfl, rfl, rfl, rfl,
    congrArg Prod.fst (sendBuffer_name_raises sampleHeap Link.failingAtFirst (ascii "B")
      (ascii "C") 0 ZmqError.other [] rfl rfl).2.2.2.2⟩

/-! ## A `sendMessage` in which a `send` raises -/

theorem andThen_assoc (r : Option ZmqError × OutSocket)
    (k j : OutSocket → Option ZmqError × OutSocket) :
    andThen (andThen r k) j = andThen r fun sock => andThen (k sock) j := by
  obtain ⟨e, sock⟩ := r
  cases e <;> rfl

theorem andThen_pure (r : Option ZmqError × OutSocket) :
    andThen r (fun sock => (none, sock)) = r := by
  obtain ⟨e, sock⟩ := r
  cases e <;> rfl

theorem sendFrames_append (a b : List Frame) : ∀ sock : OutSocket,
    sendFrames sock (a ++ b) = andThen (sendFrames sock a) fun sock => sendFrames sock b := by
  induction a with
  | nil => intro sock; rfl
  | cons frame rest ih =>
    intro sock
    simp only [List.cons_append, sendFrames, andThen_assoc]
    congr 1
    funext next
    exact ih next

theorem sendFrames_pair (sock : OutSocket) (first second : Frame) :
    sendFrames sock [first, second] = andThen (sock.send first) fun sock => sock.send second := by
  simp only [sendFrames, andThen_pure]

mutual
/-- The loop body hands the frames of the element to the socket, one after the other, up to
the first `send` that raises. -/
theorem sendElement_eq_sendFrames (size i : Nat) (sock : OutSocket) : (v : Value) →
    sendElement size i sock v = sendFrames sock (elementFrames size i v)
  | .i n => by
    simp only [sendElement, elementFrames, sendFrames_pair, Value.data, Value.size,
      take_intBytes]
  | .f x => by
    simp only [sendElement, elementFrames, sendFrames_pair, Value.data, Value.size, take_float]
  | .s str => by
    simp only [sendElement, elementFrames, sendFrames_pair, Value.data, Value.size,
      take_cString]
  | .v vs => by
    simp only [sendElement, elementFrames, sendFrames, sendSize]
    congr 1
    funext next
    congr 1
    funext next2
    exact sendElements_eq_sendFrames vs.length 0 next2 vs
theorem sendElements_eq_sendFrames (size i : Nat) (sock : OutSocket) : (vs : List Value) →
    sendElements size i sock vs = sendFrames sock (elementsFrames size i vs)
  | [] => rfl
  | v :: rest => by
    simp only [sendElements, elementsFrames, sendFrames_append]
    rw [sendElement_eq_sendFrames size i sock v]
    congr 1
    funext next
    exact sendElements_eq_sendFrames size (i + 1) next rest
end

/-- One `Link::sendMessage` call hands the frames of the message to the socket, one after
the other, up to the first `send` that raises. -/
theorem sendMessageFrames_eq_sendFrames (sock : OutSocket) (name attrib : List Byte)
    (message : Values) :
    sendMessageFrames sock name attrib message
      = sendFrames sock (messageFrames name attrib message) := by
  simp only [sendMessageFrames, messageFrames, valuesFrames, sendFrames, sendValues, sendSize]
  congr 1
  funext s1
  congr 1
  funext s2
  congr 1
  funext s3
  exact sendElements_eq_sendFrames message.length 0 s3 message

/-- When the first `k` sends succeed and the next one raises, the first `k` frames are
accepted and nothing else is sent. -/
theorem sendFrames_raise (e : ZmqError) (rest : List (Option ZmqError)) :
    ∀ (k : Nat) (frames : List Frame) (sock : OutSocket), k < frames.length →
      sock.script = List.replicate k none ++ some e :: rest →
      sendFrames sock frames = (some e, ⟨sock.sent ++ frames.take k, rest⟩) := by
  intro k
  induction k with
  | zero =>
    intro frames sock hk hs
    cases frames with
    | nil => simp at hk
    | cons frame more =>
      simp only [List.replicate, List.nil_append] at hs
      simp [sendFrames, OutSocket.send, hs, andThen]
  | succ k ih =>
    intro frames sock hk hs
    cases frames with
    | nil => simp at hk
    | cons frame more =>
      simp only [List.replicate, List.cons_append] at hs
      simp only [List.length_cons, Nat.add_lt_add_iff_right] at hk
      simp only [sendFrames, OutSocket.send, hs, andThen]
      rw [ih more ⟨sock.sent ++ [frame], List.replicate k none ++ some e :: rest⟩ hk rfl]
      simp

/-- C23: when the first `k` sends of a `sendMessage` call succeed and the send of the next
frame of the message raises an error, the error is caught inside the call, which returns
normally (with `true`); the frames handed to the socket are the first `k` frames of the
message and no later one; no further `send` is attempted; and the data socket and the
buffers being sent are untouched. -/
theorem sendMessage_raise (link : Link) (name attrib : List Byte) (message : Values)
    (k : Nat) (e : ZmqError) (rest : List (Option ZmqError))
    (hk : k < (messageFrames name attrib message).length)
    (hs : link.socketMessageOut.script = List.replicate k none ++ some e :: rest) :
    (sendMessageFrames link.socketMessageOut name attrib message).1 = some e ∧
    link.sendMessage name attrib message
      = (true, ⟨⟨link.socketMessageOut.sent ++ (messageFrames name attrib message).take k, rest⟩,
          link.socketBufferOut, link.otgBuffers⟩) ∧
    emitted link.socketMessageOut (link.sendMessage name attrib message).2.socketMessageOut
      = (messageFrames name attrib message).take k := by
  have h := sendFrames_raise e rest k (messageFrames name attrib message)
    link.socketMessageOut hk hs
  rw [← sendMessageFrames_eq_sendFrames] at h
  simp only [Link.sendMessage, h]
  refine ⟨trivial, trivial, ?_⟩
  simp [emitted]

/-- Witness of C23: the message `("B", "brightness", {0.5})` has five frames; the socket
raises at the fourth `send`, so the name, the attribute and the count are emitted and
neither the type tag nor the payload. -/
theorem sendMessage_raise_witness :
    3 < (messageFrames (ascii "B") (ascii "brightness") [Value.f half]).length ∧
    Link.failingAtFourth.socketMessageOut.script
      = List.replicate 3 none ++ some ZmqError.other :: [] ∧
    (Link.failingAtFourth.sendMessage (ascii "B") (ascii "brightness") [Value.f half]).1 = true ∧
    emitted Link.failingAtFourth.socketMessageOut
        (Link.failingAtFourth.sendMessage (ascii "B") (ascii "brightness")
          [Value.f half]).2.socketMessageOut
      = [⟨cString (ascii "B"), true, none⟩, ⟨cString (ascii "brightness"), true, none⟩,
          ⟨intBytes (toCInt 1), true, none⟩] :=
  ⟨by decide, rfl, rfl,
    (sendMessage_raise Link.failingAtFourth (ascii "B") (ascii "brightness") [Value.f half] 3
      ZmqError.other [] (by decide) rfl).2.2⟩

/-! ## `RgbValue::normalize` -/

/-- C24, as amended: for every `RgbValue` whose largest component is positive, `normalize`
divides by a number that is not zero and the largest of the three components is `1`
afterwards. -/
theorem normalize_largest (c : RgbValue) (hpos : 0 < c.largest) :
    c.normalize = some ⟨c.r / c.largest, c.g / c.largest, c.b / c.largest⟩ ∧
    c.normalize.map RgbValue.largest = some 1 := by
  have hne : c.largest ≠ 0 := ne_of_gt hpos
  have hnorm : c.normalize = some ⟨c.r / c.largest, c.g / c.largest, c.b / c.largest⟩ := by
    simp [RgbValue.normalize, hne]
  refine ⟨hnorm, ?_⟩
  rw [hnorm]
  simp only [Option.map_some', Option.some.injEq]
  show max (max (c.r / c.largest) (c.g / c.largest)) (c.b / c.largest) = 1
  rw [max_div_div_right (le_of_lt hpos), max_div_div_right (le_of_lt hpos)]
  exact div_self hne

/-- Witness of C24: the color `(1/2, 2, 1)`, whose largest component is `2`. -/
theorem normalize_largest_witness :
    0 < (RgbValue.mk (1 / 2) 2 1).largest ∧
    (RgbValue.mk (1 / 2) 2 1).normalize.map RgbValue.largest = some 1 :=
  ⟨by norm_num [RgbValue.largest],
    (normalize_largest (RgbValue.mk (1 / 2) 2 1) (by norm_num [RgbValue.largest])).2⟩

/-- Counterexample to C24 as stated: the components `(-1, -2, -3)` become `(1, 2, 3)`, whose
largest is `3`; and for `(0, 0, 0)`, the value of a default-constructed `RgbValue`, the
division is by zero. -/
theorem normalize_negative :
    (RgbValue.mk (-1) (-2) (-3)).normalize = some (RgbValue.mk 1 2 3) ∧
    (RgbValue.mk (-1) (-2) (-3)).normalize.map RgbValue.largest = some 3 ∧
    (RgbValue.mk (-1) (-2) (-3)).normalize.map RgbValue.largest ≠ some 1 ∧
    (RgbValue.mk 0 0 0).normalize = none := by
  have h : (RgbValue.mk (-1) (-2) (-3)).largest = -1 := by norm_num [RgbValue.largest]
  have hn : (RgbValue.mk (-1) (-2) (-3)).normalize = some (RgbValue.mk 1 2 3) := by
    simp only [RgbValue.normalize, h]
    norm_num
  refine ⟨hn, ?_, ?_, ?_⟩
  · rw [hn]
    norm_num [RgbValue.largest]
  · rw [hn]
    norm_num [RgbValue.largest]
  · norm_num [RgbValue.normalize, RgbValue.largest]

/-! ## The control point shown by a warp -/

/-- C25, as amended: after the attribute `showControlPoint` is set with the index `i` on a
mesh with `n` control points, the set function has returned `true` and left the control
points as they were; the selected index is `-1` or a valid index into the control points,
so that the read of `Warp::render` stays inside them; and when `n < 2^31` the selected index
is `i` when `0 <= i < n` and `-1` otherwise. -/
theorem showControlPoint_selected (conv : Conversions) (warp : Warp) (arg : Value)
    (rest : Values) :
    ∃ selected : CInt,
      Warp.showControlPoint conv warp (arg :: rest)
        = some (⟨selected, warp.controlPoints⟩, true) ∧
      (selected.val = -1 ∨ (0 ≤ selected.val ∧ selected.val < warp.controlPoints.length)) ∧
      (Warp.selectedPoint ⟨selected, warp.controlPoints⟩).isSome = true ∧
      (warp.controlPoints.length < 2147483648 →
        selected = if 0 ≤ (arg.asInt conv).val ∧
            (arg.asInt conv).val < warp.controlPoints.length
          then arg.asInt conv else toCInt (-1)) := by
  have hcast : (toCInt warp.controlPoints.length).val
      = ((warp.controlPoints.length : Int) + 2147483648) % 4294967296 - 2147483648 := rfl
  have hminus : (toCInt (-1)).val = -1 := by decide
  have hsafe : ∀ selected : CInt,
      (selected.val = -1 ∨ (0 ≤ selected.val ∧ selected.val < warp.controlPoints.length)) →
      (Warp.selectedPoint ⟨selected, warp.controlPoints⟩).isSome = true := by
    intro selected h
    unfold Warp.selectedPoint
    by_cases h1 : selected.val = -1
    · simp [h1]
    · rcases h with h | ⟨h0, hlt⟩
      · exact absurd h h1
      · have hlt' : selected.val.toNat < warp.controlPoints.length := by omega
        simp [h1, h0, List.getElem?_eq_getElem hlt']
  by_cases hout : (arg.asInt conv).val < 0 ∨
      (arg.asInt conv).val ≥ (toCInt warp.controlPoints.length).val
  · refine ⟨toCInt (-1), ?_, Or.inl hminus, hsafe _ (Or.inl hminus), ?_⟩
    · simp only [Warp.showControlPoint, hout, if_true]
    · intro hn
      rw [if_neg]
      rw [hcast] at hout
      omega
  · have hin : 0 ≤ (arg.asInt conv).val ∧
        (arg.asInt conv).val < warp.controlPoints.length := by
      rw [hcast] at hout
      omega
    refine ⟨arg.asInt conv, ?_, Or.inr hin, hsafe _ (Or.inr hin), ?_⟩
    · simp only [Warp.showControlPoint, hout, if_false]
    · intro _
      rw [if_pos hin]

/-- Witness of C25: on the mesh with four control points the index `2` is selected, and the
indices `4` and `-3` select nothing. -/
theorem showControlPoint_selected_witness :
    Warp.square.controlPoints.length < 2147483648 ∧
    (∃ selected : CInt,
      Warp.showControlPoint Conversions.zero Warp.square [Value.i (toCInt 2)]
        = some (⟨selected, Warp.square.controlPoints⟩, true) ∧ selected = toCInt 2) ∧
    (∃ selected : CInt,
      Warp.showControlPoint Conversions.zero Warp.square [Value.i (toCInt 4)]
        = some (⟨selected, Warp.square.controlPoints⟩, true) ∧ selected = toCInt (-1)) ∧
    (∃ selected : CInt,
      Warp.showControlPoint Conversions.zero Warp.square [Value.i (toCInt (-3))]
        = some (⟨selected, Warp.square.controlPoints⟩, true) ∧ selected = toCInt (-1)) :=
  ⟨by decide,
    match showControlPoint_selected Conversions.zero Warp.square (Value.i (toCInt 2)) [] with
    | ⟨selected, h1, _, _, h4⟩ => ⟨selected, h1, (h4 (by decide)).trans (by decide)⟩,
    match showControlPoint_selected Conversions.zero Warp.square (Value.i (toCInt 4)) [] with
    | ⟨selected, h1, _, _, h4⟩ => ⟨selected, h1, (h4 (by decide)).trans (by decide)⟩,
    match showControlPoint_selected Conversions.zero Warp.square (Value.i (toCInt (-3))) [] with
    | ⟨selected, h1, _, _, h4⟩ => ⟨selected, h1, (h4 (by decide)).trans (by decide)⟩⟩

/-- Counterexample to C25 as stated: on a mesh with `2^31` control points the count converts
to the `int` `-2^31`, and the index `0`, which is valid, selects nothing. -/
theorem showControlPoint_huge :
    (0 : Int) ≤ (toCInt 0).val ∧ (toCInt 0).val < Warp.huge.controlPoints.length ∧
    (Warp.showControlPoint Conversions.zero Warp.huge [Value.i (toCInt 0)]).map
        (fun r => (r.1.selectedControlPointIndex, r.2))
      = some (toCInt (-1), true) ∧
    toCInt (-1) ≠ toCInt 0 := by
  have hlen : Warp.huge.controlPoints.length = 2147483648 := List.length_replicate _ _
  have hcast : (toCInt Warp.huge.controlPoints.length).val = -2147483648 := by
    rw [hlen]
    decide
  refine ⟨by decide, ?_, ?_, by decide⟩
  · rw [hlen]
    decide
  · have hout : (Value.asInt Conversions.zero (Value.i (toCInt 0))).val < 0 ∨
        (Value.asInt Conversions.zero (Value.i (toCInt 0))).val
          ≥ (toCInt Warp.huge.controlPoints.length).val := by
      right
      rw [hcast]
      decide
    simp only [Warp.showControlPoint, hout, if_true, Option.map_some']

/-! ## The `ZMQ_SNDMORE` flags of a message -/

/-- The flags of the frames of the elements from index `i` on, when none of them is a nested
sequence and the loop ends at `size`: all set but the last. -/
theorem elementsFrames_more_scalars (size : Nat) : ∀ (vs : List Value) (i : Nat),
    vs.all Value.isScalar = true → i + vs.length = size → vs ≠ [] →
    (elementsFrames size i vs).map Frame.more
      = List.replicate (2 * vs.length - 1) true ++ [false] := by
  intro vs
  induction vs with
  | nil => intro i _ _ h; exact absurd rfl h
  | cons v rest ih =>
    intro i hall hlen _
    simp only [List.all_cons, Bool.and_eq_true] at hall
    simp only [List.length_cons] at hlen
    have hhead : (elementFrames size i v).map Frame.more = [true, decide (i ≠ size - 1)] := by
      cases v with
      | v vs => simp [Value.isScalar] at hall
      | i n => simp [elementFrames]
      | f x => simp [elementFrames]
      | s str => simp [elementFrames]
    simp only [elementsFrames, List.map_append, hhead]
    cases rest with
    | nil =>
      simp only [List.length_nil, Nat.add_zero] at hlen
      have hlast : decide (i ≠ size - 1) = false := by
        simp only [decide_eq_false_iff_not, not_not]
        omega
      simp [elementsFrames, hlast, List.replicate]
    | cons w more =>
      simp only [List.length_cons] at hlen
      have hnot : decide (i ≠ size - 1) = true := by
        simp only [decide_eq_true_eq]
        omega
      rw [ih (i + 1) hall.2 (by simp only [List.length_cons]; omega) (List.cons_ne_nil _ _),
        hnot]
      simp only [List.length_cons]
      have h2 : 2 * (more.length + 1 + 1) - 1 = (2 * (more.length + 1) - 1) + 1 + 1 := by omega
      rw [h2, List.replicate_succ, List.replicate_succ]
      rfl

/-- When no element of the message is a nested sequence, the frames of one `sendMessage`
call form a single multipart message: all carry `ZMQ_SNDMORE` but the last. -/
theorem messageFrames_more_scalars (name attrib : List Byte) (message : Values)
    (hall : message.all Value.isScalar = true) :
    (messageFrames name attrib message).map Frame.more
      = List.replicate (2 + 2 * message.length) true ++ [false] := by
  cases message with
  | nil => rfl
  | cons v rest =>
    simp only [messageFrames, valuesFrames, List.map_cons]
    rw [elementsFrames_more_scalars (v :: rest).length (v :: rest) 0 hall (by simp)
      (List.cons_ne_nil _ _)]
    simp only [List.length_cons]
    have h2 : 2 + 2 * (rest.length + 1) = (2 * (rest.length + 1) - 1) + 1 + 1 + 1 := by omega
    rw [h2, List.replicate_succ, List.replicate_succ, List.replicate_succ]
    simp

/-- C26, at the inputs where it fails: for the message `{{1}, 2}` the payload of the nested
`1`, the seventh of nine frames, is sent without `ZMQ_SNDMORE`, and for `{{}, 1}` the count
of the empty nested sequence, the fifth of seven frames, is sent without it: in both cases
a frame that is not the last one ends the multipart message. -/
theorem sendMessage_nested_more :
    (emitted Link.fresh.socketMessageOut
        (Link.fresh.sendMessage (ascii "B") (ascii "a") nestedFirst).2.socketMessageOut).map
        Frame.more
      = [true, true, true, true, true, true, false, true, false] ∧
    (emitted Link.fresh.socketMessageOut
        (Link.fresh.sendMessage (ascii "B") (ascii "a")
          emptyNestedFirst).2.socketMessageOut).map Frame.more
      = [true, true, true, true, false, true, false] := by
  decide

/-! ## The curves accepted by `colorCurves` -/

/-- Once `pointCount` is not zero, the loop accepts the curves left exactly when each has
`pointCount` points. -/
theorem colorCurvesPointCount_pos (pointCount : Nat) (hpos : pointCount ≠ 0) :
    ∀ curves : Values,
      colorCurvesPointCount pointCount curves
        = if curves.all (fun v => decide (v.size = pointCount)) = true then some pointCount
          else none := by
  intro curves
  induction curves with
  | nil => rfl
  | cons v rest ih =>
    simp only [colorCurvesPointCount, hpos, if_false, List.all_cons, Bool.and_eq_true,
      decide_eq_true_eq]
    by_cases hv : pointCount = v.size
    · simp only [hv, ne_eq, not_true_eq_false, if_false, true_and]
      rw [← hv, ih]
    · have hv' : ¬ v.size = pointCount := fun h => hv h.symm
      simp [hv, hv']

/-- When the set function of `colorCurves` returns `false`, it leaves the filter as it
was. -/
theorem setColorCurves_rejected (filter : Filter) (args : Values)
    (h : (filter.setColorCurves args).2 = false) : (filter.setColorCurves args).1 = filter := by
  unfold Filter.setColorCurves at h ⊢
  cases hcount : colorCurvesPointCount 0 args with
  | none => rfl
  | some pointCount =>
    rw [hcount] at h
    by_cases hlt : pointCount < 2
    · simp only [hlt, if_true]
    · simp [hlt] at h

/-- When the first curve is not empty (and has fewer than `2^32` points), the set function
of `colorCurves` returns `true` exactly when that curve has at least two points and every
other curve has as many. -/
theorem setColorCurves_first_nonempty (filter : Filter) (first : Value) (rest : Values)
    (hpos : first.size ≠ 0) (hsmall : first.size < 4294967296) :
    (filter.setColorCurves (first :: rest)).2 = true
      ↔ 2 ≤ first.size ∧ ∀ v ∈ rest, v.size = first.size := by
  have hmod : first.size % 4294967296 = first.size := Nat.mod_eq_of_lt hsmall
  simp only [Filter.setColorCurves, colorCurvesPointCount, if_true, hmod]
  rw [colorCurvesPointCount_pos first.size hpos rest]
  by_cases hall : rest.all (fun v => decide (v.size = first.size)) = true
  · have hall' : ∀ v ∈ rest, v.size = first.size := by
      simpa [List.all_eq_true] using hall
    simp only [hall, if_true]
    by_cases hlt : first.size < 2
    · simp only [hlt, if_true]
      constructor
      · intro h; cases h
      · intro h; omega
    · simp only [hlt, if_false, true_iff]
      exact ⟨by omega, hall'⟩
  · simp only [hall]
    constructor
    · intro h
      simp at h
    · intro h
      exfalso
      apply hall
      simpa [List.all_eq_true] using h.2

/-- When every curve has fewer than `2^32` points, the curves that the set function of
`colorCurves` accepts are such that `Filter::updateUniforms` reads inside them: no curve is
shorter than the first. -/
theorem setColorCurves_reads_inside (filter : Filter) (args : Values)
    (hsmall : ∀ v ∈ args, v.size < 4294967296)
    (h : (filter.setColorCurves args).2 = true) :
    Filter.curveReadsInside ⟨args, [], filter.inTextures, filter.removedTextures⟩ = true := by
  cases args with
  | nil => rfl
  | cons first rest =>
    simp only [Filter.curveReadsInside, List.all_eq_true, decide_eq_true_eq]
    by_cases hpos : first.size = 0
    · intro curve _
      omega
    · have hrest := ((setColorCurves_first_nonempty filter first rest hpos
        (hsmall first (List.mem_cons_self _ _))).1 h).2
      intro curve hcurve
      exact le_of_eq (hrest curve hcurve).symm

/-- C28, at the input where it fails: three curves of `0`, `2` and `2` points, the first one
empty.  The set function returns `true` and queues the task that stores these curves,
which do not have the same number of points. -/
theorem setColorCurves_emptyFirstCurve :
    emptyFirstCurve.map Value.size = [0, 2, 2] ∧
    (Filter.withTextures.setColorCurves emptyFirstCurve).2 = true ∧
    (Filter.withTextures.setColorCurves emptyFirstCurve).1.runTasks.colorCurves
      = emptyFirstCurve :=
  ⟨rfl, rfl, rfl⟩

/-! ## `Filter::unlinkIt` -/

theorem drop_eraseIdx_self {α : Type} : ∀ (l : List α) (i : Nat),
    (l.eraseIdx i).drop i = l.drop (i + 1) := by
  intro l
  induction l with
  | nil => intro i; simp
  | cons a l ih =>
    intro i
    cases i with
    | zero => simp
    | succ i => simp [ih i]

theorem take_eraseIdx_self {α : Type} : ∀ (l : List α) (i : Nat),
    (l.eraseIdx i).take i = l.take i := by
  intro l
  induction l with
  | nil => intro i; simp
  | cons a l ih =>
    intro i
    cases i with
    | zero => simp
    | succ i => simp [ih i]

/-- The loop never ends once an expired entry lies at the index or after it. -/
theorem unlinkLoop_expired (tex : Nat) : ∀ (fuel i : Nat) (inTextures : List WeakTexture)
    (removed : List Nat), none ∈ inTextures.drop i →
    unlinkLoop tex fuel i inTextures removed = none := by
  intro fuel
  induction fuel with
  | zero => intro i inTextures removed _; rfl
  | succ fuel ih =>
    intro i inTextures removed hmem
    rw [unlinkLoop]
    cases hget : inTextures[i]? with
    | none =>
      rw [List.getElem?_eq_none_iff] at hget
      rw [List.drop_eq_nil_of_le hget] at hmem
      cases hmem
    | some entry =>
      obtain ⟨hlt, hentry⟩ := List.getElem?_eq_some_iff.1 hget
      have hdrop : inTextures.drop i = entry :: inTextures.drop (i + 1) := by
        rw [← hentry]
        exact List.drop_eq_getElem_cons hlt
      cases entry with
      | none => exact ih i inTextures removed hmem
      | some inTex =>
        have hnext : none ∈ inTextures.drop (i + 1) := by
          rw [hdrop] at hmem
          rcases List.mem_cons.1 hmem with h | h
          · cases h
          · exact h
        simp only
        by_cases heq : inTex = tex
        · simp only [heq, if_true]
          apply ih
          rw [drop_eraseIdx_self]
          exact hnext
        · simp only [heq, if_false]
          apply ih
          have hle : (i + 1) % 4294967296 ≤ i + 1 := Nat.mod_le _ _
          have hsub : inTextures.drop (i + 1)
              = (inTextures.drop ((i + 1) % 4294967296)).drop
                  (i + 1 - (i + 1) % 4294967296) := by
            rw [List.drop_drop]
            congr 1
            omega
          rw [hsub] at hnext
          exact List.mem_of_mem_drop hnext

/-- C29, at the input where it fails: the only input texture has expired.  Whatever the
number of iterations allowed, the loop of `unlinkIt` is still running: `continue` leaves
the index where it is, at the expired entry. -/
theorem unlinkIt_expired (fuel tex : Nat) :
    Filter.unlinkIt fuel Filter.withExpired tex = none := by
  unfold Filter.unlinkIt
  rw [unlinkLoop_expired tex fuel 0 Filter.withExpired.inTextures _ (by decide)]
  rfl

/-- When no entry has expired and there are fewer than `2^32` of them, the loop ends within
one iteration per entry left, plus the last test: the entries before the index stay, those
after it that designate the texture are erased, each with a call of `removeTexture`. -/
theorem unlinkLoop_live (tex : Nat) : ∀ (n fuel i : Nat) (inTextures : List WeakTexture)
    (removed : List Nat), inTextures.length - i = n → i ≤ inTextures.length → n < fuel →
    inTextures.length < 4294967296 → (∀ entry ∈ inTextures, entry ≠ none) →
    unlinkLoop tex fuel i inTextures removed
      = some (inTextures.take i
            ++ (inTextures.drop i).filter (fun entry => decide (entry ≠ some tex)),
          removed ++ List.replicate ((inTextures.drop i).count (some tex)) tex) := by
  intro n
  induction n with
  | zero =>
    intro fuel i inTextures removed hn hi hfuel _ _
    obtain ⟨fuel, rfl⟩ : ∃ f, fuel = f + 1 := ⟨fuel - 1, by omega⟩
    have hlen : inTextures.length ≤ i := by omega
    rw [unlinkLoop, List.getElem?_eq_none_iff.2 hlen]
    simp [List.drop_eq_nil_of_le hlen, List.take_of_length_le hlen]
  | succ n ih =>
    intro fuel i inTextures removed hn hi hfuel hsmall hlive
    obtain ⟨fuel, rfl⟩ : ∃ f, fuel = f + 1 := ⟨fuel - 1, by omega⟩
    have hlt : i < inTextures.length := by omega
    have hdrop : inTextures.drop i = inTextures[i] :: inTextures.drop (i + 1) :=
      List.drop_eq_getElem_cons hlt
    rw [unlinkLoop, List.getElem?_eq_getElem hlt]
    cases hentry : inTextures[i] with
    | none =>
      exact absurd hentry (hlive _ (List.getElem_mem hlt))
    | some inTex =>
      simp only
      rw [hdrop, hentry]
      by_cases heq : inTex = tex
      · subst heq
        simp only [if_true]
        rw [ih fuel i (inTextures.eraseIdx i) (removed ++ [inTex])
          (by rw [List.length_eraseIdx]; simp only [hlt, if_true]; omega)
          (by rw [List.length_eraseIdx]; simp only [hlt, if_true]; omega)
          (by omega)
          (by rw [List.length_eraseIdx]; simp only [hlt, if_true]; omega)
          (fun entry h => hlive entry (List.mem_of_mem_eraseIdx h)),
          drop_eraseIdx_self, take_eraseIdx_self]
        simp [List.replicate_succ]
      · have hmod : (i + 1) % 4294967296 = i + 1 := Nat.mod_eq_of_lt (by omega)
        have hne : (some inTex : WeakTexture) ≠ some tex := fun h => heq (Option.some.inj h)
        simp only [heq, if_false, hmod]
        rw [ih fuel (i + 1) inTextures removed (by omega) (by omega) (by omega) hsmall hlive]
        have htake : inTextures.take (i + 1) = inTextures.take i ++ [some inTex] := by
          rw [List.take_succ, List.getElem?_eq_getElem hlt, hentry]
          rfl
        rw [htake]
        simp [hne, List.count_cons]
        intro h
        exact absurd h heq

/-- When no input texture has expired (and there are fewer than `2^32` of them), `unlinkIt`
returns, and the input textures left are those that do not designate the texture, in
order: none of them is equal to it. -/
theorem unlinkIt_live (filter : Filter) (tex : Nat)
    (hsmall : filter.inTextures.length < 4294967296)
    (hlive : ∀ entry ∈ filter.inTextures, entry ≠ none) :
    ∃ after : Filter,
      Filter.unlinkIt (filter.inTextures.length + 1) filter tex = some after ∧
      after.inTextures = filter.inTextures.filter (fun entry => decide (entry ≠ some tex)) ∧
      some tex ∉ after.inTextures := by
  have h := unlinkLoop_live tex filter.inTextures.length (filter.inTextures.length + 1) 0
    filter.inTextures filter.removedTextures (by omega) (by omega) (by omega) hsmall hlive
  refine ⟨_, by rw [Filter.unlinkIt, h]; rfl, by simp, ?_⟩
  simp

/-- The input textures 7, 3, 7, none expired: `unlinkIt(7)` returns within four iterations,
leaves the texture 3 and has removed the texture 7 from the screen twice. -/
theorem unlinkIt_withTextures :
    (Filter.unlinkIt 4 Filter.withTextures 7).map
        (fun filter => (filter.inTextures, filter.removedTextures))
      = some ([some 3], [7, 7]) := by
  decide

/-! ## `ControllerObject::getObjectNames` -/

theorem mem_firstOccurrences (name : List Byte) : ∀ names : List (List Byte),
    name ∈ firstOccurrences names ↔ name ∈ names := by
  intro names
  induction names with
  | nil => simp [firstOccurrences]
  | cons head rest ih =>
    simp only [firstOccurrences, List.mem_cons, List.mem_filter, decide_eq_true_eq, ih]
    constructor
    · rintro (h | ⟨h, _⟩)
      · exact Or.inl h
      · exact Or.inr h
    · intro h
      by_cases heq : name = head
      · exact Or.inl heq
      · rcases h with h | h
        · exact absurd h heq
        · exact Or.inr ⟨h, heq⟩

theorem nodup_firstOccurrences : ∀ names : List (List Byte), (firstOccurrences names).Nodup := by
  intro names
  induction names with
  | nil => simp [firstOccurrences]
  | cons head rest ih =>
    simp only [firstOccurrences, List.nodup_cons, List.mem_filter, decide_eq_true_eq]
    exact ⟨fun h => h.2 rfl, ih.filter _⟩

theorem firstOccurrences_append : ∀ a b : List (List Byte),
    firstOccurrences (a ++ b)
      = firstOccurrences a ++ (firstOccurrences b).filter fun name => decide (name ∉ a) := by
  intro a
  induction a with
  | nil => intro b; simp [firstOccurrences]
  | cons head rest ih =>
    intro b
    show firstOccurrences (head :: (rest ++ b)) = _
    rw [firstOccurrences, ih b, firstOccurrences, List.filter_append, List.filter_filter,
      List.cons_append]
    congr 2
    apply List.filter_congr
    intro name _
    by_cases h1 : name = head <;> by_cases h2 : name ∈ rest <;> simp [h1, h2]

/-- The inner loop appends, in order of first occurrence, the names of the list that are
not yet among `names`. -/
theorem addObjectNames_eq : ∀ (objectList names : List (List Byte)),
    addObjectNames names objectList
      = names ++ (firstOccurrences objectList).filter fun name => decide (name ∉ names) := by
  intro objectList
  induction objectList with
  | nil => intro names; simp [addObjectNames, firstOccurrences]
  | cons head rest ih =>
    intro names
    by_cases hmem : head ∈ names
    · simp only [addObjectNames, hmem, if_true, ih, firstOccurrences, List.filter_cons,
        not_true_eq_false, decide_False, Bool.false_eq_true, if_false, List.filter_filter]
      congr 1
      apply List.filter_congr
      intro name _
      by_cases h1 : name = head
      · subst h1
        simp [hmem]
      · simp [h1]
    · simp only [addObjectNames, hmem, if_false, ih, firstOccurrences, List.filter_cons,
        not_false_eq_true, decide_True, if_true, List.filter_filter, List.append_assoc,
        List.singleton_append]
      congr 2
      apply List.filter_congr
      intro name _
      by_cases h1 : name = head <;> by_cases h2 : name ∈ names <;> simp [h1, h2]

/-- The outer loop appends, in order of first occurrence, the object names of the root
branches left that are not yet among `names`. -/
theorem addRootNames_eq (tree : Tree) : ∀ (roots : List (List Byte)) (names : List (List Byte)),
    addRootNames tree names roots
      = names ++ (firstOccurrences
          (roots.map fun rootName => tree.getBranchListAt (objectPath rootName)).flatten).filter
            fun name => decide (name ∉ names) := by
  intro roots
  induction roots with
  | nil => intro names; simp [addRootNames, firstOccurrences]
  | cons rootName rest ih =>
    intro names
    simp only [addRootNames, ih, addObjectNames_eq, List.map_cons, List.flatten_cons,
      firstOccurrences_append, List.filter_append, List.filter_filter, List.append_assoc]
    congr 2
    apply List.filter_congr
    intro name _
    simp only [List.mem_append, List.mem_filter, mem_firstOccurrences, decide_eq_true_eq]
    by_cases h1 : name ∈ names <;>
      by_cases h2 : name ∈ tree.getBranchListAt (objectPath rootName) <;> simp [h1, h2]

/-- The path that `getObjectNames` builds for a root branch is `"/<root>/objects"`. -/
theorem objectPath_eq (root : List Byte) :
    objectPath root = ascii "/" ++ root ++ ascii "/objects" := rfl

/-- The names that `getObjectNames` returns are the first occurrences among all the object
names of the tree. -/
theorem getObjectNames_allObjectNames (tree : Tree) :
    getObjectNames tree = firstOccurrences (allObjectNames tree) := by
  simp only [getObjectNames, addRootNames_eq, objectPath_eq, List.nil_append, allObjectNames]
  simp

/-- C30: for every tree, the list that `getObjectNames` returns has no duplicates; its
members are exactly the names that the tree has under the path `"/<root>/objects"` for some
root branch `<root>`; and it lists them in order of first occurrence, the root branches and
the objects of each taken in the order of the tree. -/
theorem getObjectNames_firstOccurrences (tree : Tree) :
    (getObjectNames tree).Nodup ∧
    (∀ name, name ∈ getObjectNames tree ↔
      ∃ root ∈ tree.getBranchList,
        name ∈ tree.getBranchListAt (ascii "/" ++ root ++ ascii "/objects")) ∧
    getObjectNames tree
      = firstOccurrences ((tree.getBranchList.map fun root =>
          tree.getBranchListAt (ascii "/" ++ root ++ ascii "/objects")).flatten) := by
  have heq : getObjectNames tree
      = firstOccurrences ((tree.getBranchList.map fun root =>
          tree.getBranchListAt (ascii "/" ++ root ++ ascii "/objects")).flatten) := by
    rw [getObjectNames, addRootNames_eq]
    simp only [objectPath, List.nil_append]
    simp
  refine ⟨?_, ?_, heq⟩
  · rw [heq]
    exact nodup_firstOccurrences _
  · intro name
    rw [heq, mem_firstOccurrences]
    simp [List.mem_flatten]

/-- The sample tree: `image` and `camera` come first, from `world`, then `window`, the only
new name of `scene`; the name found at the path `"world"` is not among them. -/
theorem getObjectNames_sampleTree :
    getObjectNames sampleTree = [ascii "image", ascii "camera", ascii "window"] := by
  decide

end Splash
